import Mathlib

/-!
# baxcat_cxx: the categorical component (symmetric Dirichlet-multinomial)

A shallow embedding of `cxx/src/categorical.cpp`, `cxx/include/datatypes/categorical.hpp`
and the parts of `models/msd.hpp` they call.

Conventions of the embedding:

* `double` values are idealised as real numbers (`ℝ`); rounding, infinities and NaN are
  outside the model.  `log` is `Real.log`, which agrees with the C function on positive
  arguments only.  There are three exceptions.  The counter `_n` is a `double` that
  `insertElement` and `removeElement` change by `++` and `--`: these two results are rounded
  to `double`.  The result of `constructHyperpriorConfig` on all-zero data is decided by
  rounding: its sum and quotient are rounded to `double`.  `logsumexp` exists to avoid
  overflow: its intermediate results are `double` values that can be `+inf`.
* the samplers (`predictiveSample`, `mhSample`) and the random generator are not among the
  sources; the functions that call them take them as parameters.
* `size_t` values are natural numbers below `SIZE_T_MODULUS = 2 ^ 64`; `++` and `--` on a
  `size_t` are taken modulo `SIZE_T_MODULUS`.
* `std::vector<T>` is `List T`; reading or writing `v[i]` with `i` out of range is undefined
  behaviour in C++ and is `none` here.
* an assertion failure is `none`.
-/

namespace baxcat

/-- The number of values of a `size_t` (64-bit target). -/
def SIZE_T_MODULUS : ℕ := 2 ^ 64

/-- The data members of `baxcat::datatypes::Categorical`:
`_n`, `_counts`, `_dirichlet_alpha` and `_log_Z0`. -/
structure Categorical where
  n : ℝ
  counts : List ℕ
  dirichlet_alpha : ℝ
  log_Z0 : ℝ

/-- Every stored count is a value of type `size_t`. -/
def Categorical.WellTyped (s : Categorical) : Prop :=
  ∀ c ∈ s.counts, c < SIZE_T_MODULUS

/-- `std::map<std::string, double>`, as an association list read by first match. -/
abbrev StringMap := List (String × ℝ)

/-- Rounding of a real to the nearest integer, ties to the even one. -/
noncomputable def roundHalfEven (y : ℝ) : ℤ :=
  if y - ⌊y⌋ < 1 / 2 then ⌊y⌋
  else if 1 / 2 < y - ⌊y⌋ then ⌊y⌋ + 1
  else if ⌊y⌋ % 2 = 0 then ⌊y⌋ else ⌊y⌋ + 1

/-- The spacing of the `double` values around `x` (53 significant bits); exponent range
limits, that is overflow and subnormal values, are left out. -/
noncomputable def ulp (x : ℝ) : ℝ :=
  (2 : ℝ) ^ (Int.log 2 |x| - 52)

/-- The `double` nearest to a real (round to nearest, ties to even), as produced by one
arithmetic operation on `double` operands. -/
noncomputable def roundToDouble (x : ℝ) : ℝ :=
  if x = 0 then 0 else (roundHalfEven (x / ulp x) : ℝ) * ulp x

namespace models

/-- Modelled from the spec: `MultinomialDirichlet<size_t>::suffstatInsert` of `models/msd.hpp`,
which is not among the sources.  It increments `counts[x]`; the element type `size_t` is the
one declared for `_counts` in `categorical.hpp`, so the increment is modulo `2 ^ 64`. -/
def suffstatInsert (x : ℕ) (counts : List ℕ) : Option (List ℕ) :=
  match counts[x]? with
  | some c => some (counts.set x ((c + 1) % SIZE_T_MODULUS))
  | none => none

/-- Modelled from the spec: `MultinomialDirichlet<size_t>::suffstatRemove` of `models/msd.hpp`,
which is not among the sources.  It decrements `counts[x]`; on a `size_t` holding `0` the
decrement wraps around to `2 ^ 64 - 1`. -/
def suffstatRemove (x : ℕ) (counts : List ℕ) : Option (List ℕ) :=
  match counts[x]? with
  | some c => some (counts.set x ((c + (SIZE_T_MODULUS - 1)) % SIZE_T_MODULUS))
  | none => none

/-- Modelled from the spec: `MultinomialDirichlet<size_t>::logPredictiveProbability` of
`models/msd.hpp`, which is not among the sources:
`log(counts[x] + alpha) - log(n + K * alpha)` with `K` the number of categories and
`n = sum(counts)`; the argument `log_z` is accepted and not used. -/
noncomputable def logPredictiveProbability (x : ℕ) (counts : List ℕ) (alpha : ℝ) (_log_z : ℝ) :
    Option ℝ :=
  match counts[x]? with
  | some c =>
    some (Real.log ((c : ℝ) + alpha)
      - Real.log (((counts.sum : ℕ) : ℝ) + (counts.length : ℝ) * alpha))
  | none => none

/-- Modelled from the spec: `MultinomialDirichlet<size_t>::logSingletonProbability` of
`models/msd.hpp`, which is not among the sources, with the arguments of its call in
`Categorical::singletonLogp`: `logSingletonProbability(x, K, alpha) = -log(K)`. -/
noncomputable def logSingletonProbability (_x : ℕ) (K : ℕ) (_alpha : ℝ) : ℝ :=
  -Real.log (K : ℝ)

end models

namespace Categorical

/-- Index `HYPER_DIRICHLET_ALPHA` of `enum hyper_idx`. -/
def HYPER_DIRICHLET_ALPHA : ℕ := 0

/-- Index `DIRICHLET_ALPHA_SCALE` of `enum hyperprior_config`. -/
def DIRICHLET_ALPHA_SCALE : ℕ := 0

/-- The conversion `static_cast<size_t>(d)` of a `double`: truncation toward zero, defined
when the truncated value is representable. -/
noncomputable def double_to_size_t (d : ℝ) : Option ℕ :=
  if -1 < d ∧ d < (SIZE_T_MODULUS : ℝ) then some ⌊d⌋₊ else none

/-- The constructor `Categorical(std::vector<double> &distargs)`. -/
noncomputable def ofDistargs (distargs : List ℝ) : Option Categorical :=
  match distargs[0]? with
  | some d =>
    match double_to_size_t (d + 0.5) with
    | some K => some { n := 0, counts := List.replicate K 0, dirichlet_alpha := 1, log_Z0 := 0 }
    | none => none
  | none => none

/-- The constructor `Categorical(double n, std::vector<size_t> counts, double dirichlet_alpha)`. -/
def ofSuffstats (n : ℝ) (counts : List ℕ) (dirichlet_alpha : ℝ) : Categorical :=
  { n := n, counts := counts, dirichlet_alpha := dirichlet_alpha, log_Z0 := 0 }

/-- `Categorical::insertElement`: `++_n; _csd.suffstatInsert(x, _counts);`.  The member `_n`
is a `double`, so `++_n` stores the `double` nearest to `_n + 1`. -/
noncomputable def insertElement (s : Categorical) (x : ℕ) : Option Categorical :=
  match models.suffstatInsert x s.counts with
  | some c => some { s with n := roundToDouble (s.n + 1), counts := c }
  | none => none

/-- `Categorical::removeElement`: `--_n; _csd.suffstatRemove(x, _counts);`.  The member `_n`
is a `double`, so `--_n` stores the `double` nearest to `_n - 1`. -/
noncomputable def removeElement (s : Categorical) (x : ℕ) : Option Categorical :=
  match models.suffstatRemove x s.counts with
  | some c => some { s with n := roundToDouble (s.n - 1), counts := c }
  | none => none

/-- `Categorical::clear`: `_n = 0; std::fill(_counts.begin(), _counts.end(), 0);`
(the resize by `distargs[0]` is commented out in the source). -/
def clear (s : Categorical) (_distargs : List ℝ) : Categorical :=
  { s with n := 0, counts := s.counts.map fun _ => 0 }

/-- `Categorical::updateConstants`: `_log_Z0 = 0;`. -/
def updateConstants (s : Categorical) : Categorical :=
  { s with log_Z0 := 0 }

/-- `Categorical::setHypers`:
`_dirichlet_alpha = hypers[HYPER_DIRICHLET_ALPHA]; updateConstants();`. -/
def setHypers (s : Categorical) (hypers : List ℝ) : Option Categorical :=
  match hypers[HYPER_DIRICHLET_ALPHA]? with
  | some a => some (updateConstants { s with dirichlet_alpha := a })
  | none => none

/-- The read `hypers[key]` of a `std::map<std::string, double>`: the stored value, or a
value-initialised `0` when the key is absent. -/
def mapIndex (hypers : StringMap) (key : String) : ℝ :=
  (hypers.lookup key).getD 0

/-- `Categorical::setHypersByMap`:
`_dirichlet_alpha = hypers["dirichlet_alpha"]; updateConstants();`. -/
def setHypersByMap (s : Categorical) (hypers : StringMap) : Categorical :=
  updateConstants { s with dirichlet_alpha := mapIndex hypers "dirichlet_alpha" }

/-- `Categorical::elementLogp`:
`return _csd.logPredictiveProbability(x, _counts, _dirichlet_alpha, _log_Z0);`. -/
noncomputable def elementLogp (s : Categorical) (x : ℕ) : Option ℝ :=
  models.logPredictiveProbability x s.counts s.dirichlet_alpha s.log_Z0

/-- `Categorical::singletonLogp`:
`return _csd.logSingletonProbability(x, _counts.size(), _dirichlet_alpha);`. -/
noncomputable def singletonLogp (s : Categorical) (x : ℕ) : ℝ :=
  models.logSingletonProbability x s.counts.length s.dirichlet_alpha

/-- The invariant `n == sum(counts)` of the data model. -/
def SumInvariant (s : Categorical) : Prop :=
  s.n = ((s.counts.sum : ℕ) : ℝ)

end Categorical

/-! ## Marginal likelihood, hyperprior, accessors -/

/-- The C library function `lgamma`: the logarithm of the absolute value of the gamma
function. -/
noncomputable def lgamma (x : ℝ) : ℝ :=
  Real.log |Real.Gamma x|

namespace models

/-- Modelled from the spec: `MultinomialDirichlet<size_t>::logMarginalLikelihood` of
`models/msd.hpp`, which is not among the sources:
`lgamma(K*alpha) - lgamma(n + K*alpha) + sum_k [lgamma(counts[k] + alpha) - lgamma(alpha)]`. -/
noncomputable def logMarginalLikelihood (n : ℝ) (counts : List ℕ) (alpha : ℝ) : ℝ :=
  lgamma ((counts.length : ℝ) * alpha) - lgamma (n + (counts.length : ℝ) * alpha)
    + (counts.map fun (c : ℕ) => lgamma ((c : ℝ) + alpha) - lgamma alpha).sum

/-- Modelled from the spec: `MultinomialDirichlet<size_t>::logLikelihood` of `models/msd.hpp`,
which is not among the sources:
`lgamma(n+1) - sum_k lgamma(counts[k]+1) + sum_k counts[k]*log(p[k])` with `n = sum(counts)`;
`p[k]` is read for every index `k` of `counts`. -/
noncomputable def logLikelihood (counts : List ℕ) (p : List ℝ) : Option ℝ :=
  if counts.length ≤ p.length then
    some (lgamma (((counts.sum : ℕ) : ℝ) + 1)
      - (counts.map fun (c : ℕ) => lgamma ((c : ℝ) + 1)).sum
      + (List.zipWith (fun (c : ℕ) (q : ℝ) => (c : ℝ) * Real.log q) counts p).sum)
  else none

end models

namespace dist.gamma

/-- Modelled from the spec: `baxcat::dist::gamma::logPdf(x, shape, scale)` of
`distributions/gamma.hpp`, which is not among the sources: the log density of the gamma
distribution with the given shape and scale at `x`. -/
noncomputable def logPdf (x shape scale : ℝ) : ℝ :=
  -lgamma shape - shape * Real.log scale + (shape - 1) * Real.log x - x / scale

end dist.gamma

/-- Modelled from the spec: the macro `ASSERT_GREATER_THAN_ZERO(os, v)` of `debug.hpp`, which
is not among the sources: a fatal assertion failure unless `v > 0`. -/
noncomputable def ASSERT_GREATER_THAN_ZERO (v : ℝ) : Option Unit :=
  if 0 < v then some () else none

/-- The assignment `m[key] = v` on a `std::map<std::string, double>`: overwrite the entry of
`key`, or insert one. -/
def mapAssign (m : StringMap) (key : String) (v : ℝ) : StringMap :=
  match m with
  | [] => [(key, v)]
  | (k, w) :: rest => if k = key then (k, v) :: rest else (k, w) :: mapAssign rest key v

namespace Categorical

/-- `Categorical::logp`:
`return _csd.logMarginalLikelihood(_n, _counts, _dirichlet_alpha);`. -/
noncomputable def logp (s : Categorical) : ℝ :=
  models.logMarginalLikelihood s.n s.counts s.dirichlet_alpha

/-- `Categorical::hyperpriorLogp`: the assertion on `hyperprior_config[DIRICHLET_ALPHA_SCALE]`,
then `gamma::logPdf(_dirichlet_alpha, 1., hyperprior_config[DIRICHLET_ALPHA_SCALE])`. -/
noncomputable def hyperpriorLogp (s : Categorical) (hyperprior_config : List ℝ) : Option ℝ :=
  match hyperprior_config[DIRICHLET_ALPHA_SCALE]? with
  | some scale =>
    match ASSERT_GREATER_THAN_ZERO scale with
    | some _ => some (dist.gamma.logPdf s.dirichlet_alpha 1 scale)
    | none => none
  | none => none

/-- `Categorical::getHypers`: a one-element vector holding `_dirichlet_alpha`. -/
def getHypers (s : Categorical) : List ℝ :=
  (List.replicate 1 (0 : ℝ)).set HYPER_DIRICHLET_ALPHA s.dirichlet_alpha

/-- `Categorical::getHypersMap`: an empty map, then
`hypers["dirichlet_alpha"] = _dirichlet_alpha`. -/
def getHypersMap (s : Categorical) : StringMap :=
  mapAssign [] "dirichlet_alpha" s.dirichlet_alpha

end Categorical

/-! ## Draws, hyperprior configuration, hyperparameter resampling -/

/-- The statement `++v[c]` on a `std::vector<size_t>`. -/
def incrementAt (v : List ℕ) (c : ℕ) : Option (List ℕ) :=
  match v[c]? with
  | some k => some (v.set c ((k + 1) % SIZE_T_MODULUS))
  | none => none

/-- The loop `for (auto &c : contraints) ++counts_copy[c];` of `drawConstrained`. -/
def incrementEach : List ℕ → List ℕ → Option (List ℕ)
  | counts_copy, [] => some counts_copy
  | counts_copy, c :: rest =>
    match incrementAt counts_copy c with
    | some next => incrementEach next rest
    | none => none

/-- The counts of the component obtained by adding one pseudo-observation per constraint, in
the words of the specification: `counts[i]` plus the number of occurrences of `i` among the
constraints, as a `size_t`. -/
def withPseudoObservations (counts constraints : List ℕ) : List ℕ :=
  (List.range counts.length).map fun i =>
    (counts.getD i 0 + constraints.count i) % SIZE_T_MODULUS

/-- The value `std::numeric_limits<double>::min()`: the smallest positive normal `double`. -/
noncomputable def DBL_MIN : ℝ := (2 : ℝ) ^ (-1022 : ℤ)

namespace utils

/-- `baxcat::utils::vector_max` at `T = double`: the running maximum starts from
`std::numeric_limits<T>::min()`; the `isnan`/`isinf` tests always pass on reals. -/
noncomputable def vector_max (v : List ℝ) : ℝ :=
  v.foldl (fun max x => if x > max then x else max) DBL_MIN

end utils

namespace Categorical

/-- `Categorical::draw`: `return _csd.predictiveSample(_counts, _dirichlet_alpha, rng, _log_Z0);`.
The sampler `predictiveSample` of `models/msd.hpp` and the generator are not among the sources
and are parameters; `β` holds whatever the sampler yields (the category and the new generator
state). -/
def draw {R β : Type} (predictiveSample : List ℕ → ℝ → R → ℝ → β) (s : Categorical) (rng : R) :
    β :=
  predictiveSample s.counts s.dirichlet_alpha rng s.log_Z0

/-- `Categorical::drawConstrained`: copy `_counts`, increment the copy at every constraint,
then `return _csd.predictiveSample(counts_copy, _dirichlet_alpha, rng, _log_Z0);`. -/
def drawConstrained {R β : Type} (predictiveSample : List ℕ → ℝ → R → ℝ → β) (s : Categorical)
    (contraints : List ℕ) (rng : R) : Option β :=
  match incrementEach s.counts contraints with
  | some counts_copy => some (predictiveSample counts_copy s.dirichlet_alpha rng s.log_Z0)
  | none => none

/-- `Categorical::constructHyperpriorConfig`: `K = vector_max(X) + 1`, `alpha_scale = 1./K`,
returned as a one-element vector.  The sum and the quotient are rounded to `double`: the
running maximum of `vector_max` starts from `DBL_MIN`, which the sum absorbs. -/
noncomputable def constructHyperpriorConfig (X : List ℝ) : List ℝ :=
  let K := roundToDouble (utils.vector_max X + 1)
  let alpha_scale := roundToDouble (1 / K)
  (List.replicate 1 (0 : ℝ)).set DIRICHLET_ALPHA_SCALE alpha_scale

/-- `Categorical::hyperDirichletAlphaConditional_`:
`return _csd.logMarginalLikelihood(_n, _counts, alpha);`. -/
noncomputable def hyperDirichletAlphaConditional_ (s : Categorical) (alpha : ℝ) : ℝ :=
  models.logMarginalLikelihood s.n s.counts alpha

/-- `Categorical::constructDirichletAlphaConditional`: read
`hyperprior_config[DIRICHLET_ALPHA_SCALE]` and return the function that starts from
`gamma::logPdf(alpha, 1., alpha_scale)` and adds `hyperDirichletAlphaConditional_(alpha)` of
each model in turn. -/
noncomputable def constructDirichletAlphaConditional (models : List Categorical)
    (hyperprior_config : List ℝ) : Option (ℝ → ℝ) :=
  match hyperprior_config[DIRICHLET_ALPHA_SCALE]? with
  | some alpha_scale =>
    some fun alpha =>
      models.foldl (fun logp model => logp + model.hyperDirichletAlphaConditional_ alpha)
        (dist.gamma.logPdf alpha 1 alpha_scale)
  | none => none

/-- `Categorical::resampleHypers`.  The generator call `rng->urand(a, b)` and the sampler
`mhSample(x_0, f, {0, INF}, w, burn, rng)` of `samplers/` are not among the sources and are
parameters; the sampler may fail.  The result is the returned vector, the models after the
broadcast, and the generator state. -/
noncomputable def resampleHypers {R : Type} (urand : R → ℝ → ℝ → ℝ × R)
    (mhSample : ℝ → (ℝ → ℝ) → EReal × EReal → ℝ → ℕ → R → Option (ℝ × R))
    (models : List Categorical) (hyperprior_config : List ℝ) (rng : R) (burn : ℕ) :
    Option (List ℝ × List Categorical × R) :=
  match constructDirichletAlphaConditional models hyperprior_config with
  | none => none
  | some alpha_unscaled_post =>
    match models[0]? with
    | none => none
    | some model0 =>
      let hypers := model0.getHypers
      let U := (urand rng (-1) 1).1
      let rng1 := (urand rng (-1) 1).2
      match hyperprior_config[DIRICHLET_ALPHA_SCALE]? with
      | none => none
      | some scale =>
        let w := scale / 2
        let x_0 := scale + U * w
        match mhSample x_0 alpha_unscaled_post (0, ⊤) w burn rng1 with
        | none => none
        | some (v, rng2) =>
          let hypers1 := hypers.set HYPER_DIRICHLET_ALPHA v
          match models.mapM (fun model => model.setHypers hypers1) with
          | none => none
          | some models1 => some (hypers1, models1, rng2)

end Categorical

namespace Categorical

/-- The component states a program can hold: those built by one of the two constructors and
then changed by the mutating methods. -/
inductive Reachable : Categorical → Prop
  | ofDistargs (distargs : List ℝ) (s : Categorical) :
      Categorical.ofDistargs distargs = some s → Reachable s
  | ofSuffstats (n : ℝ) (counts : List ℕ) (dirichlet_alpha : ℝ) :
      Reachable (Categorical.ofSuffstats n counts dirichlet_alpha)
  | insertElement (s t : Categorical) (x : ℕ) :
      Reachable s → s.insertElement x = some t → Reachable t
  | removeElement (s t : Categorical) (x : ℕ) :
      Reachable s → s.removeElement x = some t → Reachable t
  | clear (s : Categorical) (distargs : List ℝ) : Reachable s → Reachable (s.clear distargs)
  | setHypers (s t : Categorical) (hypers : List ℝ) :
      Reachable s → s.setHypers hypers = some t → Reachable t
  | setHypersByMap (s : Categorical) (hypers : StringMap) :
      Reachable s → Reachable (s.setHypersByMap hypers)

end Categorical

/-! ## Log-space numeric primitives (`numerics.hpp`) and vector utilities (`utils.hpp`) -/

/-- Modelled from the spec: the macro `ASSERT(os, cond)` of `debug.hpp`, which is not among the
sources: a fatal assertion failure unless `cond` holds. -/
def ASSERT (cond : Prop) [Decidable cond] : Option Unit :=
  if cond then some () else none

/-- The values a `double` takes in `logsumexp`: a real number (rounding and underflow are not
modelled), `+inf`, `-inf` or NaN. -/
inductive ExtDouble where
  | finite (x : ℝ)
  | posInf
  | negInf
  | nan

/-- The least real that rounds to `+inf` (round to nearest): half a spacing above `DBL_MAX`. -/
noncomputable def DBL_OVERFLOW : ℝ := 2 ^ 1024 - 2 ^ 970

namespace ExtDouble

/-- The `double` result of an operation whose exact value is `x`: `+inf` when `x` reaches the
overflow threshold, `x` itself otherwise.  Overflow towards `-inf` is left out with underflow:
in `logsumexp` only an exponent `P[i] - max` can be that negative, and its exponential is 0
instead of a positive number below `2^-1074`. -/
noncomputable def ofReal (x : ℝ) : ExtDouble :=
  if x < DBL_OVERFLOW then finite x else posInf

/-- The function `exp` on `double`. -/
noncomputable def exp : ExtDouble → ExtDouble
  | finite x => ofReal (Real.exp x)
  | posInf => posInf
  | negInf => finite 0
  | nan => nan

/-- The function `log` on `double`: `log(0) = -inf` and the logarithm of a negative number is
NaN. -/
noncomputable def log : ExtDouble → ExtDouble
  | finite x => if 0 < x then finite (Real.log x) else if x = 0 then negInf else nan
  | posInf => posInf
  | negInf => nan
  | nan => nan

end ExtDouble

namespace numerics

/-- `baxcat::numerics::lbeta` at `double` arguments. -/
noncomputable def lbeta (alpha beta : ℝ) : Option ℝ :=
  match ASSERT_GREATER_THAN_ZERO alpha with
  | none => none
  | some _ =>
    match ASSERT_GREATER_THAN_ZERO beta with
    | none => none
    | some _ => some (lgamma alpha + lgamma beta - lgamma (alpha + beta))

/-- `baxcat::numerics::lfactorial` at a `double` argument: `ASSERT(N >= 0)`, then
`lgamma(N+1)`. -/
noncomputable def lfactorial (N : ℝ) : Option ℝ :=
  match ASSERT (N ≥ 0) with
  | none => none
  | some _ => some (lgamma (N + 1))

/-- `baxcat::numerics::lnchoosek` at `double` arguments. -/
noncomputable def lnchoosek (n k : ℝ) : Option ℝ :=
  match ASSERT (n ≥ 0) with
  | none => none
  | some _ =>
    match ASSERT (k ≥ 0) with
    | none => none
    | some _ =>
      if n = k ∨ k = 0 then some 0
      else
        match lfactorial n, lfactorial k, lfactorial (n - k) with
        | some fn, some fk, some fnk => some (fn - fk - fnk)
        | _, _, _ => none

/-- `baxcat::numerics::lcrp`: the two assertions, then the sum of `lgamma(double(k))` over the
block sizes, plus `K*log(alpha) + lgamma(alpha) - lgamma(double(n)+alpha)`. -/
noncomputable def lcrp (Nk : List ℕ) (n : ℕ) (alpha : ℝ) : Option ℝ :=
  match ASSERT_GREATER_THAN_ZERO alpha with
  | none => none
  | some _ =>
    match ASSERT_GREATER_THAN_ZERO (n : ℝ) with
    | none => none
    | some _ =>
      let K : ℝ := (Nk.length : ℝ)
      let sum_gammaln := Nk.foldl (fun (acc : ℝ) (k : ℕ) => acc + lgamma (k : ℝ)) 0
      some (sum_gammaln + K * Real.log alpha + lgamma alpha - lgamma ((n : ℝ) + alpha))

end numerics

namespace utils

/-- `baxcat::utils::linspace`: the two assertions, a vector of `n` copies of `a`, then
`ret[i] = a + i*interval` for `i` from 1 to `n - 1`, with `interval = (b-a)/double(n-1)`. -/
noncomputable def linspace (a b : ℝ) (n : ℕ) : Option (List ℝ) :=
  match ASSERT (a < b) with
  | none => none
  | some _ =>
    match ASSERT (n > 0) with
    | none => none
    | some _ =>
      let interval : ℝ := (b - a) / ((n - 1 : ℕ) : ℝ)
      some ((List.range' 1 (n - 1)).foldl
        (fun (ret : List ℝ) (i : ℕ) => ret.set i (a + (i : ℝ) * interval))
        (List.replicate n a))

end utils

namespace Categorical

/-- Successive calls `insertElement(x)` for the elements `x` of a sequence, in order. -/
noncomputable def insertElements (s : Categorical) : List ℕ → Option Categorical
  | [] => some s
  | x :: rest =>
    match s.insertElement x with
    | some t => insertElements t rest
    | none => none

end Categorical

/-! ## Binary search (`utils.hpp`) -/

/-- The least value of the type `int` (32 bits). -/
def INT_MIN : ℤ := -(2 ^ 31)

/-- The greatest value of the type `int` (32 bits). -/
def INT_MAX : ℤ := 2 ^ 31 - 1

/-- The conversion `int(u)` of a `size_t` value `u`: the value of `int` congruent to `u`
modulo `2 ^ 32`. -/
def size_t_to_int (u : ℕ) : ℤ :=
  ((u : ℤ) + 2 ^ 31) % 2 ^ 32 - 2 ^ 31

/-- The conversion of an `int` to `size_t`: the value congruent to it modulo `2 ^ 64`. -/
def int_to_size_t (z : ℤ) : ℕ :=
  (z % (SIZE_T_MODULUS : ℤ)).toNat

/-- The result of an arithmetic operation on `int` whose mathematical value is `z`: that
value when it is representable; signed overflow is undefined. -/
def intArith (z : ℤ) : Option ℤ :=
  if INT_MIN ≤ z ∧ z ≤ INT_MAX then some z else none

/-- The read `A[i]` of a `std::vector<size_t>` at an `int` index, which `operator[]` receives
as a `size_t`; there is no element outside the bounds. -/
def vectorAt (A : List ℕ) (i : ℤ) : Option ℕ :=
  A[int_to_size_t i]?

namespace utils

/-- The `while` loop of `binary_search` and the `return` after it, on the local variables
`imin`, `imax`, `imid`; the first argument bounds the number of iterations. -/
def binary_search_loop (A : List ℕ) (key : ℕ) : ℕ → ℤ → ℤ → ℤ → Option ℕ
  | 0, _, _, _ => none
  | fuel + 1, imin, imax, imid =>
    if imax ≥ imin then
      match intArith (imax - imin) with
      | none => none
      | some d =>
        match intArith (imin + d.tdiv 2) with
        | none => none
        | some mid =>
          match vectorAt A mid with
          | none => none
          | some a =>
            if a = key then some (int_to_size_t mid)
            else if a < key then
              match intArith (mid + 1) with
              | none => none
              | some next => binary_search_loop A key fuel next imax mid
            else
              match intArith (mid - 1) with
              | none => none
              | some next => binary_search_loop A key fuel imin next mid
    else
      match vectorAt A imid with
      | none => none
      | some a =>
        if a < key then (intArith (imid + 1)).map int_to_size_t
        else some (int_to_size_t imid)

/-- `baxcat::utils::binary_search`: `imin = 0`, `imax = int(A.size()-1)` with the subtraction
on `size_t` (the sum with `2 ^ 64 - 1`, reduced modulo `2 ^ 64`), `imid = 0`, then the loop.  Every iteration removes at least one index from
`imin..imax`, so `A.size() + 1` steps are enough whenever the loop is entered with
`imax < A.size()`. -/
def binary_search (A : List ℕ) (key : ℕ) : Option ℕ :=
  binary_search_loop A key (A.length + 1) 0
    (size_t_to_int ((SIZE_T_MODULUS - 1 + A.length) % SIZE_T_MODULUS)) 0

end utils

/-! ## Set partitions as restricted-growth strings (`utils.hpp`) -/

namespace utils

/-- The inner loop of `next_partition`,
`for (size_t j = i+1; j <= n-1; ++j) { k[j] = k[0]; M[j] = M[i]; }`, entered at index `j` with
`count` iterations left. -/
def next_partition_reset (i : ℕ) : ℕ → ℕ → List ℕ × List ℕ → Option (List ℕ × List ℕ)
  | 0, _, kM => some kM
  | count + 1, j, (k, M) =>
    match k[0]?, M[i]? with
    | some k0, some Mi =>
      if j < k.length ∧ j < M.length then
        next_partition_reset i count (j + 1) (k.set j k0, M.set j Mi)
      else none
    | _, _ => none

/-- The outer loop of `next_partition`, `for (size_t i = n-1; i >= 1; --i)`, entered at index
`i`: at the first index with `k[i] <= M[i-1]` it increments `k[i]` (a `size_t`), updates
`M[i]`, runs the inner loop and returns `true`; when `i` reaches 0 it returns `false`.  The
result carries the vectors `k` and `M`, which the source receives by reference. -/
def next_partition_scan (k M : List ℕ) : ℕ → Option (Bool × List ℕ × List ℕ)
  | 0 => some (false, k, M)
  | i + 1 =>
    match k[i + 1]?, M[i]? with
    | some ki, some Mprev =>
      if ki ≤ Mprev then
        match M[i + 1]? with
        | none => none
        | some Mi =>
          match next_partition_reset (i + 1) (k.length - 1 - (i + 1)) (i + 2)
              (k.set (i + 1) ((ki + 1) % SIZE_T_MODULUS),
               M.set (i + 1) (if Mi > (ki + 1) % SIZE_T_MODULUS then Mi
                              else (ki + 1) % SIZE_T_MODULUS)) with
          | some (k2, M2) => some (true, k2, M2)
          | none => none
      else next_partition_scan k M i
    | _, _ => none

/-- `baxcat::utils::next_partition`: `n = k.size()`, then the outer loop from `i = n-1`, the
subtraction being on `size_t` (the sum with `2 ^ 64 - 1`, reduced modulo `2 ^ 64`). -/
def next_partition (k M : List ℕ) : Option (Bool × List ℕ × List ℕ) :=
  next_partition_scan k M ((SIZE_T_MODULUS - 1 + k.length) % SIZE_T_MODULUS)

/-- Calling `next_partition` until it returns `false`: the list of the states `(k, M)` at
which it was called, in order.  The first argument bounds the number of calls. -/
def partitionsFrom : ℕ → List ℕ → List ℕ → Option (List (List ℕ × List ℕ))
  | 0, _, _ => none
  | fuel + 1, k, M =>
    match next_partition k M with
    | none => none
    | some (false, _, _) => some [(k, M)]
    | some (true, k1, M1) => (partitionsFrom fuel k1 M1).map fun rest => (k, M) :: rest

end utils

/-- The value `max(k[0..i])`. -/
def prefixMax (k : List ℕ) : ℕ → ℕ
  | 0 => k.getD 0 0
  | i + 1 => max (prefixMax k i) (k.getD (i + 1) 0)

/-- A restricted-growth string: `k[0] = 0` and `k[i] <= max(k[0..i-1]) + 1` for `i >= 1`. -/
def IsRestrictedGrowth (k : List ℕ) : Prop :=
  k.getD 0 0 = 0 ∧ ∀ i, i < k.length → 1 ≤ i → k.getD i 0 ≤ prefixMax k (i - 1) + 1

/-- Two assignments of labels to the items `0 .. n-1` describe the same set partition: they
have the same length and put the same pairs of items in a common block. -/
def SamePartition (a b : List ℕ) : Prop :=
  a.length = b.length ∧
    ∀ i j, i < a.length → j < a.length → (a.getD i 0 = a.getD j 0 ↔ b.getD i 0 = b.getD j 0)

/-- The Bell number: the number of set partitions (equivalence relations) of `n` items. -/
noncomputable def Bell (n : ℕ) : ℕ :=
  Nat.card (Setoid (Fin n))

/-- The running maxima of a string continued after a prefix whose maximum is `m`. -/
def runningMax (m : ℕ) : List ℕ → List ℕ
  | [] => []
  | d :: s => max m d :: runningMax (max m d) s

/-- The continuations of a restricted-growth prefix whose maximum is `m`: every entry is at
most one more than the maximum of what precedes it. -/
def IsExtension (m : ℕ) : List ℕ → Prop
  | [] => True
  | d :: s => d ≤ m + 1 ∧ IsExtension (max m d) s

/-- All continuations of length `len` of a restricted-growth prefix whose maximum is `m`, in
lexicographic order. -/
def extensions (m : ℕ) : ℕ → List (List ℕ)
  | 0 => [[]]
  | len + 1 =>
    (List.range (m + 2)).flatMap fun d => (extensions (max m d) len).map fun s => d :: s

/-! ## Auxiliary facts about lists and `size_t` arithmetic -/

theorem list_set_same {α : Type} (l : List α) (x : ℕ) (c : α) (h : l[x]? = some c) :
    l.set x c = l := by
  induction l generalizing x with
  | nil => rfl
  | cons a t ih =>
    cases x with
    | zero => simp at h; simp [h]
    | succ k => simp at h; simp [ih k h]

theorem list_sum_set (l : List ℕ) (x : ℕ) (c v : ℕ) (h : l[x]? = some c) :
    (l.set x v).sum + c = l.sum + v := by
  induction l generalizing x with
  | nil => simp at h
  | cons a t ih =>
    cases x with
    | zero => simp at h; simp [h]; omega
    | succ k => simp at h; have := ih k h; simp; omega

theorem sum_replicate_zero (K : ℕ) : (List.replicate K 0).sum = 0 := by
  induction K with
  | zero => rfl
  | succ k ih => simp [List.replicate_succ]

theorem sum_map_zero (l : List ℕ) : (l.map fun _ => 0).sum = 0 := by
  induction l with
  | nil => rfl
  | cons a t ih => simp

theorem size_t_incr_decr (c : ℕ) (h : c < SIZE_T_MODULUS) :
    ((c + 1) % SIZE_T_MODULUS + (SIZE_T_MODULUS - 1)) % SIZE_T_MODULUS = c := by
  unfold SIZE_T_MODULUS at *
  omega

theorem size_t_decr (c : ℕ) (h : c < SIZE_T_MODULUS) (hpos : 1 ≤ c) :
    (c + (SIZE_T_MODULUS - 1)) % SIZE_T_MODULUS = c - 1 := by
  unfold SIZE_T_MODULUS at *
  omega

/-! ## Rounding to `double` -/

theorem roundHalfEven_bounds (y : ℝ) :
    (⌊y⌋ : ℝ) ≤ (roundHalfEven y : ℝ) ∧ |(roundHalfEven y : ℝ) - y| ≤ 1 / 2 := by
  have h1 := Int.floor_le y
  have h2 := Int.lt_floor_add_one y
  unfold roundHalfEven
  split_ifs with ha hb hc
  · refine ⟨le_rfl, ?_⟩
    rw [abs_le]
    constructor <;> linarith
  · push_cast
    refine ⟨by linarith, ?_⟩
    rw [abs_le]
    constructor <;> linarith
  · refine ⟨le_rfl, ?_⟩
    rw [abs_le]
    constructor <;> linarith
  · push_cast
    refine ⟨by linarith, ?_⟩
    rw [abs_le]
    constructor <;> linarith

theorem roundHalfEven_near (z : ℤ) (y : ℝ) (h0 : (z : ℝ) ≤ y) (h1 : y < (z : ℝ) + 1 / 2) :
    roundHalfEven y = z := by
  have hf : ⌊y⌋ = z := Int.floor_eq_iff.2 ⟨h0, by linarith⟩
  unfold roundHalfEven
  rw [hf, if_pos (by linarith)]

theorem ulp_pos (x : ℝ) : 0 < ulp x :=
  zpow_pos (by norm_num) _

theorem ulp_bounds (x : ℝ) (hx : 0 < x) :
    (2 : ℝ) ^ (52 : ℕ) * ulp x ≤ x ∧ ulp x ≤ (2 : ℝ) ^ (-52 : ℤ) * x := by
  have hle : ((2 : ℕ) : ℝ) ^ Int.log 2 x ≤ x := Int.zpow_log_le_self (by norm_num) hx
  rw [Nat.cast_ofNat] at hle
  have hsplit : (2 : ℝ) ^ Int.log 2 x = (2 : ℝ) ^ (52 : ℕ) * ulp x := by
    unfold ulp
    rw [abs_of_pos hx, ← zpow_natCast, ← zpow_add₀ (by norm_num)]
    congr 1
    push_cast
    ring
  rw [hsplit] at hle
  refine ⟨hle, ?_⟩
  have h52 : (2 : ℝ) ^ (-52 : ℤ) * (2 : ℝ) ^ (52 : ℕ) = 1 := by
    rw [← zpow_natCast, ← zpow_add₀ (by norm_num)]
    norm_num
  have : (2 : ℝ) ^ (-52 : ℤ) * ((2 : ℝ) ^ (52 : ℕ) * ulp x) ≤ (2 : ℝ) ^ (-52 : ℤ) * x :=
    mul_le_mul_of_nonneg_left hle (by positivity)
  rwa [← mul_assoc, h52, one_mul] at this

theorem roundToDouble_pos_near (x : ℝ) (hx : 0 < x) :
    0 < roundToDouble x ∧ |roundToDouble x - x| ≤ (2 : ℝ) ^ (-53 : ℤ) * x := by
  have hu := ulp_pos x
  have hb := ulp_bounds x hx
  have hr := roundHalfEven_bounds (x / ulp x)
  have hy : (2 : ℝ) ^ (52 : ℕ) ≤ x / ulp x := (le_div_iff₀ hu).2 hb.1
  have hfl := Int.lt_floor_add_one (x / ulp x)
  have hrpos : (0 : ℝ) < (roundHalfEven (x / ulp x) : ℝ) := by
    have : (1 : ℝ) < (2 : ℝ) ^ (52 : ℕ) := by norm_num
    linarith [hr.1]
  rw [roundToDouble, if_neg (ne_of_gt hx)]
  refine ⟨mul_pos hrpos hu, ?_⟩
  have e : (roundHalfEven (x / ulp x) : ℝ) * ulp x - x
      = ((roundHalfEven (x / ulp x) : ℝ) - x / ulp x) * ulp x := by
    field_simp
  rw [e, abs_mul, abs_of_pos hu]
  have h53 : (2 : ℝ) ^ (-53 : ℤ) * x = 1 / 2 * ((2 : ℝ) ^ (-52 : ℤ) * x) := by
    rw [← mul_assoc]
    congr 1
    norm_num
  rw [h53]
  exact mul_le_mul hr.2 hb.2 (le_of_lt hu) (by norm_num)

theorem roundToDouble_natCast (k : ℕ) (h1 : 1 ≤ k) (h2 : k < 2 ^ 53) :
    roundToDouble (k : ℝ) = (k : ℝ) := by
  have hk : (0 : ℝ) < (k : ℝ) := by exact_mod_cast h1
  have he : Nat.log 2 k < 53 := (Nat.lt_pow_iff_log_lt (by norm_num) (by omega)).1 h2
  obtain ⟨d, hd⟩ : ∃ d : ℕ, Nat.log 2 k + d = 52 := ⟨52 - Nat.log 2 k, by omega⟩
  have hulp : ulp (k : ℝ) = ((2 : ℝ) ^ d)⁻¹ := by
    unfold ulp
    rw [abs_of_pos hk, Int.log_natCast, ← zpow_natCast, ← zpow_neg]
    congr 1
    omega
  have hy : (k : ℝ) / ulp (k : ℝ) = (((k * 2 ^ d : ℕ) : ℤ) : ℝ) := by
    rw [hulp]
    push_cast
    field_simp
  rw [roundToDouble, if_neg (ne_of_gt hk), hy,
    roundHalfEven_near _ _ le_rfl (by linarith), hulp]
  push_cast
  field_simp

/-- Every integer of magnitude at most `2^53` is a `double`. -/
theorem roundToDouble_natAbs (z : ℤ) (h : z.natAbs ≤ 2 ^ 53) :
    roundToDouble (z : ℝ) = (z : ℝ) := by
  by_cases hz : z = 0
  · rw [hz, Int.cast_zero, roundToDouble, if_pos rfl]
  have hne : (z : ℝ) ≠ 0 := by exact_mod_cast hz
  have habs : |(z : ℝ)| = ((z.natAbs : ℕ) : ℝ) := by
    rw [Nat.cast_natAbs, Int.cast_abs]
  have hk1 : 1 ≤ z.natAbs := Nat.one_le_iff_ne_zero.2 (Int.natAbs_ne_zero.2 hz)
  rcases Nat.eq_or_lt_of_le h with h53 | hlt
  · have hulp : ulp (z : ℝ) = 2 := by
      unfold ulp
      rw [habs, Int.log_natCast, h53, Nat.log_pow (by norm_num)]
      norm_num
    have hdvd : (2 : ℤ) ∣ z := by
      have : (2 : ℤ) ∣ ((z.natAbs : ℕ) : ℤ) := by
        rw [h53]
        norm_num
      exact (Int.dvd_natAbs).1 (by simpa using this)
    obtain ⟨w, hw⟩ := hdvd
    have hy : (z : ℝ) / ulp (z : ℝ) = ((w : ℤ) : ℝ) := by
      rw [hulp, hw]
      push_cast
      field_simp
    rw [roundToDouble, if_neg hne, hy, roundHalfEven_near _ _ le_rfl (by linarith), hulp, hw]
    push_cast
    ring
  · have he : Nat.log 2 z.natAbs < 53 :=
      (Nat.lt_pow_iff_log_lt (by norm_num) (by omega)).1 hlt
    obtain ⟨d, hd⟩ : ∃ d : ℕ, Nat.log 2 z.natAbs + d = 52 := ⟨52 - Nat.log 2 z.natAbs, by omega⟩
    have hulp : ulp (z : ℝ) = ((2 : ℝ) ^ d)⁻¹ := by
      unfold ulp
      rw [habs, Int.log_natCast, ← zpow_natCast, ← zpow_neg]
      congr 1
      omega
    have hy : (z : ℝ) / ulp (z : ℝ) = (((z * 2 ^ d : ℤ)) : ℝ) := by
      rw [hulp]
      push_cast
      field_simp
    rw [roundToDouble, if_neg hne, hy, roundHalfEven_near _ _ le_rfl (by linarith), hulp]
    push_cast
    field_simp

/-- The real `2^53 + 1` lies half way between the `double` values `2^53` and `2^53 + 2` and
rounds to the even one, `2^53`. -/
theorem roundToDouble_tie : roundToDouble (9007199254740992 + 1) = 9007199254740992 := by
  have hx : (0 : ℝ) < 9007199254740992 + 1 := by norm_num
  have hlog : Int.log 2 |(9007199254740992 + 1 : ℝ)| = 53 := by
    rw [abs_of_pos hx]
    have e : (9007199254740992 + 1 : ℝ) = ((9007199254740993 : ℕ) : ℝ) := by norm_num
    rw [e, Int.log_natCast]
    have : Nat.log 2 9007199254740993 = 53 := by
      rw [Nat.log_eq_iff (by norm_num)]
      norm_num
    rw [this]
    rfl
  have hulp : ulp (9007199254740992 + 1) = 2 := by
    unfold ulp
    rw [hlog]
    norm_num
  have hfloor : ⌊((9007199254740992 + 1 : ℝ)) / 2⌋ = 4503599627370496 := by
    rw [Int.floor_eq_iff]
    norm_num
  have hround : roundHalfEven ((9007199254740992 + 1 : ℝ) / 2) = 4503599627370496 := by
    unfold roundHalfEven
    rw [hfloor]
    norm_num
  rw [roundToDouble, if_neg (ne_of_gt hx), hulp, hround]
  norm_num

/-- The real `2^-53`, a power of two, is a `double`. -/
theorem roundToDouble_inv_two_pow_53 :
    roundToDouble (1 / 9007199254740992) = 1 / 9007199254740992 := by
  have hx : (0 : ℝ) < 1 / 9007199254740992 := by norm_num
  have e : (1 / 9007199254740992 : ℝ) = (2 : ℝ) ^ (-53 : ℤ) := by norm_num
  have hlog : Int.log 2 |(1 / 9007199254740992 : ℝ)| = -53 := by
    rw [abs_of_pos hx, e]
    exact Int.log_zpow (by norm_num) _
  have hulp : ulp (1 / 9007199254740992) = (2 : ℝ) ^ (-105 : ℤ) := by
    unfold ulp
    rw [hlog]
    norm_num
  have hy : (1 / 9007199254740992 : ℝ) / (2 : ℝ) ^ (-105 : ℤ) = ((4503599627370496 : ℤ) : ℝ) := by
    rw [e, ← zpow_sub₀ (by norm_num)]
    norm_num
  rw [roundToDouble, if_neg (ne_of_gt hx), hulp, hy,
    roundHalfEven_near _ _ le_rfl (by linarith), e]
  have : ((4503599627370496 : ℤ) : ℝ) = (2 : ℝ) ^ (52 : ℤ) := by norm_num
  rw [this, ← zpow_add₀ (by norm_num)]
  norm_num

theorem roundToDouble_intCast (z : ℤ) (h : -2 ^ 53 ≤ z ∧ z ≤ 2 ^ 53) :
    roundToDouble (z : ℝ) = (z : ℝ) :=
  roundToDouble_natAbs z (by omega)

theorem roundToDouble_add_one (n : ℝ) (z : ℤ) (hn : n = (z : ℝ)) (h : -2 ^ 53 ≤ z ∧ z < 2 ^ 53) :
    roundToDouble (n + 1) = n + 1 := by
  have := roundToDouble_intCast (z + 1) (by omega)
  push_cast at this
  rw [hn, this]

theorem roundToDouble_sub_one (n : ℝ) (z : ℤ) (hn : n = (z : ℝ)) (h : -2 ^ 53 < z ∧ z ≤ 2 ^ 53) :
    roundToDouble (n - 1) = n - 1 := by
  have := roundToDouble_intCast (z - 1) (by omega)
  push_cast at this
  rw [hn, this]

/-! ## Sufficient statistics: insert, remove, clear, hyperparameters -/

theorem insertElement_eq (s : Categorical) (x c : ℕ) (h : s.counts[x]? = some c) :
    s.insertElement x
      = some { s with n := roundToDouble (s.n + 1),
                      counts := s.counts.set x ((c + 1) % SIZE_T_MODULUS) } := by
  simp [Categorical.insertElement, models.suffstatInsert, h]

theorem removeElement_eq (s : Categorical) (x c : ℕ) (h : s.counts[x]? = some c) :
    s.removeElement x
      = some { s with n := roundToDouble (s.n - 1),
                      counts := s.counts.set x ((c + (SIZE_T_MODULUS - 1)) % SIZE_T_MODULUS) } := by
  simp [Categorical.removeElement, models.suffstatRemove, h]

theorem setHypers_cons (s : Categorical) (a : ℝ) (rest : List ℝ) :
    s.setHypers (a :: rest)
      = some (Categorical.updateConstants { s with dirichlet_alpha := a }) := by
  simp [Categorical.setHypers, Categorical.HYPER_DIRICHLET_ALPHA]

theorem wellTyped_145 : (Categorical.ofSuffstats 10 [1, 4, 5] 1).WellTyped := by
  intro c hc
  simp [Categorical.ofSuffstats] at hc
  rcases hc with h | h | h <;> simp [h, SIZE_T_MODULUS]

/-- C1 (as amended): for every component state whose `n` is an integer with
`-2^53 <= n < 2^53` and every category `x < K` whose count is below the largest `size_t`,
`insertElement(x)` increases `counts[x]` by exactly 1 and `n` by exactly 1, and leaves every
other count, the length `K` of `counts`, and `alpha` unchanged. -/
theorem insertElement_frame (s : Categorical) (x : ℕ) (z : ℤ) (hn : s.n = (z : ℝ))
    (hz : -2 ^ 53 ≤ z ∧ z < 2 ^ 53) (hx : x < s.counts.length)
    (hc : s.counts[x] + 1 < SIZE_T_MODULUS) :
    ∃ s', s.insertElement x = some s' ∧
      s'.counts[x]? = some (s.counts[x] + 1) ∧
      s'.n = s.n + 1 ∧
      (∀ i, i ≠ x → s'.counts[i]? = s.counts[i]?) ∧
      s'.counts.length = s.counts.length ∧
      s'.dirichlet_alpha = s.dirichlet_alpha := by
  refine ⟨_, insertElement_eq s x _ (List.getElem?_eq_getElem hx), ?_,
    roundToDouble_add_one s.n z hn hz, ?_, ?_, rfl⟩
  · simp [List.getElem?_set_self hx, Nat.mod_eq_of_lt hc]
  · intro i hi
    simp [List.getElem?_set_ne (Ne.symm hi)]
  · simp

theorem insertElement_frame_witness :
    ∃ s', (Categorical.ofSuffstats 10 [1, 4, 5] 1).insertElement 1 = some s' ∧
      s'.counts[1]? = some (4 + 1) ∧
      s'.n = 10 + 1 ∧
      (∀ i, i ≠ 1 → s'.counts[i]? = [1, 4, 5][i]?) ∧
      s'.counts.length = 3 ∧
      s'.dirichlet_alpha = 1 :=
  insertElement_frame (Categorical.ofSuffstats 10 [1, 4, 5] 1) 1 10
    (by simp [Categorical.ofSuffstats]) (by norm_num)
    (by simp [Categorical.ofSuffstats]) (by simp [Categorical.ofSuffstats, SIZE_T_MODULUS])

/-- C1 (counterexample): on a count equal to the largest `size_t`, `2 ^ 64 - 1`,
`insertElement` wraps the count around to 0 instead of increasing it by 1; and on `n = 2^53`
it leaves `n` as it is, because `2^53 + 1` is rounded to the `double` `2^53`. -/
theorem insertElement_not_exact :
    (((Categorical.ofSuffstats 0 [18446744073709551615] 1).insertElement 0).map
        (fun s' => s'.counts) = some [0] ∧
      (0 : ℕ) ≠ 18446744073709551615 + 1) ∧
    (((Categorical.ofSuffstats 9007199254740992 [0] 1).insertElement 0).map
        (fun s' => s'.n) = some 9007199254740992 ∧
      (9007199254740992 : ℝ) ≠ 9007199254740992 + 1) := by
  refine ⟨⟨?_, by decide⟩, ?_, by norm_num⟩
  · rw [insertElement_eq _ 0 18446744073709551615 (by simp [Categorical.ofSuffstats])]
    simp [Categorical.ofSuffstats, SIZE_T_MODULUS]
  · rw [insertElement_eq _ 0 0 (by simp [Categorical.ofSuffstats])]
    simp only [Categorical.ofSuffstats, Option.map_some', roundToDouble_tie]

/-- C2 (as amended): for every component state whose `n` is an integer with
`-2^53 < n <= 2^53` and every category `x < K` with `counts[x] >= 1`, `removeElement(x)`
decreases `counts[x]` by exactly 1 and `n` by exactly 1, without unsigned wrap-around, and
leaves every other count, the length `K` and `alpha` unchanged. -/
theorem removeElement_frame (s : Categorical) (x : ℕ) (z : ℤ) (hn : s.n = (z : ℝ))
    (hz : -2 ^ 53 < z ∧ z ≤ 2 ^ 53) (hty : s.WellTyped)
    (hx : x < s.counts.length) (hpos : 1 ≤ s.counts[x]) :
    ∃ s', s.removeElement x = some s' ∧
      (∃ c', s'.counts[x]? = some c' ∧ c' + 1 = s.counts[x]) ∧
      s'.n = s.n - 1 ∧
      (∀ i, i ≠ x → s'.counts[i]? = s.counts[i]?) ∧
      s'.counts.length = s.counts.length ∧
      s'.dirichlet_alpha = s.dirichlet_alpha := by
  have hlt : s.counts[x] < SIZE_T_MODULUS := hty _ (List.getElem_mem hx)
  refine ⟨_, removeElement_eq s x _ (List.getElem?_eq_getElem hx), ?_,
    roundToDouble_sub_one s.n z hn hz, ?_, ?_, rfl⟩
  · refine ⟨s.counts[x] - 1, ?_, by omega⟩
    simp [List.getElem?_set_self hx, size_t_decr _ hlt hpos]
  · intro i hi
    simp [List.getElem?_set_ne (Ne.symm hi)]
  · simp

theorem removeElement_frame_witness :
    ∃ s', (Categorical.ofSuffstats 10 [1, 4, 5] 1).removeElement 1 = some s' ∧
      (∃ c', s'.counts[1]? = some c' ∧ c' + 1 = 4) ∧
      s'.n = 10 - 1 ∧
      (∀ i, i ≠ 1 → s'.counts[i]? = [1, 4, 5][i]?) ∧
      s'.counts.length = 3 ∧
      s'.dirichlet_alpha = 1 :=
  removeElement_frame (Categorical.ofSuffstats 10 [1, 4, 5] 1) 1 10
    (by simp [Categorical.ofSuffstats]) (by norm_num) wellTyped_145
    (by simp [Categorical.ofSuffstats]) (by simp [Categorical.ofSuffstats])

/-- C2 (counterexample): in the state `Categorical(2^53 + 2, {1}, 1)`, where `counts[0] >= 1`,
`removeElement(0)` leaves `n = 2^53`: the difference `2^53 + 1` is not a `double` and is
rounded to the even neighbour, so `n` decreases by 2. -/
theorem removeElement_rounds :
    (Categorical.ofSuffstats 9007199254740994 [1] 1).WellTyped ∧
    ((Categorical.ofSuffstats 9007199254740994 [1] 1).removeElement 0).map (fun s' => s'.n)
      = some 9007199254740992 ∧
    (9007199254740992 : ℝ) ≠ 9007199254740994 - 1 := by
  refine ⟨?_, ?_, by norm_num⟩
  · intro c hc
    simp [Categorical.ofSuffstats] at hc
    simp [hc, SIZE_T_MODULUS]
  · rw [removeElement_eq _ 0 1 (by simp [Categorical.ofSuffstats])]
    have e : (9007199254740994 : ℝ) - 1 = 9007199254740992 + 1 := by norm_num
    simp only [Categorical.ofSuffstats, Option.map_some', e, roundToDouble_tie]

/-- C3 (as amended): for every component state `s` whose `n` is an integer with
`-2^53 <= n < 2^53` and every category `x < K`, `insertElement(x)` followed by
`removeElement(x)` yields a state equal to `s`: counts, `n`, `alpha` (and the cached `log_Z0`)
are unchanged. -/
theorem insert_then_remove (s : Categorical) (x : ℕ) (z : ℤ) (hn : s.n = (z : ℝ))
    (hz : -2 ^ 53 ≤ z ∧ z < 2 ^ 53) (hty : s.WellTyped)
    (hx : x < s.counts.length) :
    (s.insertElement x).bind (fun t => t.removeElement x) = some s := by
  have hlt : s.counts[x] < SIZE_T_MODULUS := hty _ (List.getElem_mem hx)
  have hget : s.counts[x]? = some s.counts[x] := List.getElem?_eq_getElem hx
  have h1 : roundToDouble (s.n + 1) = s.n + 1 := roundToDouble_add_one s.n z hn hz
  have h2 : roundToDouble (s.n + 1 - 1) = s.n := by
    have := roundToDouble_sub_one (s.n + 1) (z + 1) (by rw [hn]; push_cast; rfl) (by omega)
    rw [this]
    ring
  rw [insertElement_eq s x _ hget, Option.some_bind]
  rw [removeElement_eq _ x ((s.counts[x] + 1) % SIZE_T_MODULUS)
    (by simp [List.getElem?_set_self hx])]
  simp only [List.set_set, size_t_incr_decr _ hlt, list_set_same _ _ _ hget, h1, h2]

theorem insert_then_remove_witness :
    ((Categorical.ofSuffstats 10 [1, 4, 5] 1).insertElement 2).bind
        (fun t => t.removeElement 2)
      = some (Categorical.ofSuffstats 10 [1, 4, 5] 1) :=
  insert_then_remove (Categorical.ofSuffstats 10 [1, 4, 5] 1) 2 10
    (by simp [Categorical.ofSuffstats]) (by norm_num) wellTyped_145
    (by simp [Categorical.ofSuffstats])

/-- C3 (counterexample): in the state `Categorical(2^53, {0}, 1)`, `insertElement(0)` leaves
`n = 2^53` (the sum `2^53 + 1` is rounded) and `removeElement(0)` then stores `2^53 - 1`: the
counts are restored and `n` is not. -/
theorem insert_then_remove_rounds :
    (Categorical.ofSuffstats 9007199254740992 [0] 1).WellTyped ∧
    (((Categorical.ofSuffstats 9007199254740992 [0] 1).insertElement 0).bind
        (fun t => t.removeElement 0)).map (fun s' => (s'.n, s'.counts))
      = some (9007199254740992 - 1, [0]) ∧
    ((Categorical.ofSuffstats 9007199254740992 [0] 1).insertElement 0).bind
        (fun t => t.removeElement 0)
      ≠ some (Categorical.ofSuffstats 9007199254740992 [0] 1) := by
  have hsub : roundToDouble (9007199254740992 - 1) = 9007199254740992 - 1 := by
    have := roundToDouble_intCast 9007199254740991 (by norm_num)
    norm_num at this ⊢
    exact this
  have hrun : ((Categorical.ofSuffstats 9007199254740992 [0] 1).insertElement 0).bind
        (fun t => t.removeElement 0)
      = some { n := 9007199254740992 - 1, counts := [0], dirichlet_alpha := 1, log_Z0 := 0 } := by
    rw [insertElement_eq _ 0 0 (by simp [Categorical.ofSuffstats]), Option.some_bind,
      removeElement_eq _ 0 1 (by simp [Categorical.ofSuffstats, SIZE_T_MODULUS])]
    simp only [Categorical.ofSuffstats, roundToDouble_tie, hsub, List.set_cons_zero,
      SIZE_T_MODULUS]
    norm_num
  refine ⟨?_, ?_, ?_⟩
  · intro c hc
    simp [Categorical.ofSuffstats] at hc
    simp [hc, SIZE_T_MODULUS]
  · rw [hrun]
    rfl
  · rw [hrun]
    intro h
    have hn := congrArg (fun o => o.map fun (t : Categorical) => t.n) h
    simp only [Option.map_some', Categorical.ofSuffstats, Option.some.injEq] at hn
    norm_num at hn

/-- C4 (as amended): `n == sum(counts)` holds for every instance produced by the constructor
from distargs, holds for an instance produced by the constructor from explicit
`n, counts, alpha` exactly when the given `n` is the sum of the given counts, and is preserved
by `insertElement` while `n` is below `2^53`, by `removeElement` (of a value whose count is
positive) while `n` is at most `2^53`, and by `clear`, `setHypers` and `setHypersByMap`. -/
theorem sumInvariant_maintained (s : Categorical) (x : ℕ) (hty : s.WellTyped)
    (hinv : s.SumInvariant) (hx : x < s.counts.length) :
    (∀ (d : ℝ) (rest : List ℝ), -1 < d + 0.5 → d + 0.5 < (SIZE_T_MODULUS : ℝ) →
        ∃ s0, Categorical.ofDistargs (d :: rest) = some s0 ∧ s0.SumInvariant) ∧
    (∀ (n : ℝ) (counts : List ℕ) (alpha : ℝ),
        (Categorical.ofSuffstats n counts alpha).SumInvariant ↔ n = ((counts.sum : ℕ) : ℝ)) ∧
    (s.counts.sum < 2 ^ 53 →
        ∃ s', s.insertElement x = some s' ∧ s'.SumInvariant) ∧
    (1 ≤ s.counts[x] → s.counts.sum ≤ 2 ^ 53 →
        ∃ s', s.removeElement x = some s' ∧ s'.SumInvariant) ∧
    (∀ distargs : List ℝ, (s.clear distargs).SumInvariant) ∧
    (∀ (a : ℝ) (rest : List ℝ), ∃ s', s.setHypers (a :: rest) = some s' ∧ s'.SumInvariant) ∧
    (∀ m : StringMap, (s.setHypersByMap m).SumInvariant) := by
  have hlt : s.counts[x] < SIZE_T_MODULUS := hty _ (List.getElem_mem hx)
  have hget : s.counts[x]? = some s.counts[x] := List.getElem?_eq_getElem hx
  have hle : s.counts[x] ≤ s.counts.sum := List.le_sum_of_mem (List.getElem_mem hx)
  have hn : s.n = (((s.counts.sum : ℕ) : ℤ) : ℝ) := by
    have h0 : s.n = ((s.counts.sum : ℕ) : ℝ) := hinv
    rw [h0, Int.cast_natCast]
  refine ⟨?_, ?_, ?_, ?_, ?_, ?_, ?_⟩
  · intro d rest h1 h2
    refine ⟨{ n := 0, counts := List.replicate ⌊d + 0.5⌋₊ 0, dirichlet_alpha := 1,
              log_Z0 := 0 }, ?_, ?_⟩
    · simp only [Categorical.ofDistargs, List.getElem?_cons_zero, Categorical.double_to_size_t,
        h1, h2, and_self, if_true]
    · simp [Categorical.SumInvariant, sum_replicate_zero]
  · intro n counts alpha
    rfl
  · intro hsum
    have hc : s.counts[x] + 1 < SIZE_T_MODULUS := by
      unfold SIZE_T_MODULUS
      omega
    refine ⟨_, insertElement_eq s x _ hget, ?_⟩
    have hs := list_sum_set s.counts x s.counts[x] ((s.counts[x] + 1) % SIZE_T_MODULUS) hget
    rw [Nat.mod_eq_of_lt hc] at hs ⊢
    have hs' : (s.counts.set x (s.counts[x] + 1)).sum = s.counts.sum + 1 := by omega
    have hr := roundToDouble_add_one s.n _ hn (by omega)
    simp only [Categorical.SumInvariant] at hinv ⊢
    rw [hs', hr, hinv]
    push_cast
    rfl
  · intro hpos hsum
    refine ⟨_, removeElement_eq s x _ hget, ?_⟩
    have hs := list_sum_set s.counts x s.counts[x]
      ((s.counts[x] + (SIZE_T_MODULUS - 1)) % SIZE_T_MODULUS) hget
    rw [size_t_decr _ hlt hpos] at hs ⊢
    have hs' : (s.counts.set x (s.counts[x] - 1)).sum + 1 = s.counts.sum := by omega
    have hr := roundToDouble_sub_one s.n _ hn (by omega)
    simp only [Categorical.SumInvariant] at hinv ⊢
    rw [hr, hinv, ← hs']
    push_cast
    ring
  · intro distargs
    simp [Categorical.SumInvariant, Categorical.clear, sum_map_zero]
  · intro a rest
    exact ⟨_, setHypers_cons s a rest, hinv⟩
  · intro m
    exact hinv

theorem sumInvariant_maintained_witness :
    (∀ (d : ℝ) (rest : List ℝ), -1 < d + 0.5 → d + 0.5 < (SIZE_T_MODULUS : ℝ) →
        ∃ s0, Categorical.ofDistargs (d :: rest) = some s0 ∧ s0.SumInvariant) ∧
    (∀ (n : ℝ) (counts : List ℕ) (alpha : ℝ),
        (Categorical.ofSuffstats n counts alpha).SumInvariant ↔ n = ((counts.sum : ℕ) : ℝ)) ∧
    (([1, 4, 5] : List ℕ).sum < 2 ^ 53 →
        ∃ s', (Categorical.ofSuffstats 10 [1, 4, 5] 1).insertElement 1 = some s' ∧
          s'.SumInvariant) ∧
    (1 ≤ (4 : ℕ) → ([1, 4, 5] : List ℕ).sum ≤ 2 ^ 53 →
        ∃ s', (Categorical.ofSuffstats 10 [1, 4, 5] 1).removeElement 1 = some s' ∧
          s'.SumInvariant) ∧
    (∀ distargs : List ℝ, ((Categorical.ofSuffstats 10 [1, 4, 5] 1).clear distargs).SumInvariant) ∧
    (∀ (a : ℝ) (rest : List ℝ),
        ∃ s', (Categorical.ofSuffstats 10 [1, 4, 5] 1).setHypers (a :: rest) = some s' ∧
          s'.SumInvariant) ∧
    (∀ m : StringMap, ((Categorical.ofSuffstats 10 [1, 4, 5] 1).setHypersByMap m).SumInvariant) :=
  sumInvariant_maintained (Categorical.ofSuffstats 10 [1, 4, 5] 1) 1 wellTyped_145
    (by simp [Categorical.SumInvariant, Categorical.ofSuffstats])
    (by simp [Categorical.ofSuffstats])

/-- C4 (counterexample): the constructor from explicit `n, counts, alpha` stores what it is
given, so `Categorical(3, {1,1,1,1}, 1.45)` has `n = 3` and `sum(counts) = 4`; and in
`Categorical(2^53, {2^53}, 1)`, where the invariant holds, `insertElement(0)` makes the count
`2^53 + 1` and leaves `n = 2^53`, which breaks it. -/
theorem sumInvariant_fails_ofSuffstats :
    ¬ (Categorical.ofSuffstats 3 [1, 1, 1, 1] 1.45).SumInvariant ∧
    ((Categorical.ofSuffstats 9007199254740992 [9007199254740992] 1).SumInvariant ∧
      ∃ s', (Categorical.ofSuffstats 9007199254740992 [9007199254740992] 1).insertElement 0
          = some s' ∧ ¬ s'.SumInvariant) := by
  refine ⟨?_, ?_, ?_⟩
  · simp [Categorical.SumInvariant, Categorical.ofSuffstats]
  · simp [Categorical.SumInvariant, Categorical.ofSuffstats]
  · refine ⟨_, insertElement_eq _ 0 9007199254740992 (by simp [Categorical.ofSuffstats]), ?_⟩
    simp only [Categorical.SumInvariant, Categorical.ofSuffstats, roundToDouble_tie,
      List.set_cons_zero, SIZE_T_MODULUS]
    norm_num

/-- C5 (as amended): `setHypers` stores `hypers[0]` and `setHypersByMap` stores the map's value
for the key "dirichlet_alpha" (0 when the key is absent) whatever its sign, without failing;
so `alpha > 0` holds after the call exactly when the value given is positive. -/
theorem setHypers_stores_given_alpha (s : Categorical) (a : ℝ) (rest : List ℝ) (m : StringMap) :
    (∃ s', s.setHypers (a :: rest) = some s' ∧ s'.dirichlet_alpha = a ∧
        (0 < s'.dirichlet_alpha ↔ 0 < a)) ∧
    (s.setHypersByMap m).dirichlet_alpha = (m.lookup "dirichlet_alpha").getD 0 ∧
    (0 < (s.setHypersByMap m).dirichlet_alpha ↔
        ∃ v, m.lookup "dirichlet_alpha" = some v ∧ 0 < v) := by
  refine ⟨⟨_, setHypers_cons s a rest, rfl, Iff.rfl⟩, rfl, ?_⟩
  show 0 < (m.lookup "dirichlet_alpha").getD 0 ↔ _
  cases h : m.lookup "dirichlet_alpha" with
  | none => simp
  | some v => simp

/-- C5 (counterexample): `setHypers` given `[-1]` stores `alpha = -1`, and `setHypersByMap`
given a map without the key "dirichlet_alpha" stores `alpha = 0`; neither call fails. -/
theorem setHypers_stores_nonpositive :
    ((Categorical.ofSuffstats 0 [0, 0] 1).setHypers [-1]).map (fun s' => s'.dirichlet_alpha)
      = some (-1) ∧
    ((Categorical.ofSuffstats 0 [0, 0] 1).setHypersByMap []).dirichlet_alpha = 0 := by
  constructor
  · rw [setHypers_cons]; rfl
  · rfl

/-- C6: for every component state and every distargs vector, `clear(distargs)` sets `n` to 0
and every count to 0, and leaves the length `K` of `counts` and `alpha` unchanged, whatever
category cardinality distargs names. -/
theorem clear_resets (s : Categorical) (distargs : List ℝ) :
    (s.clear distargs).n = 0 ∧
    (s.clear distargs).counts = List.replicate s.counts.length 0 ∧
    (s.clear distargs).counts.length = s.counts.length ∧
    (s.clear distargs).dirichlet_alpha = s.dirichlet_alpha := by
  refine ⟨rfl, ?_, ?_, rfl⟩
  · simp only [Categorical.clear]
    induction s.counts with
    | nil => rfl
    | cons a t ih => simp [List.replicate_succ, ih]
  · simp [Categorical.clear]

set_option maxHeartbeats 800000 in
/-- Enclosures of the logarithms used by the numerical scenarios, from the series of
`log (1 - x)`. -/
theorem log_series_bounds :
    (-0.2076393649 < Real.log (13 / 16) ∧ Real.log (13 / 16) < -0.2076393646) ∧
    (-0.2876820726 < Real.log (3 / 4) ∧ Real.log (3 / 4) < -0.2876820723) ∧
    (0.2231435512 < Real.log (5 / 4) ∧ Real.log (5 / 4) < 0.2231435514) ∧
    (-0.2381668531 < Real.log (8192 / 10395) ∧ Real.log (8192 / 10395) < -0.2381668530) ∧
    (-0.0837669544 < Real.log (24389 / 26520) ∧ Real.log (24389 / 26520) < -0.0837669543) ∧
    (0.0953101797 < Real.log (11 / 10) ∧ Real.log (11 / 10) < 0.0953101799) ∧
    (-0.2207713674 < Real.log (8019 / 10000) ∧ Real.log (8019 / 10000) < -0.2207713669) := by
  refine ⟨?_, ?_, ?_, ?_, ?_, ?_, ?_⟩
  · have h := Real.abs_log_sub_add_sum_range_le (x := 3 / 16)
      (by rw [abs_of_pos] <;> norm_num) 13
    have e : (1 : ℝ) - 3 / 16 = 13 / 16 := by norm_num
    rw [e, abs_of_pos (by norm_num : (0 : ℝ) < 3 / 16)] at h
    simp only [Finset.sum_range_succ, Finset.sum_range_zero] at h
    rw [abs_le] at h
    constructor
    · have := h.1
      norm_num at this ⊢
      linarith
    · have := h.2
      norm_num at this ⊢
      linarith
  · have h := Real.abs_log_sub_add_sum_range_le (x := 1 / 4)
      (by rw [abs_of_pos] <;> norm_num) 16
    have e : (1 : ℝ) - 1 / 4 = 3 / 4 := by norm_num
    rw [e, abs_of_pos (by norm_num : (0 : ℝ) < 1 / 4)] at h
    simp only [Finset.sum_range_succ, Finset.sum_range_zero] at h
    rw [abs_le] at h
    constructor
    · have := h.1
      norm_num at this ⊢
      linarith
    · have := h.2
      norm_num at this ⊢
      linarith
  · have h := Real.abs_log_sub_add_sum_range_le (x := -(1 / 4))
      (by rw [abs_neg, abs_of_pos] <;> norm_num) 16
    have e : (1 : ℝ) - -(1 / 4) = 5 / 4 := by norm_num
    rw [e, abs_neg, abs_of_pos (by norm_num : (0 : ℝ) < 1 / 4)] at h
    simp only [Finset.sum_range_succ, Finset.sum_range_zero] at h
    rw [abs_le] at h
    constructor
    · have := h.1
      norm_num at this ⊢
      linarith
    · have := h.2
      norm_num at this ⊢
      linarith
  · have h := Real.abs_log_sub_add_sum_range_le (x := 2203 / 10395)
      (by rw [abs_of_pos] <;> norm_num) 16
    have e : (1 : ℝ) - 2203 / 10395 = 8192 / 10395 := by norm_num
    rw [e, abs_of_pos (by norm_num : (0 : ℝ) < 2203 / 10395)] at h
    simp only [Finset.sum_range_succ, Finset.sum_range_zero] at h
    rw [abs_le] at h
    constructor
    · have := h.1
      norm_num at this ⊢
      linarith
    · have := h.2
      norm_num at this ⊢
      linarith
  · have h := Real.abs_log_sub_add_sum_range_le (x := 2131 / 26520)
      (by rw [abs_of_pos] <;> norm_num) 9
    have e : (1 : ℝ) - 2131 / 26520 = 24389 / 26520 := by norm_num
    rw [e, abs_of_pos (by norm_num : (0 : ℝ) < 2131 / 26520)] at h
    simp only [Finset.sum_range_succ, Finset.sum_range_zero] at h
    rw [abs_le] at h
    constructor
    · have := h.1
      norm_num at this ⊢
      linarith
    · have := h.2
      norm_num at this ⊢
      linarith
  · have h := Real.abs_log_sub_add_sum_range_le (x := -(1 / 10))
      (by rw [abs_neg, abs_of_pos] <;> norm_num) 11
    have e : (1 : ℝ) - -(1 / 10) = 11 / 10 := by norm_num
    rw [e, abs_neg, abs_of_pos (by norm_num : (0 : ℝ) < 1 / 10)] at h
    simp only [Finset.sum_range_succ, Finset.sum_range_zero] at h
    rw [abs_le] at h
    constructor
    · have := h.1
      norm_num at this ⊢
      linarith
    · have := h.2
      norm_num at this ⊢
      linarith
  · have h := Real.abs_log_sub_add_sum_range_le (x := 1981 / 10000)
      (by rw [abs_of_pos] <;> norm_num) 13
    have e : (1 : ℝ) - 1981 / 10000 = 8019 / 10000 := by norm_num
    rw [e, abs_of_pos (by norm_num : (0 : ℝ) < 1981 / 10000)] at h
    simp only [Finset.sum_range_succ, Finset.sum_range_zero] at h
    rw [abs_le] at h
    constructor
    · have := h.1
      norm_num at this ⊢
      linarith
    · have := h.2
      norm_num at this ⊢
      linarith

/-- Reductions of the logarithms of small integers to `log 2` and a logarithm near 1. -/
theorem log_identities :
    Real.log 13 = 4 * Real.log 2 + Real.log (13 / 16) ∧
    Real.log 5 = 2 * Real.log 2 + Real.log (5 / 4) ∧
    Real.log 3 = 2 * Real.log 2 + Real.log (3 / 4) ∧
    ∀ k : ℕ, Real.log ((2 : ℝ) ^ k) = k * Real.log 2 := by
  have h4 : Real.log 4 = 2 * Real.log 2 := by
    rw [show (4 : ℝ) = 2 ^ 2 by norm_num, Real.log_pow]; norm_num
  have h16 : Real.log 16 = 4 * Real.log 2 := by
    rw [show (16 : ℝ) = 2 ^ 4 by norm_num, Real.log_pow]; norm_num
  refine ⟨?_, ?_, ?_, fun k => by rw [Real.log_pow]⟩
  · rw [Real.log_div (by norm_num) (by norm_num), h16]; ring
  · rw [Real.log_div (by norm_num) (by norm_num), h4]; ring
  · rw [Real.log_div (by norm_num) (by norm_num), h4]; ring

/-! ## Predictive and singleton probabilities -/

theorem logPredictiveProbability_eq (counts : List ℕ) (alpha z : ℝ) (x c : ℕ)
    (h : counts[x]? = some c) :
    models.logPredictiveProbability x counts alpha z
      = some (Real.log ((c : ℝ) + alpha)
          - Real.log (((counts.sum : ℕ) : ℝ) + (counts.length : ℝ) * alpha)) := by
  unfold models.logPredictiveProbability
  simp [h]

theorem sum_range_getD (l : List ℕ) :
    ∑ x ∈ Finset.range l.length, ((l.getD x 0 : ℕ) : ℝ) = ((l.sum : ℕ) : ℝ) := by
  induction l with
  | nil => simp
  | cons a t ih =>
    rw [List.length_cons, Finset.sum_range_succ', List.sum_cons]
    simp only [List.getD_cons_succ, List.getD_cons_zero, ih]
    push_cast
    ring

theorem denominator_pos (counts : List ℕ) (alpha : ℝ) (hK : 1 ≤ counts.length)
    (hα : 0 < alpha) :
    0 < ((counts.sum : ℕ) : ℝ) + (counts.length : ℝ) * alpha := by
  have h1 : (0 : ℝ) ≤ ((counts.sum : ℕ) : ℝ) := Nat.cast_nonneg _
  have h2 : (0 : ℝ) < (counts.length : ℝ) := by exact_mod_cast hK
  have h3 : 0 < (counts.length : ℝ) * alpha := mul_pos h2 hα
  linarith

theorem exp_logPredictive (counts : List ℕ) (alpha : ℝ) (x c : ℕ) (hα : 0 < alpha)
    (h : counts[x]? = some c) :
    Real.exp (Real.log ((c : ℝ) + alpha)
        - Real.log (((counts.sum : ℕ) : ℝ) + (counts.length : ℝ) * alpha))
      = ((c : ℝ) + alpha) / (((counts.sum : ℕ) : ℝ) + (counts.length : ℝ) * alpha) := by
  have hx : x < counts.length := (List.getElem?_eq_some.1 h).1
  have hc : (0 : ℝ) < (c : ℝ) + alpha := by
    have : (0 : ℝ) ≤ (c : ℝ) := Nat.cast_nonneg _
    linarith
  rw [Real.exp_sub, Real.exp_log hc,
    Real.exp_log (denominator_pos counts alpha (by omega) hα)]

/-- C7: for every component state with `alpha > 0` and `n == sum(counts)`, and every `x < K`,
`elementLogp(x) = log(counts[x] + alpha) - log(n + K*alpha)`, the logarithm of the ratio
`(counts[x] + alpha) / (n + K*alpha)`; it does not depend on the cached `log_Z0`.  The method
is `const`, a function of the state returning a value only, so the state is unchanged. -/
theorem elementLogp_formula (s : Categorical) (x : ℕ) (hα : 0 < s.dirichlet_alpha)
    (hinv : s.SumInvariant) (hx : x < s.counts.length) :
    (∃ v, s.elementLogp x = some v ∧
      v = Real.log ((s.counts[x] : ℝ) + s.dirichlet_alpha)
            - Real.log (s.n + (s.counts.length : ℝ) * s.dirichlet_alpha) ∧
      Real.exp v = ((s.counts[x] : ℝ) + s.dirichlet_alpha)
            / (s.n + (s.counts.length : ℝ) * s.dirichlet_alpha)) ∧
    ∀ z : ℝ, ({ s with log_Z0 := z } : Categorical).elementLogp x = s.elementLogp x := by
  have hget : s.counts[x]? = some s.counts[x] := List.getElem?_eq_getElem hx
  refine ⟨⟨_, logPredictiveProbability_eq s.counts s.dirichlet_alpha s.log_Z0 x _ hget, ?_, ?_⟩,
    fun z => rfl⟩
  · rw [hinv]
  · rw [hinv]
    exact exp_logPredictive s.counts s.dirichlet_alpha x _ hα hget

theorem elementLogp_formula_witness :
    (∃ v, (Categorical.ofSuffstats 10 [1, 4, 5] 1).elementLogp 1 = some v ∧
      v = Real.log (((4 : ℕ) : ℝ) + 1) - Real.log (10 + ((3 : ℕ) : ℝ) * 1) ∧
      Real.exp v = (((4 : ℕ) : ℝ) + 1) / (10 + ((3 : ℕ) : ℝ) * 1)) ∧
    ∀ z : ℝ, ({ Categorical.ofSuffstats 10 [1, 4, 5] 1 with log_Z0 := z } :
        Categorical).elementLogp 1 = (Categorical.ofSuffstats 10 [1, 4, 5] 1).elementLogp 1 :=
  elementLogp_formula (Categorical.ofSuffstats 10 [1, 4, 5] 1) 1
    (by simp [Categorical.ofSuffstats])
    (by simp [Categorical.SumInvariant, Categorical.ofSuffstats])
    (by simp [Categorical.ofSuffstats])

/-- C8: for `counts = {1,4,5}` (`n = 10`): with `alpha = 1` the predictive log-probability of
category 0 is `log(2/13)`, within `1e-8` of `-1.87180217690159`, and of category 1 is
`log(5/13)`, within `1e-8` of `-0.95551144502744`; with `alpha = 2.5` the predictive
log-probability of category 0 is exactly `ln(0.2)`, within `1e-8` of `-1.6094379124341`. -/
theorem logPredictiveProbability_values (log_z : ℝ) :
    (models.logPredictiveProbability 0 [1, 4, 5] 1 log_z = some (Real.log (2 / 13)) ∧
      |Real.log (2 / 13) - (-1.87180217690159)| < 1e-8) ∧
    (models.logPredictiveProbability 1 [1, 4, 5] 1 log_z = some (Real.log (5 / 13)) ∧
      |Real.log (5 / 13) - (-0.95551144502744)| < 1e-8) ∧
    (models.logPredictiveProbability 0 [1, 4, 5] 2.5 log_z = some (Real.log 0.2) ∧
      |Real.log 0.2 - (-1.6094379124341)| < 1e-8) ∧
    (Categorical.ofSuffstats 10 [1, 4, 5] 1).elementLogp 0 = some (Real.log (2 / 13)) ∧
    (Categorical.ofSuffstats 10 [1, 4, 5] 1).elementLogp 1 = some (Real.log (5 / 13)) ∧
    (Categorical.ofSuffstats 10 [1, 4, 5] 2.5).elementLogp 0 = some (Real.log 0.2) := by
  have h2 := Real.log_two_gt_d9
  have h2' := Real.log_two_lt_d9
  have h13 := log_series_bounds.1
  have h54 := log_series_bounds.2.2.1
  have e1 : ∀ z, models.logPredictiveProbability 0 [1, 4, 5] 1 z = some (Real.log (2 / 13)) := by
    intro z
    rw [logPredictiveProbability_eq [1, 4, 5] 1 z 0 1 rfl,
      ← Real.log_div (by norm_num) (by norm_num)]
    norm_num
  have e2 : ∀ z, models.logPredictiveProbability 1 [1, 4, 5] 1 z = some (Real.log (5 / 13)) := by
    intro z
    rw [logPredictiveProbability_eq [1, 4, 5] 1 z 1 4 rfl,
      ← Real.log_div (by norm_num) (by norm_num)]
    norm_num
  have e3 : ∀ z, models.logPredictiveProbability 0 [1, 4, 5] 2.5 z = some (Real.log 0.2) := by
    intro z
    rw [logPredictiveProbability_eq [1, 4, 5] 2.5 z 0 1 rfl,
      ← Real.log_div (by norm_num) (by norm_num)]
    norm_num
  refine ⟨⟨e1 _, ?_⟩, ⟨e2 _, ?_⟩, ⟨e3 _, ?_⟩, e1 _, e2 _, e3 _⟩
  · rw [Real.log_div (by norm_num) (by norm_num), log_identities.1, abs_lt]
    constructor <;> norm_num at h2 h2' h13 ⊢ <;> linarith [h13.1, h13.2]
  · rw [Real.log_div (by norm_num) (by norm_num), log_identities.1, log_identities.2.1, abs_lt]
    constructor <;> norm_num at h2 h2' h13 h54 ⊢ <;> linarith [h13.1, h13.2, h54.1, h54.2]
  · rw [show (0.2 : ℝ) = 1 / 5 by norm_num, Real.log_div (by norm_num) (by norm_num),
      Real.log_one, log_identities.2.1, abs_lt]
    constructor <;> norm_num at h2 h2' h54 ⊢ <;> linarith [h54.1, h54.2]

/-- C9: for every count vector of length `K >= 1` and every `alpha > 0`,
`logPredictiveProbability(x, counts, alpha, logZ0)` is defined for every `x` in `[0, K)` and
the sum over these `x` of its exponential equals 1, exactly, over the reals. -/
theorem sum_exp_logPredictiveProbability (counts : List ℕ) (alpha log_z : ℝ)
    (hK : 1 ≤ counts.length) (hα : 0 < alpha) :
    (∀ x, x < counts.length →
        (models.logPredictiveProbability x counts alpha log_z).isSome = true) ∧
    ∑ x ∈ Finset.range counts.length,
        ((models.logPredictiveProbability x counts alpha log_z).map Real.exp).getD 0 = 1 := by
  have hD := denominator_pos counts alpha hK hα
  constructor
  · intro x hx
    rw [logPredictiveProbability_eq counts alpha log_z x _ (List.getElem?_eq_getElem hx)]
    rfl
  · have hterm : ∀ x ∈ Finset.range counts.length,
        ((models.logPredictiveProbability x counts alpha log_z).map Real.exp).getD 0
          = (((counts.getD x 0 : ℕ) : ℝ) + alpha)
              / (((counts.sum : ℕ) : ℝ) + (counts.length : ℝ) * alpha) := by
      intro x hx
      have hx' : x < counts.length := Finset.mem_range.1 hx
      have hget : counts[x]? = some (counts.getD x 0) := by
        rw [List.getD_eq_getElem?_getD, List.getElem?_eq_getElem hx']
        rfl
      rw [logPredictiveProbability_eq counts alpha log_z x _ hget]
      exact exp_logPredictive counts alpha x _ hα hget
    rw [Finset.sum_congr rfl hterm, ← Finset.sum_div, Finset.sum_add_distrib, sum_range_getD,
      Finset.sum_const, Finset.card_range, nsmul_eq_mul]
    exact div_self (ne_of_gt hD)

theorem sum_exp_logPredictiveProbability_witness :
    (∀ x, x < [1, 4, 5].length →
        (models.logPredictiveProbability x [1, 4, 5] 2.5 0).isSome = true) ∧
    ∑ x ∈ Finset.range [1, 4, 5].length,
        ((models.logPredictiveProbability x [1, 4, 5] 2.5 0).map Real.exp).getD 0 = 1 :=
  sum_exp_logPredictiveProbability [1, 4, 5] 2.5 0 (by simp) (by norm_num)

/-- C10: for every component with `K >= 1` categories, every `alpha > 0` and every `x < K`,
`singletonLogp(x) = -log(K)`: every component with the same `K` returns the same value for
every category, whatever its `alpha`, counts and `n`, and the value equals `elementLogp(x)` of
an empty cluster (all counts zero, `n = 0`) with the same `K` and `alpha`. -/
theorem singletonLogp_eq (s : Categorical) (x : ℕ) (hK : 1 ≤ s.counts.length)
    (hα : 0 < s.dirichlet_alpha) (hx : x < s.counts.length) :
    s.singletonLogp x = -Real.log (s.counts.length : ℝ) ∧
    (∀ (t : Categorical) (y : ℕ), t.counts.length = s.counts.length →
        t.singletonLogp y = s.singletonLogp x) ∧
    ∀ z : ℝ, ({ n := 0, counts := List.replicate s.counts.length 0,
                dirichlet_alpha := s.dirichlet_alpha, log_Z0 := z } : Categorical).elementLogp x
      = some (s.singletonLogp x) := by
  refine ⟨rfl, ?_, ?_⟩
  · intro t y ht
    unfold Categorical.singletonLogp models.logSingletonProbability
    rw [ht]
  · intro z
    have hget : (List.replicate s.counts.length 0)[x]? = some 0 := by
      simp [List.getElem?_replicate, hx]
    have hKpos : (0 : ℝ) < (s.counts.length : ℝ) := by exact_mod_cast hK
    unfold Categorical.elementLogp Categorical.singletonLogp models.logSingletonProbability
    simp only []
    rw [logPredictiveProbability_eq _ _ _ x 0 hget, sum_replicate_zero, List.length_replicate,
      Nat.cast_zero, zero_add, zero_add, Real.log_mul (ne_of_gt hKpos) (ne_of_gt hα)]
    congr 1
    ring

/-- C10 (witness): `K = 3` (counts `{1,4,5}`), `alpha = 1` gives `-log 3`, within `1e-8` of
`-1.09861228866811`, which is also `elementLogp(0)` of the empty cluster with 3 categories. -/
theorem singletonLogp_eq_witness :
    (Categorical.ofSuffstats 10 [1, 4, 5] 1).singletonLogp 0 = -Real.log 3 ∧
    |(Categorical.ofSuffstats 10 [1, 4, 5] 1).singletonLogp 0 - (-1.09861228866811)| < 1e-8 ∧
    (Categorical.ofSuffstats 0 [0, 0, 0] 1).elementLogp 0 = some (-Real.log 3) := by
  have h := singletonLogp_eq (Categorical.ofSuffstats 10 [1, 4, 5] 1) 0
    (by simp [Categorical.ofSuffstats]) (by simp [Categorical.ofSuffstats])
    (by simp [Categorical.ofSuffstats])
  have e : (Categorical.ofSuffstats 10 [1, 4, 5] 1).singletonLogp 0 = -Real.log 3 := by
    rw [h.1]; simp [Categorical.ofSuffstats]
  have h2 := Real.log_two_gt_d9
  have h2' := Real.log_two_lt_d9
  have h34 := log_series_bounds.2.1
  refine ⟨e, ?_, ?_⟩
  · rw [e, log_identities.2.2.1, abs_lt]
    constructor <;> norm_num at h2 h2' h34 ⊢ <;> linarith [h34.1, h34.2]
  · rw [← e]
    exact h.2.2 0

/-! ## The log-gamma function -/

/-- The recurrence of `lgamma` on positive arguments and its values at 1 and at the positive
integers. -/
theorem lgamma_facts :
    (∀ x : ℝ, 0 < x → lgamma (x + 1) = Real.log x + lgamma x) ∧
    lgamma 1 = 0 ∧
    ∀ k : ℕ, lgamma ((k : ℝ) + 1) = Real.log (k.factorial : ℝ) := by
  refine ⟨?_, ?_, ?_⟩
  · intro x hx
    have hG : 0 < Real.Gamma x := Real.Gamma_pos_of_pos hx
    show Real.log |Real.Gamma (x + 1)| = Real.log x + Real.log |Real.Gamma x|
    rw [Real.Gamma_add_one (ne_of_gt hx), abs_of_pos (mul_pos hx hG), abs_of_pos hG,
      Real.log_mul (ne_of_gt hx) (ne_of_gt hG)]
  · show Real.log |Real.Gamma 1| = 0
    rw [Real.Gamma_one, abs_one, Real.log_one]
  · intro k
    show Real.log |Real.Gamma ((k : ℝ) + 1)| = Real.log (k.factorial : ℝ)
    rw [Real.Gamma_nat_eq_factorial, abs_of_pos (by exact_mod_cast Nat.factorial_pos k)]

theorem sum_map_sub_const (f : ℕ → ℝ) (g : ℝ) (l : List ℕ) :
    (l.map fun (c : ℕ) => f c - g).sum = (l.map f).sum - (l.length : ℝ) * g := by
  induction l with
  | nil => simp
  | cons a t ih =>
    simp only [List.map_cons, List.sum_cons, List.length_cons, ih]
    push_cast
    ring

/-- C12: `logMarginalLikelihood(n, counts, alpha)` equals
`lgamma(K*alpha) - lgamma(n + K*alpha) + sum_k [lgamma(counts[k] + alpha) - lgamma(alpha)]`,
with no multinomial coefficient, and is what `logp()` returns on the live `n`, counts and
`alpha`; for `n = 10`, `counts = {1,4,5}`, `alpha = 1` it equals `log(1/83160)`, within `1e-8`
of `-11.3285217419719`. -/
theorem logMarginalLikelihood_formula (n : ℝ) (counts : List ℕ) (alpha : ℝ) (s : Categorical) :
    models.logMarginalLikelihood n counts alpha
      = lgamma ((counts.length : ℝ) * alpha) - lgamma (n + (counts.length : ℝ) * alpha)
        + ((counts.map fun (c : ℕ) => lgamma ((c : ℝ) + alpha)).sum
            - (counts.length : ℝ) * lgamma alpha) ∧
    s.logp = models.logMarginalLikelihood s.n s.counts s.dirichlet_alpha ∧
    models.logMarginalLikelihood 10 [1, 4, 5] 1 = Real.log (1 / 83160) ∧
    |models.logMarginalLikelihood 10 [1, 4, 5] 1 - (-11.3285217419719)| < 1e-8 := by
  have hval : models.logMarginalLikelihood 10 [1, 4, 5] 1 = Real.log (1 / 83160) := by
    have h3 : lgamma 3 = Real.log 2 := by
      have := lgamma_facts.2.2 2
      norm_num [Nat.factorial] at this
      exact this
    have h13 : lgamma 13 = Real.log 479001600 := by
      have := lgamma_facts.2.2 12
      norm_num [Nat.factorial] at this
      exact this
    have h2 : lgamma 2 = 0 := by
      have := lgamma_facts.2.2 1
      norm_num [Nat.factorial] at this
      exact this
    have h5 : lgamma 5 = Real.log 24 := by
      have := lgamma_facts.2.2 4
      norm_num [Nat.factorial] at this
      exact this
    have h6 : lgamma 6 = Real.log 120 := by
      have := lgamma_facts.2.2 5
      norm_num [Nat.factorial] at this
      exact this
    unfold models.logMarginalLikelihood
    simp only [List.length_cons, List.length_nil, List.map_cons,
      List.map_nil, List.sum_cons, List.sum_nil]
    norm_num
    rw [h3, h13, h2, h5, h6, lgamma_facts.2.1]
    have e : (1 / 83160 : ℝ) = 2 * 24 * 120 / 479001600 := by norm_num
    rw [e, Real.log_div (by norm_num) (by norm_num), Real.log_mul (by norm_num) (by norm_num),
      Real.log_mul (by norm_num) (by norm_num)]
    ring
  refine ⟨?_, rfl, hval, ?_⟩
  · unfold models.logMarginalLikelihood
    rw [sum_map_sub_const]
  · rw [hval]
    have h2 := Real.log_two_gt_d9
    have h2' := Real.log_two_lt_d9
    have hr := log_series_bounds.2.2.2.1
    have e : (1 / 83160 : ℝ) = (8192 / 10395) / 2 ^ 16 := by norm_num
    rw [e, Real.log_div (by norm_num) (by norm_num), log_identities.2.2.2, abs_lt]
    constructor <;> norm_num at h2 h2' hr ⊢ <;> linarith [hr.1, hr.2]

theorem logMarginalLikelihood_3_1111 :
    models.logMarginalLikelihood 3 [1, 1, 1, 1] 1.45 = Real.log (24389 / 1697280) := by
  have h245 : lgamma (1 + 1.45) = Real.log 1.45 + lgamma 1.45 := by
    rw [show (1 + 1.45 : ℝ) = 1.45 + 1 by norm_num]
    exact lgamma_facts.1 _ (by norm_num)
  have h88 : lgamma (3 + 4 * 1.45)
      = Real.log 7.8 + (Real.log 6.8 + (Real.log 5.8 + lgamma (4 * 1.45))) := by
    rw [show (3 + 4 * 1.45 : ℝ) = 7.8 + 1 by norm_num, lgamma_facts.1 _ (by norm_num),
      show (7.8 : ℝ) = 6.8 + 1 by norm_num, lgamma_facts.1 _ (by norm_num),
      show (6.8 : ℝ) = 5.8 + 1 by norm_num, lgamma_facts.1 _ (by norm_num)]
    norm_num
  unfold models.logMarginalLikelihood
  simp only [List.length_cons, List.length_nil, List.map_cons,
    List.map_nil, List.sum_cons, List.sum_nil, Nat.cast_one, Nat.cast_ofNat, Nat.cast_add,
    Nat.cast_zero, zero_add]
  rw [show ((1 : ℝ) + 1 + 1 + 1) = 4 by norm_num, h245, h88]
  have e : (24389 / 1697280 : ℝ) = 1.45 * 1.45 * 1.45 * 1.45 / (7.8 * 6.8 * 5.8) := by norm_num
  rw [e, Real.log_div (by norm_num) (by norm_num), Real.log_mul (by norm_num) (by norm_num),
    Real.log_mul (by norm_num) (by norm_num), Real.log_mul (by norm_num) (by norm_num),
    Real.log_mul (by norm_num) (by norm_num), Real.log_mul (by norm_num) (by norm_num)]
  ring

/-- C13 (as amended): for `counts = {1,1,1,1}`, `n = 3` and `alpha = 1.45`,
`logMarginalLikelihood(n, counts, alpha) = 4*log(1.45) - log(7.8*6.8*5.8)
= log(24389/1697280)`, within `1e-8` of `-4.24265003770005`; the value `2.17475172148416`
is that of `log(n + K*alpha) = log(8.8)`. -/
theorem logMarginalLikelihood_scenario3 :
    models.logMarginalLikelihood 3 [1, 1, 1, 1] 1.45 = Real.log (24389 / 1697280) ∧
    |models.logMarginalLikelihood 3 [1, 1, 1, 1] 1.45 - (-4.24265003770005)| < 1e-8 ∧
    |Real.log (3 + 4 * 1.45) - 2.17475172148416| < 1e-8 := by
  have h2 := Real.log_two_gt_d9
  have h2' := Real.log_two_lt_d9
  refine ⟨logMarginalLikelihood_3_1111, ?_, ?_⟩
  · rw [logMarginalLikelihood_3_1111]
    have hr := log_series_bounds.2.2.2.2.1
    have e : (24389 / 1697280 : ℝ) = (24389 / 26520) / 2 ^ 6 := by norm_num
    rw [e, Real.log_div (by norm_num) (by norm_num), log_identities.2.2.2, abs_lt]
    constructor <;> norm_num at h2 h2' hr ⊢ <;> linarith [hr.1, hr.2]
  · have hr := log_series_bounds.2.2.2.2.2.1
    have e : (3 + 4 * 1.45 : ℝ) = 2 ^ 3 * (11 / 10) := by norm_num
    rw [e, Real.log_mul (by norm_num) (by norm_num), log_identities.2.2.2, abs_lt]
    constructor <;> norm_num at h2 h2' hr ⊢ <;> linarith [hr.1, hr.2]

/-- C13 (counterexample): for `counts = {1,1,1,1}`, `n = 3` and `alpha = 1.45` the value of
`logMarginalLikelihood` is negative, so it is not within relative tolerance `1e-7` of
`2.17475172148416`. -/
theorem logMarginalLikelihood_scenario3_not_close :
    models.logMarginalLikelihood 3 [1, 1, 1, 1] 1.45 < 0 ∧
    ¬ |models.logMarginalLikelihood 3 [1, 1, 1, 1] 1.45 - 2.17475172148416|
        ≤ 1e-7 * |(2.17475172148416 : ℝ)| := by
  have hneg : models.logMarginalLikelihood 3 [1, 1, 1, 1] 1.45 < 0 := by
    rw [logMarginalLikelihood_3_1111]
    exact Real.log_neg (by norm_num) (by norm_num)
  refine ⟨hneg, ?_⟩
  rw [abs_of_neg (by linarith), abs_of_pos (by norm_num)]
  intro h
  norm_num at h
  linarith

/-- C14: `logLikelihood(counts, p)` is the ordinary multinomial log-pmf: for every count vector
with `n = sum(counts)` and every probability vector `p` of the same length with positive
entries, `exp(logLikelihood(counts, p)) = (n! / prod_k counts[k]!) * prod_k p[k]^counts[k]`;
for `counts = {1,4,7}`, `p = {0.2,0.3,0.5}` the value is `log(0.05011875)`, within `1e-8` of
`-2.99336008940894`. -/
theorem exp_logLikelihood (counts : List ℕ) (p : List ℝ) (hlen : counts.length = p.length)
    (hp : ∀ q ∈ p, 0 < q) :
    (∃ v, models.logLikelihood counts p = some v ∧
      Real.exp v = (counts.sum.factorial : ℝ)
          / (counts.map fun (c : ℕ) => (c.factorial : ℝ)).prod
          * (List.zipWith (fun (c : ℕ) (q : ℝ) => q ^ c) counts p).prod) ∧
    models.logLikelihood [1, 4, 7] [0.2, 0.3, 0.5] = some (Real.log 0.05011875) ∧
    |Real.log 0.05011875 - (-2.99336008940894)| < 1e-8 := by
  have exp_sum_lgamma_succ : ∀ l : List ℕ,
      Real.exp (l.map fun (c : ℕ) => lgamma ((c : ℝ) + 1)).sum
        = (l.map fun (c : ℕ) => (c.factorial : ℝ)).prod := by
    intro l
    induction l with
    | nil => simp
    | cons a t ih =>
      simp only [List.map_cons, List.sum_cons, List.prod_cons, Real.exp_add, ih]
      rw [lgamma_facts.2.2, Real.exp_log (by exact_mod_cast Nat.factorial_pos a)]
  have exp_sum_count_mul_log : ∀ (l : List ℕ) (r : List ℝ), (∀ q ∈ r, 0 < q) →
      Real.exp (List.zipWith (fun (c : ℕ) (q : ℝ) => (c : ℝ) * Real.log q) l r).sum
        = (List.zipWith (fun (c : ℕ) (q : ℝ) => q ^ c) l r).prod := by
    intro l
    induction l with
    | nil => intro r _; simp
    | cons a t ih =>
      intro r hr
      cases r with
      | nil => simp
      | cons q u =>
        have hq : 0 < q := hr q (List.mem_cons_self _ _)
        have hu : ∀ y ∈ u, 0 < y := fun y hy => hr y (List.mem_cons_of_mem _ hy)
        simp only [List.zipWith_cons_cons, List.sum_cons, List.prod_cons, Real.exp_add,
          ih u hu]
        rw [Real.exp_nat_mul, Real.exp_log hq]
  have hgen : ∀ (l : List ℕ) (r : List ℝ), l.length = r.length → (∀ q ∈ r, 0 < q) →
      models.logLikelihood l r
        = some (lgamma (((l.sum : ℕ) : ℝ) + 1)
            - (l.map fun (c : ℕ) => lgamma ((c : ℝ) + 1)).sum
            + (List.zipWith (fun (c : ℕ) (q : ℝ) => (c : ℝ) * Real.log q) l r).sum) ∧
      Real.exp (lgamma (((l.sum : ℕ) : ℝ) + 1)
            - (l.map fun (c : ℕ) => lgamma ((c : ℝ) + 1)).sum
            + (List.zipWith (fun (c : ℕ) (q : ℝ) => (c : ℝ) * Real.log q) l r).sum)
        = (l.sum.factorial : ℝ) / (l.map fun (c : ℕ) => (c.factorial : ℝ)).prod
          * (List.zipWith (fun (c : ℕ) (q : ℝ) => q ^ c) l r).prod := by
    intro l r hl hr
    constructor
    · unfold models.logLikelihood
      simp [hl]
    · rw [Real.exp_add, Real.exp_sub, exp_sum_lgamma_succ, exp_sum_count_mul_log l r hr,
        lgamma_facts.2.2, Real.exp_log (by exact_mod_cast Nat.factorial_pos _)]
  refine ⟨⟨_, (hgen counts p hlen hp).1, (hgen counts p hlen hp).2⟩, ?_, ?_⟩
  · have hpos : ∀ q ∈ ([0.2, 0.3, 0.5] : List ℝ), 0 < q := by
      intro q hq
      simp at hq
      rcases hq with h | h | h <;> rw [h] <;> norm_num
    have h := hgen [1, 4, 7] [0.2, 0.3, 0.5] rfl hpos
    rw [h.1]
    congr 1
    rw [← Real.log_exp (lgamma _ - _ + _), h.2]
    congr 1
    simp [Nat.factorial]
    norm_num
  · have h2 := Real.log_two_gt_d9
    have h2' := Real.log_two_lt_d9
    have hr := log_series_bounds.2.2.2.2.2.2
    have e : (0.05011875 : ℝ) = (8019 / 10000) / 2 ^ 4 := by norm_num
    rw [e, Real.log_div (by norm_num) (by norm_num), log_identities.2.2.2, abs_lt]
    constructor <;> norm_num at h2 h2' hr ⊢ <;> linarith [hr.1, hr.2]

theorem exp_logLikelihood_witness :
    (∃ v, models.logLikelihood [1, 2, 1, 1] [0.25, 0.25, 0.25, 0.25] = some v ∧
      Real.exp v = (([1, 2, 1, 1] : List ℕ).sum.factorial : ℝ)
          / (([1, 2, 1, 1] : List ℕ).map fun (c : ℕ) => (c.factorial : ℝ)).prod
          * (List.zipWith (fun (c : ℕ) (q : ℝ) => q ^ c) [1, 2, 1, 1]
              [0.25, 0.25, 0.25, 0.25]).prod) ∧
    models.logLikelihood [1, 4, 7] [0.2, 0.3, 0.5] = some (Real.log 0.05011875) ∧
    |Real.log 0.05011875 - (-2.99336008940894)| < 1e-8 :=
  exp_logLikelihood [1, 2, 1, 1] [0.25, 0.25, 0.25, 0.25] rfl (by
    intro q hq
    simp at hq
    rw [hq]
    norm_num)

/-! ## Hyperprior -/

/-- C15: `hyperpriorLogp(config)` fails if and only if `config[0] <= 0`; when
`config[0] = s > 0` it returns the log density of Gamma(shape 1, scale `s`) at the current
`alpha`, that is `-alpha/s - log(s)`, whose exponential is the Gamma(1, rate `1/s`) density
at `alpha` when `alpha >= 0`.  The method is `const`, a function of the state returning a
value only, so the state is unchanged. -/
theorem hyperpriorLogp_spec (s : Categorical) (scale : ℝ) (rest : List ℝ) :
    (s.hyperpriorLogp (scale :: rest) = none ↔ scale ≤ 0) ∧
    (0 < scale → s.hyperpriorLogp (scale :: rest)
        = some (-s.dirichlet_alpha / scale - Real.log scale)) ∧
    (0 < scale → 0 ≤ s.dirichlet_alpha →
      Real.exp (-s.dirichlet_alpha / scale - Real.log scale)
        = ProbabilityTheory.gammaPDFReal 1 (1 / scale) s.dirichlet_alpha) := by
  have hsome : 0 < scale → s.hyperpriorLogp (scale :: rest)
      = some (-s.dirichlet_alpha / scale - Real.log scale) := by
    intro h
    unfold Categorical.hyperpriorLogp dist.gamma.logPdf
    simp only [Categorical.DIRICHLET_ALPHA_SCALE, List.getElem?_cons_zero,
      ASSERT_GREATER_THAN_ZERO, if_pos h, lgamma_facts.2.1]
    congr 1
    ring
  refine ⟨⟨?_, ?_⟩, hsome, ?_⟩
  · intro hnone
    by_contra hpos
    rw [hsome (not_le.1 hpos)] at hnone
    exact Option.noConfusion hnone
  · intro hle
    unfold Categorical.hyperpriorLogp
    simp only [Categorical.DIRICHLET_ALPHA_SCALE, List.getElem?_cons_zero,
      ASSERT_GREATER_THAN_ZERO, if_neg (not_lt.2 hle)]
  · intro hpos hα
    rw [ProbabilityTheory.gammaPDFReal, if_pos hα, Real.exp_sub, Real.exp_log hpos,
      Real.rpow_one, Real.Gamma_one, sub_self, Real.rpow_zero]
    have e : -(1 / scale * s.dirichlet_alpha) = -s.dirichlet_alpha / scale := by ring
    rw [e]
    field_simp

theorem hyperpriorLogp_spec_witness :
    (Categorical.ofSuffstats 10 [1, 4, 5] 1).hyperpriorLogp [0.5]
        = some (-1 / 0.5 - Real.log 0.5) ∧
    (Categorical.ofSuffstats 10 [1, 4, 5] 1).hyperpriorLogp [0] = none ∧
    Real.exp (-1 / 0.5 - Real.log 0.5) = ProbabilityTheory.gammaPDFReal 1 (1 / 0.5) 1 :=
  ⟨(hyperpriorLogp_spec (Categorical.ofSuffstats 10 [1, 4, 5] 1) 0.5 []).2.1 (by norm_num),
   (hyperpriorLogp_spec (Categorical.ofSuffstats 10 [1, 4, 5] 1) 0 []).1.2 le_rfl,
   (hyperpriorLogp_spec (Categorical.ofSuffstats 10 [1, 4, 5] 1) 0.5 []).2.2 (by norm_num)
     (by norm_num [Categorical.ofSuffstats])⟩

/-! ## Accessors -/

theorem reachable_log_Z0 (s : Categorical) (h : s.Reachable) : s.log_Z0 = 0 := by
  induction h with
  | ofDistargs distargs s hs =>
    simp only [Categorical.ofDistargs] at hs
    split at hs
    · split at hs
      · cases hs; rfl
      · cases hs
    · cases hs
  | ofSuffstats n counts dirichlet_alpha => rfl
  | insertElement s t x _ ht ih =>
    simp only [Categorical.insertElement] at ht
    split at ht
    · cases ht; exact ih
    · cases ht
  | removeElement s t x _ ht ih =>
    simp only [Categorical.removeElement] at ht
    split at ht
    · cases ht; exact ih
    · cases ht
  | clear s distargs _ ih => exact ih
  | setHypers s t hypers _ ht _ =>
    simp only [Categorical.setHypers] at ht
    split at ht
    · cases ht; rfl
    · cases ht
  | setHypersByMap s hypers _ _ => rfl

theorem getHypers_eq (s : Categorical) : s.getHypers = [s.dirichlet_alpha] := rfl

/-- C16: for every component state `s`, `setHypers(getHypers())` leaves `s` unchanged (`alpha`,
`n`, counts and the cached `log_Z0`), so `logp`, `elementLogp` and `singletonLogp` return the
same values as before; and for every one-element vector `h`, `getHypers()` after
`setHypers(h)` returns `[h[0]]` and `getHypersMap()` returns exactly
`{"dirichlet_alpha": h[0]}`. -/
theorem setHypers_getHypers (s : Categorical) (h0 : ℝ) (hs : s.Reachable) :
    s.setHypers s.getHypers = some s ∧
    (∀ t, s.setHypers s.getHypers = some t →
      t.logp = s.logp ∧ (∀ x, t.elementLogp x = s.elementLogp x) ∧
        ∀ x, t.singletonLogp x = s.singletonLogp x) ∧
    ∃ t, s.setHypers [h0] = some t ∧ t.getHypers = [h0] ∧
      t.getHypersMap = [("dirichlet_alpha", h0)] := by
  have hz := reachable_log_Z0 s hs
  have hround : s.setHypers s.getHypers = some s := by
    rw [getHypers_eq, setHypers_cons]
    simp only [Categorical.updateConstants]
    rw [← hz]
  refine ⟨hround, ?_, _, setHypers_cons s h0 [], rfl, rfl⟩
  intro t ht
  rw [hround] at ht
  cases ht
  exact ⟨rfl, fun _ => rfl, fun _ => rfl⟩

theorem setHypers_getHypers_witness :
    (Categorical.ofSuffstats 10 [1, 4, 5] 1).setHypers
        (Categorical.ofSuffstats 10 [1, 4, 5] 1).getHypers
      = some (Categorical.ofSuffstats 10 [1, 4, 5] 1) ∧
    (∀ t, (Categorical.ofSuffstats 10 [1, 4, 5] 1).setHypers
        (Categorical.ofSuffstats 10 [1, 4, 5] 1).getHypers = some t →
      t.logp = (Categorical.ofSuffstats 10 [1, 4, 5] 1).logp ∧
        (∀ x, t.elementLogp x = (Categorical.ofSuffstats 10 [1, 4, 5] 1).elementLogp x) ∧
        ∀ x, t.singletonLogp x = (Categorical.ofSuffstats 10 [1, 4, 5] 1).singletonLogp x) ∧
    ∃ t, (Categorical.ofSuffstats 10 [1, 4, 5] 1).setHypers [2.5] = some t ∧
      t.getHypers = [2.5] ∧ t.getHypersMap = [("dirichlet_alpha", 2.5)] :=
  setHypers_getHypers (Categorical.ofSuffstats 10 [1, 4, 5] 1) 2.5
    (Categorical.Reachable.ofSuffstats 10 [1, 4, 5] 1)

/-! ## The text of an index and the sufficient-statistics map -/

theorem incrementAt_eq (v : List ℕ) (c : ℕ) (hc : c < v.length) :
    incrementAt v c = some (v.set c ((v.getD c 0 + 1) % SIZE_T_MODULUS)) := by
  simp [incrementAt, List.getD_eq_getElem?_getD, List.getElem?_eq_getElem hc]

theorem withPseudoObservations_nil (counts : List ℕ) (hty : ∀ c ∈ counts, c < SIZE_T_MODULUS) :
    withPseudoObservations counts [] = counts := by
  apply List.ext_getElem?
  intro i
  by_cases hi : i < counts.length
  · have hlt : counts[i] < SIZE_T_MODULUS := hty _ (List.getElem_mem hi)
    simp [withPseudoObservations, List.getElem?_map, List.getElem?_range hi,
      List.getD_eq_getElem?_getD, List.getElem?_eq_getElem hi, Nat.mod_eq_of_lt hlt]
  · have h1 : (withPseudoObservations counts [])[i]? = none := by
      apply List.getElem?_eq_none
      simp [withPseudoObservations]
      omega
    rw [h1, List.getElem?_eq_none (by omega)]

theorem withPseudoObservations_cons (counts : List ℕ) (c : ℕ) (rest : List ℕ) :
    withPseudoObservations (counts.set c ((counts.getD c 0 + 1) % SIZE_T_MODULUS)) rest
      = withPseudoObservations counts (c :: rest) := by
  unfold withPseudoObservations
  rw [List.length_set]
  apply List.map_congr_left
  intro i hi
  have hi' : i < counts.length := List.mem_range.1 hi
  by_cases hic : c = i
  · subst hic
    simp only [List.getD_eq_getElem?_getD, List.getElem?_set_self hi', Option.getD_some,
      List.count_cons_self, SIZE_T_MODULUS]
    omega
  · simp only [List.getD_eq_getElem?_getD, List.getElem?_set_ne hic,
      List.count_cons_of_ne (fun h => hic h.symm)]

theorem incrementEach_eq (counts constraints : List ℕ)
    (hty : ∀ c ∈ counts, c < SIZE_T_MODULUS) (hc : ∀ c ∈ constraints, c < counts.length) :
    incrementEach counts constraints = some (withPseudoObservations counts constraints) := by
  induction constraints generalizing counts with
  | nil => rw [withPseudoObservations_nil counts hty]; rfl
  | cons c rest ih =>
    have hlt : c < counts.length := hc c (List.mem_cons_self _ _)
    rw [incrementEach, incrementAt_eq counts c hlt]
    simp only
    rw [ih, withPseudoObservations_cons]
    · intro k hk
      rcases List.mem_or_eq_of_mem_set hk with h | h
      · exact hty k h
      · rw [h]
        exact Nat.mod_lt _ (by decide)
    · intro k hk
      rw [List.length_set]
      exact hc k (List.mem_cons_of_mem _ hk)

/-- C18: for every component state `s`, every list of constraints with values `< K` and every
generator state, `drawConstrained(constraints, rng)` returns what `draw(rng)` returns on the
component obtained from `s` by adding 1 to `counts[c]` for each `c` in the constraints (with
multiplicity), started from the same generator state; absent overflow the counts of that
component are `counts[i]` plus the number of occurrences of `i`; and
`drawConstrained([], rng)` equals `draw(rng)`.  Both methods are `const`, functions of the
state returning a value only, so the live state is not mutated. -/
theorem drawConstrained_eq_draw {R β : Type} (predictiveSample : List ℕ → ℝ → R → ℝ → β)
    (s : Categorical) (constraints : List ℕ) (rng : R) (hty : s.WellTyped)
    (hc : ∀ c ∈ constraints, c < s.counts.length) :
    s.drawConstrained predictiveSample constraints rng
      = some (Categorical.draw predictiveSample
          { s with counts := withPseudoObservations s.counts constraints } rng) ∧
    (∀ (i : ℕ) (hi : i < s.counts.length),
      s.counts[i] + constraints.count i < SIZE_T_MODULUS →
        (withPseudoObservations s.counts constraints)[i]?
          = some (s.counts[i] + constraints.count i)) ∧
    s.drawConstrained predictiveSample [] rng = some (s.draw predictiveSample rng) := by
  refine ⟨?_, ?_, rfl⟩
  · simp only [Categorical.drawConstrained, incrementEach_eq s.counts constraints hty hc,
      Categorical.draw]
  · intro i hi hlt
    simp [withPseudoObservations, List.getElem?_map, List.getElem?_range hi,
      List.getD_eq_getElem?_getD, List.getElem?_eq_getElem hi, Nat.mod_eq_of_lt hlt]

theorem drawConstrained_eq_draw_witness :
    (Categorical.ofSuffstats 10 [1, 4, 5] 1).drawConstrained
        (fun (counts : List ℕ) (_ : ℝ) (rng : ℕ) (_ : ℝ) => (counts.sum + rng, rng + 1))
        [2, 0, 2] 7
      = some (Categorical.draw
          (fun (counts : List ℕ) (_ : ℝ) (rng : ℕ) (_ : ℝ) => (counts.sum + rng, rng + 1))
          { Categorical.ofSuffstats 10 [1, 4, 5] 1 with
            counts := withPseudoObservations [1, 4, 5] [2, 0, 2] } 7) ∧
    withPseudoObservations [1, 4, 5] [2, 0, 2] = [2, 4, 7] :=
  ⟨(drawConstrained_eq_draw
      (fun (counts : List ℕ) (_ : ℝ) (rng : ℕ) (_ : ℝ) => (counts.sum + rng, rng + 1))
      (Categorical.ofSuffstats 10 [1, 4, 5] 1) [2, 0, 2] 7 wellTyped_145
      (by intro c hc; simp at hc; rcases hc with h | h | h <;> simp [h, Categorical.ofSuffstats])).1,
   by decide⟩

/-! ## The hyperprior configuration -/

theorem DBL_MIN_bounds : 0 < DBL_MIN ∧ DBL_MIN ≤ (2 : ℝ) ^ (-54 : ℤ) := by
  unfold DBL_MIN
  exact ⟨zpow_pos (by norm_num) _, zpow_le_zpow_right₀ (by norm_num) (by norm_num)⟩

theorem roundToDouble_DBL_MIN_add_one : roundToDouble (DBL_MIN + 1) = 1 := by
  have hm := DBL_MIN_bounds
  have h54 : (2 : ℝ) ^ (-54 : ℤ) = 1 / 18014398509481984 := by norm_num
  rw [h54] at hm
  have hx : (0 : ℝ) < DBL_MIN + 1 := by linarith [hm.1]
  have hlog : Int.log 2 (DBL_MIN + 1) = 0 := by
    apply le_antisymm
    · have : Int.log 2 (DBL_MIN + 1) < 1 := by
        apply (Int.lt_zpow_iff_log_lt (by norm_num) hx).1
        norm_num
        linarith [hm.2]
      omega
    · apply (Int.zpow_le_iff_le_log (by norm_num) hx).1
      norm_num
      exact le_of_lt hm.1
  have hulp : ulp (DBL_MIN + 1) = ((2 : ℝ) ^ (52 : ℕ))⁻¹ := by
    unfold ulp
    rw [abs_of_pos hx, hlog, ← zpow_natCast, ← zpow_neg]
    norm_num
  have hz : roundHalfEven ((DBL_MIN + 1) / ulp (DBL_MIN + 1)) = ((2 ^ 52 : ℕ) : ℤ) := by
    apply roundHalfEven_near
    · rw [hulp]
      push_cast
      field_simp
      nlinarith [hm.1]
    · rw [hulp]
      push_cast
      field_simp
      nlinarith [hm.2]
  rw [roundToDouble, if_neg (ne_of_gt hx), hz, hulp]
  push_cast
  field_simp
  norm_num

theorem foldr_max_ge (idx : List ℕ) : ∀ i ∈ idx, i ≤ idx.foldr max 0 := by
  induction idx with
  | nil => intro i hi; simp at hi
  | cons a t ih =>
    intro i hi
    rw [List.foldr_cons]
    rcases List.mem_cons.1 hi with h | h
    · rw [h]; exact le_max_left _ _
    · exact le_trans (ih i h) (le_max_right _ _)

theorem foldr_max_le (idx : List ℕ) (m : ℕ) (h : ∀ i ∈ idx, i ≤ m) : idx.foldr max 0 ≤ m := by
  induction idx with
  | nil => simp
  | cons a t ih =>
    rw [List.foldr_cons]
    exact max_le (h a (List.mem_cons_self _ _)) (ih fun i hi => h i (List.mem_cons_of_mem _ hi))

theorem vector_max_foldl (idx : List ℕ) (a : ℝ) (ha : 0 ≤ a) :
    (idx.map fun (i : ℕ) => (i : ℝ)).foldl (fun max x => if x > max then x else max) a
      = max a ((idx.foldr max 0 : ℕ) : ℝ) := by
  induction idx generalizing a with
  | nil =>
    simp only [List.map_nil, List.foldl_nil, List.foldr_nil, Nat.cast_zero]
    exact (max_eq_left ha).symm
  | cons x t ih =>
    have hx : (0 : ℝ) ≤ (x : ℝ) := Nat.cast_nonneg x
    rw [List.map_cons, List.foldl_cons, ih _ (by split_ifs <;> assumption), List.foldr_cons,
      Nat.cast_max, ← max_assoc]
    congr 1
    split_ifs with h
    · exact (max_eq_right (le_of_lt h)).symm
    · exact (max_eq_left (not_lt.1 h)).symm

theorem vector_max_indices (idx : List ℕ) (m : ℕ) (hm : m ∈ idx) (hmax : ∀ i ∈ idx, i ≤ m) :
    utils.vector_max (idx.map fun (i : ℕ) => (i : ℝ)) = max DBL_MIN (m : ℝ) := by
  have hfold : idx.foldr max 0 = m :=
    le_antisymm (foldr_max_le idx m hmax) (foldr_max_ge idx m hm)
  rw [utils.vector_max, vector_max_foldl idx DBL_MIN (le_of_lt DBL_MIN_bounds.1), hfold]

theorem hyperprior_K (idx : List ℕ) (m : ℕ) (hm : m ∈ idx) (hmax : ∀ i ∈ idx, i ≤ m)
    (hrep : m + 1 < 2 ^ 53) :
    roundToDouble (utils.vector_max (idx.map fun (i : ℕ) => (i : ℝ)) + 1) = (m : ℝ) + 1 := by
  have hb := DBL_MIN_bounds
  have h54 : (2 : ℝ) ^ (-54 : ℤ) = 1 / 18014398509481984 := by norm_num
  rw [h54] at hb
  rw [vector_max_indices idx m hm hmax]
  by_cases h0 : m = 0
  · rw [h0, Nat.cast_zero, max_eq_left (le_of_lt hb.1), roundToDouble_DBL_MIN_add_one, zero_add]
  · have h1 : (1 : ℝ) ≤ (m : ℝ) := by exact_mod_cast Nat.one_le_iff_ne_zero.2 h0
    rw [max_eq_right (by linarith [hb.2])]
    have := roundToDouble_natCast (m + 1) (by omega) hrep
    push_cast at this
    exact this

/-- C19 (counterexample): on the data vector holding the single category index `2^53`, the sum
`vector_max(X) + 1` is rounded to the `double` `2^53`, so `K` is `2^53`, not `m + 1`, and the
scale returned is `2^-53`, not `1/(2^53 + 1)`. -/
theorem constructHyperpriorConfig_rounds :
    roundToDouble (utils.vector_max (([9007199254740992] : List ℕ).map fun (i : ℕ) => (i : ℝ)) + 1)
      = 9007199254740992 ∧
    Categorical.constructHyperpriorConfig
        (([9007199254740992] : List ℕ).map fun (i : ℕ) => (i : ℝ))
      = [1 / 9007199254740992] ∧
    (9007199254740992 : ℝ) ≠ 9007199254740992 + 1 ∧
    (1 / 9007199254740992 : ℝ) ≠ 1 / (9007199254740992 + 1) := by
  have hK : roundToDouble
      (utils.vector_max (([9007199254740992] : List ℕ).map fun (i : ℕ) => (i : ℝ)) + 1)
        = 9007199254740992 := by
    rw [vector_max_indices [9007199254740992] 9007199254740992 (by simp) (by simp),
      max_eq_right (by
        have := DBL_MIN_bounds.2
        have h54 : (2 : ℝ) ^ (-54 : ℤ) = 1 / 18014398509481984 := by norm_num
        rw [h54] at this
        push_cast
        linarith)]
    push_cast
    exact roundToDouble_tie
  refine ⟨hK, ?_, by norm_num, by norm_num⟩
  simp only [Categorical.constructHyperpriorConfig, hK, roundToDouble_inv_two_pow_53]
  rfl

/-- C19 (as amended): for every non-empty data vector `X` of category indices with maximum `m`
and `m + 1 < 2^53`, so that `m + 1` is exactly representable, `K = vector_max(X) + 1` is
`m + 1` and
`constructHyperpriorConfig(X)` returns the one-element vector holding the `double` quotient
`1./K`; it is strictly
positive and within relative error `2^-53` of the real `1/K`; when every observation is
category 0, `vector_max` returns its initial value `DBL_MIN`, the sum `DBL_MIN + 1` is the
`double` 1, so `K = 1` and the scale is exactly 1. -/
theorem constructHyperpriorConfig_spec (idx : List ℕ) (m : ℕ) (hm : m ∈ idx)
    (hmax : ∀ i ∈ idx, i ≤ m) (hrep : m + 1 < 2 ^ 53) :
    roundToDouble (utils.vector_max (idx.map fun (i : ℕ) => (i : ℝ)) + 1) = (m : ℝ) + 1 ∧
    Categorical.constructHyperpriorConfig (idx.map fun (i : ℕ) => (i : ℝ))
      = [roundToDouble (1 / ((m : ℝ) + 1))] ∧
    0 < roundToDouble (1 / ((m : ℝ) + 1)) ∧
    |roundToDouble (1 / ((m : ℝ) + 1)) - 1 / ((m : ℝ) + 1)|
      ≤ (2 : ℝ) ^ (-53 : ℤ) * (1 / ((m : ℝ) + 1)) ∧
    (m = 0 →
      utils.vector_max (idx.map fun (i : ℕ) => (i : ℝ)) = DBL_MIN ∧
      Categorical.constructHyperpriorConfig (idx.map fun (i : ℕ) => (i : ℝ)) = [1]) := by
  have hK := hyperprior_K idx m hm hmax hrep
  have hpos : (0 : ℝ) < 1 / ((m : ℝ) + 1) := by positivity
  have hcfg : Categorical.constructHyperpriorConfig (idx.map fun (i : ℕ) => (i : ℝ))
      = [roundToDouble (1 / ((m : ℝ) + 1))] := by
    simp only [Categorical.constructHyperpriorConfig, hK]
    rfl
  refine ⟨hK, hcfg, (roundToDouble_pos_near _ hpos).1, (roundToDouble_pos_near _ hpos).2, ?_⟩
  intro h0
  constructor
  · rw [vector_max_indices idx m hm hmax, h0, Nat.cast_zero]
    exact max_eq_left (le_of_lt DBL_MIN_bounds.1)
  · rw [hcfg, h0]
    have := roundToDouble_natCast 1 le_rfl (by norm_num)
    norm_num at this ⊢
    exact this

theorem constructHyperpriorConfig_spec_witness :
    Categorical.constructHyperpriorConfig (([1, 3, 2, 0, 1] : List ℕ).map fun (i : ℕ) => (i : ℝ))
      = [roundToDouble (1 / (((3 : ℕ) : ℝ) + 1))] ∧
    Categorical.constructHyperpriorConfig (([0, 0] : List ℕ).map fun (i : ℕ) => (i : ℝ))
      = [1] :=
  ⟨(constructHyperpriorConfig_spec [1, 3, 2, 0, 1] 3 (by decide) (by decide) (by norm_num)).2.1,
   ((constructHyperpriorConfig_spec [0, 0] 0 (by decide) (by decide) (by norm_num)).2.2.2.2
      rfl).2⟩

/-! ## Hyperparameter resampling -/

theorem mapM_setHypers (models : List Categorical) (v : ℝ) :
    models.mapM (fun model => model.setHypers [v])
      = some (models.map fun model => { model with dirichlet_alpha := v, log_Z0 := 0 }) := by
  induction models with
  | nil => rfl
  | cons m t ih =>
    rw [List.mapM_cons, ih, setHypers_cons]
    rfl

theorem constructDirichletAlphaConditional_cons (models : List Categorical) (scale : ℝ)
    (rest : List ℝ) :
    ∃ post, Categorical.constructDirichletAlphaConditional models (scale :: rest) = some post ∧
      ∀ alpha, post alpha
        = models.foldl (fun logp model => logp + model.hyperDirichletAlphaConditional_ alpha)
            (dist.gamma.logPdf alpha 1 scale) := by
  refine ⟨_, ?_, fun alpha => rfl⟩
  unfold Categorical.constructDirichletAlphaConditional
  simp only [Categorical.DIRICHLET_ALPHA_SCALE,
    List.getElem?_cons_zero]

theorem resampleHypers_eq {R : Type} (urand : R → ℝ → ℝ → ℝ × R)
    (mhSample : ℝ → (ℝ → ℝ) → EReal × EReal → ℝ → ℕ → R → Option (ℝ × R))
    (m0 : Categorical) (ms : List Categorical) (scale : ℝ) (rest : List ℝ) (rng : R) (burn : ℕ)
    (post : ℝ → ℝ)
    (hpost : Categorical.constructDirichletAlphaConditional (m0 :: ms) (scale :: rest)
      = some post) :
    Categorical.resampleHypers urand mhSample (m0 :: ms) (scale :: rest) rng burn
      = match mhSample (scale + (urand rng (-1) 1).1 * (scale / 2)) post (0, ⊤) (scale / 2)
          burn (urand rng (-1) 1).2 with
        | none => none
        | some (v, rng2) =>
          some ([v], (m0 :: ms).map fun model =>
            { model with dirichlet_alpha := v, log_Z0 := 0 }, rng2) := by
  unfold Categorical.resampleHypers
  rw [hpost]
  simp only [List.getElem?_cons_zero, Categorical.DIRICHLET_ALPHA_SCALE]
  cases hmh : mhSample (scale + (urand rng (-1) 1).1 * (scale / 2)) post (0, ⊤) (scale / 2)
      burn (urand rng (-1) 1).2 with
  | none => rfl
  | some r =>
    obtain ⟨v, rng2⟩ := r
    have hset : (m0.getHypers).set Categorical.HYPER_DIRICHLET_ALPHA v = [v] := rfl
    simp only [hset, mapM_setHypers]

/-- C20: for every non-empty collection of sibling components, a call of
`resampleHypers(models, config, rng, burn)` returns exactly when the sampler does, and after
it every model in the collection has the same `alpha`, equal to element 0 of the returned
vector, every model's cached normalizer has been refreshed (`log_Z0 = 0`), and every model's
`n` and counts are unchanged. -/
theorem resampleHypers_broadcast {R : Type} (urand : R → ℝ → ℝ → ℝ × R)
    (mhSample : ℝ → (ℝ → ℝ) → EReal × EReal → ℝ → ℕ → R → Option (ℝ × R))
    (m0 : Categorical) (ms : List Categorical) (scale : ℝ) (rest : List ℝ) (rng : R)
    (burn : ℕ) :
    (∃ post, Categorical.constructDirichletAlphaConditional (m0 :: ms) (scale :: rest)
        = some post ∧
      ∀ v rng2, mhSample (scale + (urand rng (-1) 1).1 * (scale / 2)) post (0, ⊤) (scale / 2)
          burn (urand rng (-1) 1).2 = some (v, rng2) →
        ∃ models1, Categorical.resampleHypers urand mhSample (m0 :: ms) (scale :: rest) rng burn
          = some ([v], models1, rng2)) ∧
    ∀ hypers models1 rng2,
      Categorical.resampleHypers urand mhSample (m0 :: ms) (scale :: rest) rng burn
          = some (hypers, models1, rng2) →
        ∃ v, hypers[0]? = some v ∧
          (∀ model ∈ models1, model.dirichlet_alpha = v ∧ model.log_Z0 = 0) ∧
          models1.map (fun model => model.n) = (m0 :: ms).map (fun model => model.n) ∧
          models1.map (fun model => model.counts)
            = (m0 :: ms).map (fun model => model.counts) := by
  obtain ⟨post, hpost, _⟩ := constructDirichletAlphaConditional_cons (m0 :: ms) scale rest
  have heq := resampleHypers_eq urand mhSample m0 ms scale rest rng burn post hpost
  constructor
  · refine ⟨post, hpost, ?_⟩
    intro v rng2 hmh
    rw [heq, hmh]
    exact ⟨_, rfl⟩
  · intro hypers models1 rng2 hres
    rw [heq] at hres
    cases hmh : mhSample (scale + (urand rng (-1) 1).1 * (scale / 2)) post (0, ⊤) (scale / 2)
        burn (urand rng (-1) 1).2 with
    | none => rw [hmh] at hres; cases hres
    | some r =>
      obtain ⟨v, rng3⟩ := r
      rw [hmh] at hres
      simp only [Option.some.injEq, Prod.mk.injEq] at hres
      obtain ⟨h1, h2, _⟩ := hres
      subst h1 h2
      refine ⟨v, rfl, ?_, ?_, ?_⟩
      · intro model hmodel
        rw [List.mem_map] at hmodel
        obtain ⟨a, _, ha⟩ := hmodel
        rw [← ha]
        exact ⟨rfl, rfl⟩
      · rw [List.map_map]
        rfl
      · rw [List.map_map]
        rfl

theorem resampleHypers_broadcast_witness :
    ∃ models1, Categorical.resampleHypers (fun (r : ℕ) (_ _ : ℝ) => ((0 : ℝ), r + 1))
        (fun (x_0 : ℝ) (_ : ℝ → ℝ) (_ : EReal × EReal) (_ : ℝ) (_ : ℕ) (r : ℕ) =>
          some (x_0, r + 1))
        [Categorical.ofSuffstats 10 [1, 4, 5] 1, Categorical.ofSuffstats 0 [0, 0, 0] 2]
        [1 / 2] 0 50
      = some ([1 / 2 + 0 * (1 / 2 / 2)], models1, 2) :=
  Exists.elim
    (resampleHypers_broadcast (fun (r : ℕ) (_ _ : ℝ) => ((0 : ℝ), r + 1))
      (fun (x_0 : ℝ) (_ : ℝ → ℝ) (_ : EReal × EReal) (_ : ℝ) (_ : ℕ) (r : ℕ) =>
        some (x_0, r + 1))
      (Categorical.ofSuffstats 10 [1, 4, 5] 1) [Categorical.ofSuffstats 0 [0, 0, 0] 2]
      (1 / 2) [] 0 50).1
    (fun _ hpost => hpost.2 _ _ rfl)

/-! ## Hyperparameter resampling: the posterior conditional and the sampler arguments -/

theorem foldl_add_eq_sum {α : Type} (f : α → ℝ) (l : List α) (a : ℝ) :
    l.foldl (fun acc x => acc + f x) a = a + (l.map f).sum := by
  induction l generalizing a with
  | nil => simp
  | cons x t ih =>
    rw [List.foldl_cons, ih, List.map_cons, List.sum_cons]
    ring

/-- C22: for every collection of models, every scale `s > 0` and every trial value `v > 0`,
the function returned by `constructDirichletAlphaConditional(models, [s])` evaluated at `v`
equals the Gamma(1, `s`) log density at `v`, that is `-v/s - log s`, plus the sum over the
models of `logMarginalLikelihood(model.n, model.counts, v)`; it does not depend on the
models' current `alpha` nor on the order of the models, and for an empty collection it equals
the hyperprior log density alone. -/
theorem constructDirichletAlphaConditional_spec (instances : List Categorical) (s v : ℝ)
    (rest : List ℝ) (hs : 0 < s) (hv : 0 < v) :
    ∃ post, Categorical.constructDirichletAlphaConditional instances (s :: rest) = some post ∧
      post v = (-v / s - Real.log s)
        + (instances.map fun model => models.logMarginalLikelihood model.n model.counts v).sum ∧
      Real.exp (-v / s - Real.log s) = ProbabilityTheory.gammaPDFReal 1 (1 / s) v ∧
      (∀ models2 : List Categorical,
        models2.map (fun model => (model.n, model.counts))
            = instances.map (fun model => (model.n, model.counts)) →
          ∃ post2, Categorical.constructDirichletAlphaConditional models2 (s :: rest)
              = some post2 ∧ post2 v = post v) ∧
      (∀ models2 : List Categorical, models2.Perm instances →
          ∃ post2, Categorical.constructDirichletAlphaConditional models2 (s :: rest)
              = some post2 ∧ post2 v = post v) ∧
      ∃ post0, Categorical.constructDirichletAlphaConditional [] (s :: rest) = some post0 ∧
        post0 v = -v / s - Real.log s := by
  have hpdf : dist.gamma.logPdf v 1 s = -v / s - Real.log s := by
    unfold dist.gamma.logPdf
    rw [lgamma_facts.2.1]
    ring
  have hval : ∀ ms : List Categorical,
      ∃ post, Categorical.constructDirichletAlphaConditional ms (s :: rest) = some post ∧
        post v = (-v / s - Real.log s)
          + (ms.map fun model => models.logMarginalLikelihood model.n model.counts v).sum := by
    intro ms
    obtain ⟨post, hpost, hfun⟩ := constructDirichletAlphaConditional_cons ms s rest
    refine ⟨post, hpost, ?_⟩
    rw [hfun v, foldl_add_eq_sum (fun (model : Categorical) => model.hyperDirichletAlphaConditional_ v), hpdf]
    rfl
  obtain ⟨post, hpost, hpv⟩ := hval instances
  refine ⟨post, hpost, hpv, ?_, ?_, ?_, ?_⟩
  · rw [ProbabilityTheory.gammaPDFReal, if_pos (le_of_lt hv), Real.exp_sub, Real.exp_log hs,
      Real.rpow_one, Real.Gamma_one, sub_self, Real.rpow_zero]
    have e : -(1 / s * v) = -v / s := by ring
    rw [e]
    field_simp
  · intro models2 h2
    obtain ⟨post2, hpost2, hpv2⟩ := hval models2
    refine ⟨post2, hpost2, ?_⟩
    rw [hpv2, hpv]
    congr 1
    have e : ∀ ms : List Categorical,
        (ms.map fun model => models.logMarginalLikelihood model.n model.counts v)
          = (ms.map fun model => (model.n, model.counts)).map
              (fun (p : ℝ × List ℕ) => models.logMarginalLikelihood p.1 p.2 v) := by
      intro ms
      rw [List.map_map]
      rfl
    rw [e models2, e instances, h2]
  · intro models2 h2
    obtain ⟨post2, hpost2, hpv2⟩ := hval models2
    refine ⟨post2, hpost2, ?_⟩
    rw [hpv2, hpv]
    congr 1
    exact (h2.map _).sum_eq
  · obtain ⟨post0, hpost0, hpv0⟩ := hval []
    refine ⟨post0, hpost0, ?_⟩
    rw [hpv0]
    simp

theorem constructDirichletAlphaConditional_spec_witness :
    ∃ post, Categorical.constructDirichletAlphaConditional
        [Categorical.ofSuffstats 10 [1, 4, 5] 1, Categorical.ofSuffstats 0 [0, 0, 0] 2] [1 / 2]
        = some post ∧
      post 3 = (-3 / (1 / 2) - Real.log (1 / 2))
        + (models.logMarginalLikelihood 10 [1, 4, 5] 3
            + (models.logMarginalLikelihood 0 [0, 0, 0] 3 + 0)) :=
  Exists.elim
    (constructDirichletAlphaConditional_spec
      [Categorical.ofSuffstats 10 [1, 4, 5] 1, Categorical.ofSuffstats 0 [0, 0, 0] 2]
      (1 / 2) 3 [] (by norm_num) (by norm_num))
    (fun post h => ⟨post, h.1, h.2.1⟩)

/-- C27: in `resampleHypers`, for every hyperprior scale `s > 0` and every uniform draw `U` in
`[-1, 1]`, the sampler is called with the step width `w = s/2 > 0` and the initial point
`x_0 = s + U*s/2`, which lies in `[s/2, 3s/2]` and is therefore strictly inside the sampler's
domain `(0, +infinity)`. -/
theorem resampleHypers_initial_point {R : Type} (urand : R → ℝ → ℝ → ℝ × R)
    (mhSample : ℝ → (ℝ → ℝ) → EReal × EReal → ℝ → ℕ → R → Option (ℝ × R))
    (m0 : Categorical) (ms : List Categorical) (s : ℝ) (rest : List ℝ) (rng : R) (burn : ℕ)
    (hs : 0 < s) (hU : -1 ≤ (urand rng (-1) 1).1 ∧ (urand rng (-1) 1).1 ≤ 1) :
    ∃ (post : ℝ → ℝ) (x_0 w : ℝ),
      Categorical.resampleHypers urand mhSample (m0 :: ms) (s :: rest) rng burn
        = (match mhSample x_0 post (0, ⊤) w burn (urand rng (-1) 1).2 with
          | none => none
          | some (v, rng2) =>
            some ([v], (m0 :: ms).map fun model =>
              { model with dirichlet_alpha := v, log_Z0 := 0 }, rng2)) ∧
      w = s / 2 ∧ 0 < w ∧ x_0 = s + (urand rng (-1) 1).1 * (s / 2) ∧
      s / 2 ≤ x_0 ∧ x_0 ≤ 3 * s / 2 ∧ 0 < x_0 := by
  obtain ⟨post, hpost, _⟩ := constructDirichletAlphaConditional_cons (m0 :: ms) s rest
  refine ⟨post, s + (urand rng (-1) 1).1 * (s / 2), s / 2,
    resampleHypers_eq urand mhSample m0 ms s rest rng burn post hpost, rfl, by linarith, rfl,
    ?_, ?_, ?_⟩
  · nlinarith [hU.1]
  · nlinarith [hU.2]
  · nlinarith [hU.1]

theorem resampleHypers_initial_point_witness :
    ∃ (post : ℝ → ℝ) (x_0 w : ℝ),
      Categorical.resampleHypers (fun (r : ℕ) (_ _ : ℝ) => ((-1 : ℝ), r + 1))
          (fun (x : ℝ) (_ : ℝ → ℝ) (_ : EReal × EReal) (_ : ℝ) (_ : ℕ) (r : ℕ) =>
            some (x, r + 1))
          [Categorical.ofSuffstats 10 [1, 4, 5] 1] [1 / 3] 0 50
        = (match (fun (x : ℝ) (_ : ℝ → ℝ) (_ : EReal × EReal) (_ : ℝ) (_ : ℕ) (r : ℕ) =>
            some (x, r + 1)) x_0 post (0, ⊤) w 50 1 with
          | none => none
          | some (v, rng2) =>
            some ([v], [Categorical.ofSuffstats 10 [1, 4, 5] 1].map fun model =>
              { model with dirichlet_alpha := v, log_Z0 := 0 }, rng2)) ∧
      w = 1 / 3 / 2 ∧ 0 < w ∧ x_0 = 1 / 3 + -1 * (1 / 3 / 2) ∧
      1 / 3 / 2 ≤ x_0 ∧ x_0 ≤ 3 * (1 / 3) / 2 ∧ 0 < x_0 :=
  resampleHypers_initial_point (fun (r : ℕ) (_ _ : ℝ) => ((-1 : ℝ), r + 1))
    (fun (x : ℝ) (_ : ℝ → ℝ) (_ : EReal × EReal) (_ : ℝ) (_ : ℕ) (r : ℕ) => some (x, r + 1))
    (Categorical.ofSuffstats 10 [1, 4, 5] 1) [] (1 / 3) [] 0 50 (by norm_num)
    ⟨le_rfl, by norm_num⟩

/-! ## Log-sum-exp -/

/-- C24: for every `alpha > 0` and every list of block sizes, each `>= 1`, summing to
`n >= 1`, `lcrp(blockSizes, n, alpha)
= sum_blocks lgamma(size) + (#blocks)*log(alpha) + lgamma(alpha) - lgamma(n + alpha)` and this
value is `<= 0`, with equality for the single partition of one item (`blockSizes = [1]`,
`n = 1`); `lcrp` fails when `alpha <= 0` or `n = 0`. -/
theorem lcrp_spec (Nk : List ℕ) (n : ℕ) (alpha : ℝ) (hα : 0 < alpha) (hn : 1 ≤ n)
    (hsize : ∀ k ∈ Nk, 1 ≤ k) (hsum : Nk.sum = n) :
    (∃ v, numerics.lcrp Nk n alpha = some v ∧
      v = (Nk.map fun (k : ℕ) => lgamma (k : ℝ)).sum + (Nk.length : ℝ) * Real.log alpha
            + lgamma alpha - lgamma ((n : ℝ) + alpha) ∧
      v ≤ 0) ∧
    numerics.lcrp [1] 1 alpha = some 0 ∧
    (∀ (blocks : List ℕ) (total : ℕ) (a : ℝ), a ≤ 0 → numerics.lcrp blocks total a = none) ∧
    ∀ (blocks : List ℕ) (a : ℝ), numerics.lcrp blocks 0 a = none := by
  have hrec := lgamma_facts.1
  have hval : ∀ (blocks : List ℕ) (total : ℕ), 1 ≤ total →
      numerics.lcrp blocks total alpha
        = some ((blocks.map fun (k : ℕ) => lgamma (k : ℝ)).sum
            + (blocks.length : ℝ) * Real.log alpha
            + lgamma alpha - lgamma ((total : ℝ) + alpha)) := by
    intro blocks total ht
    have ht' : (0 : ℝ) < (total : ℝ) := by exact_mod_cast ht
    unfold numerics.lcrp
    simp only [ASSERT_GREATER_THAN_ZERO, if_pos hα, if_pos ht']
    rw [foldl_add_eq_sum (fun (k : ℕ) => lgamma (k : ℝ)), zero_add]
  -- `lgamma (m + b + alpha) = lgamma (m + alpha) + sum_{j < b} log (alpha + m + j)`
  have hrise : ∀ (m b : ℕ), lgamma (((m + b : ℕ) : ℝ) + alpha)
      = lgamma ((m : ℝ) + alpha)
        + ∑ j ∈ Finset.range b, Real.log (alpha + (m : ℝ) + (j : ℝ)) := by
    intro m b
    induction b with
    | zero => simp
    | succ b ih =>
      have hp : (0 : ℝ) < ((m + b : ℕ) : ℝ) + alpha := by positivity
      have e : ((m + (b + 1) : ℕ) : ℝ) + alpha = (((m + b : ℕ) : ℝ) + alpha) + 1 := by
        push_cast
        ring
      have e2 : alpha + (m : ℝ) + (b : ℝ) = ((m + b : ℕ) : ℝ) + alpha := by
        push_cast
        ring
      rw [Finset.sum_range_succ, e, hrec _ hp, ih, e2]
      ring
  -- one block of size `b >= 1` placed after `m` items
  have hblock : ∀ (m b : ℕ), 1 ≤ b →
      lgamma (b : ℝ) + Real.log alpha
        ≤ ∑ j ∈ Finset.range b, Real.log (alpha + (m : ℝ) + (j : ℝ)) := by
    intro m b hb
    induction b with
    | zero => omega
    | succ b ih =>
      by_cases hb0 : b = 0
      · subst hb0
        simp only [zero_add, Nat.cast_one, Finset.range_one, Finset.sum_singleton,
          Nat.cast_zero, add_zero]
        rw [lgamma_facts.2.1, zero_add]
        exact Real.log_le_log hα (by
          have : (0 : ℝ) ≤ (m : ℝ) := Nat.cast_nonneg m
          linarith)
      · have hb1 : 1 ≤ b := Nat.one_le_iff_ne_zero.2 hb0
        have hbpos : (0 : ℝ) < (b : ℝ) := by exact_mod_cast hb1
        rw [Finset.sum_range_succ]
        have e : ((b + 1 : ℕ) : ℝ) = (b : ℝ) + 1 := by push_cast; ring
        rw [e, hrec _ hbpos]
        have hlog : Real.log (b : ℝ) ≤ Real.log (alpha + (m : ℝ) + (b : ℝ)) :=
          Real.log_le_log hbpos (by
            have : (0 : ℝ) ≤ (m : ℝ) := Nat.cast_nonneg m
            linarith)
        have := ih hb1
        linarith
  -- all blocks, placed one after the other from offset `m`
  have hall : ∀ (blocks : List ℕ) (m : ℕ), (∀ k ∈ blocks, 1 ≤ k) →
      (blocks.map fun (k : ℕ) => lgamma (k : ℝ)).sum + (blocks.length : ℝ) * Real.log alpha
        ≤ lgamma (((m + blocks.sum : ℕ) : ℝ) + alpha) - lgamma ((m : ℝ) + alpha) := by
    intro blocks
    induction blocks with
    | nil => intro m _; simp
    | cons b t ih =>
      intro m hb
      have h1 := hblock m b (hb b (List.mem_cons_self _ _))
      have h2 := ih (m + b) (fun k hk => hb k (List.mem_cons_of_mem _ hk))
      have h3 := hrise m b
      rw [List.map_cons, List.sum_cons, List.length_cons, List.sum_cons]
      have e : m + (b + t.sum) = m + b + t.sum := by ring
      rw [e]
      push_cast at h2 h3 ⊢
      linarith
  refine ⟨⟨_, hval Nk n hn, rfl, ?_⟩, ?_, ?_, ?_⟩
  · have h := hall Nk 0 hsize
    rw [zero_add, hsum] at h
    simp only [Nat.cast_zero, zero_add] at h
    linarith
  · rw [hval [1] 1 le_rfl]
    have h := hrec alpha hα
    simp only [List.map_cons, List.map_nil, List.sum_cons, List.sum_nil, List.length_cons,
      List.length_nil, Nat.cast_one, zero_add, add_zero, one_mul]
    rw [lgamma_facts.2.1, add_comm (1 : ℝ) alpha, h]
    congr 1
    ring
  · intro blocks total a ha
    unfold numerics.lcrp
    simp only [ASSERT_GREATER_THAN_ZERO, if_neg (not_lt.2 ha)]
  · intro blocks a
    unfold numerics.lcrp
    by_cases ha : 0 < a
    · simp only [ASSERT_GREATER_THAN_ZERO, if_pos ha, Nat.cast_zero, lt_irrefl, if_false]
    · simp only [ASSERT_GREATER_THAN_ZERO, if_neg ha]

theorem lcrp_spec_witness :
    (∃ v, numerics.lcrp [2, 1] 3 (1 / 2) = some v ∧
      v = (([2, 1] : List ℕ).map fun (k : ℕ) => lgamma (k : ℝ)).sum
            + (([2, 1] : List ℕ).length : ℝ) * Real.log (1 / 2)
            + lgamma (1 / 2) - lgamma (((3 : ℕ) : ℝ) + 1 / 2) ∧
      v ≤ 0) :=
  (lcrp_spec [2, 1] 3 (1 / 2) (by norm_num) (by norm_num) (by decide) (by decide)).1

/-- C25 (as stated, refuted): 0 is a non-negative argument, and `lbeta(0, 1)` fails at its
first assertion, which requires a strictly positive value. -/
theorem lbeta_rejects_zero : numerics.lbeta 0 1 = none := by
  unfold numerics.lbeta
  simp [ASSERT_GREATER_THAN_ZERO]

/-- C25 (amended): for all natural numbers `0 <= k <= n`, `lfactorial(n) = log(n!)` and
`lnchoosek(n, k) = log(C(n, k))`, with `lnchoosek(n, 0) = lnchoosek(n, n) = 0` and
`lnchoosek(n, k) = lnchoosek(n, n - k)`; `lfactorial` accepts exactly the arguments `N >= 0`,
`lnchoosek` accepts exactly the arguments with `0 <= k <= n`, and `lbeta` accepts exactly the
pairs of strictly positive arguments. -/
theorem log_combinatorics_spec (n k : ℕ) (hk : k ≤ n) :
    numerics.lfactorial (n : ℝ) = some (Real.log (n.factorial : ℝ)) ∧
    numerics.lnchoosek (n : ℝ) (k : ℝ) = some (Real.log ((n.choose k : ℕ) : ℝ)) ∧
    numerics.lnchoosek (n : ℝ) 0 = some 0 ∧
    numerics.lnchoosek (n : ℝ) (n : ℝ) = some 0 ∧
    numerics.lnchoosek (n : ℝ) (k : ℝ) = numerics.lnchoosek (n : ℝ) ((n : ℝ) - (k : ℝ)) ∧
    (∀ N : ℝ, (numerics.lfactorial N).isSome ↔ 0 ≤ N) ∧
    (∀ a b : ℝ, (numerics.lnchoosek a b).isSome ↔ 0 ≤ b ∧ b ≤ a) ∧
    (∀ a b : ℝ, (numerics.lbeta a b).isSome ↔ 0 < a ∧ 0 < b) := by
  have hfact : ∀ N : ℝ, 0 ≤ N → numerics.lfactorial N = some (lgamma (N + 1)) := by
    intro N hN
    unfold numerics.lfactorial
    simp only [ASSERT, ge_iff_le, if_pos hN]
  have hfactneg : ∀ N : ℝ, ¬ 0 ≤ N → numerics.lfactorial N = none := by
    intro N hN
    unfold numerics.lfactorial
    simp only [ASSERT, ge_iff_le, if_neg hN]
  have hchoose : ∀ a b : ℝ, 0 ≤ b → b ≤ a →
      numerics.lnchoosek a b
        = some (if a = b ∨ b = 0 then 0
                else lgamma (a + 1) - lgamma (b + 1) - lgamma (a - b + 1)) := by
    intro a b hb hba
    have ha : 0 ≤ a := le_trans hb hba
    unfold numerics.lnchoosek
    simp only [ASSERT, ge_iff_le, if_pos ha, if_pos hb]
    by_cases h : a = b ∨ b = 0
    · rw [if_pos h, if_pos h]
    · rw [if_neg h, if_neg h, hfact a ha, hfact b hb, hfact (a - b) (by linarith)]
  have hlog : ∀ m j : ℕ, j ≤ m →
      numerics.lnchoosek (m : ℝ) (j : ℝ) = some (Real.log ((m.choose j : ℕ) : ℝ)) := by
    intro m j hj
    rw [hchoose (m : ℝ) (j : ℝ) (Nat.cast_nonneg j) (by exact_mod_cast hj)]
    by_cases h : (m : ℝ) = (j : ℝ) ∨ (j : ℝ) = 0
    · rw [if_pos h]
      rcases h with h | h
      · have : m = j := by exact_mod_cast h
        subst this
        simp
      · have : j = 0 := by exact_mod_cast h
        subst this
        simp
    · rw [if_neg h]
      have e : (m : ℝ) - (j : ℝ) = ((m - j : ℕ) : ℝ) := by
        rw [Nat.cast_sub hj]
      rw [e, lgamma_facts.2.2 m, lgamma_facts.2.2 j, lgamma_facts.2.2 (m - j)]
      have hm : (0 : ℝ) < (m.factorial : ℝ) := by exact_mod_cast Nat.factorial_pos m
      have hj0 : (0 : ℝ) < (j.factorial : ℝ) := by exact_mod_cast Nat.factorial_pos j
      have hmj : (0 : ℝ) < ((m - j).factorial : ℝ) := by
        exact_mod_cast Nat.factorial_pos (m - j)
      have hc : (0 : ℝ) < ((m.choose j : ℕ) : ℝ) := by exact_mod_cast Nat.choose_pos hj
      have hmul : ((m.choose j : ℕ) : ℝ) * (j.factorial : ℝ) * ((m - j).factorial : ℝ)
          = (m.factorial : ℝ) := by
        exact_mod_cast Nat.choose_mul_factorial_mul_factorial hj
      rw [← hmul, Real.log_mul (ne_of_gt (mul_pos hc hj0)) (ne_of_gt hmj),
        Real.log_mul (ne_of_gt hc) (ne_of_gt hj0)]
      congr 1
      ring
  refine ⟨?_, hlog n k hk, ?_, ?_, ?_, ?_, ?_, ?_⟩
  · rw [hfact (n : ℝ) (Nat.cast_nonneg n), lgamma_facts.2.2 n]
  · have h := hlog n 0 (Nat.zero_le n)
    simpa using h
  · have h := hlog n n le_rfl
    simpa using h
  · have e : (n : ℝ) - (k : ℝ) = ((n - k : ℕ) : ℝ) := by
      rw [Nat.cast_sub hk]
    rw [e, hlog n k hk, hlog n (n - k) (Nat.sub_le n k), Nat.choose_symm hk]
  · intro N
    by_cases hN : 0 ≤ N
    · rw [hfact N hN]
      simp [hN]
    · rw [hfactneg N hN]
      simp [hN]
  · intro a b
    by_cases hb : 0 ≤ b
    · by_cases hba : b ≤ a
      · rw [hchoose a b hb hba]
        simp [hb, hba]
      · unfold numerics.lnchoosek
        by_cases ha0 : 0 ≤ a
        · have ha : ¬ (a = b ∨ b = 0) := by
            rintro (h | h)
            · exact hba (le_of_eq h.symm)
            · exact hba (by rw [h]; exact ha0)
          simp only [ASSERT, ge_iff_le, if_pos ha0, if_pos hb, if_neg ha]
          rw [hfactneg (a - b) (by intro hc; exact hba (by linarith))]
          cases numerics.lfactorial a <;> cases numerics.lfactorial b <;> simp [hba]
        · simp only [ASSERT, ge_iff_le, if_neg ha0]
          simp [hba]
    · unfold numerics.lnchoosek
      by_cases ha0 : 0 ≤ a
      · simp only [ASSERT, ge_iff_le, if_pos ha0, if_neg hb]
        simp [hb]
      · simp only [ASSERT, ge_iff_le, if_neg ha0]
        simp [hb]
  · intro a b
    unfold numerics.lbeta
    by_cases ha : 0 < a
    · by_cases hb : 0 < b
      · simp [ASSERT_GREATER_THAN_ZERO, ha, hb]
      · simp [ASSERT_GREATER_THAN_ZERO, ha, hb]
    · simp [ASSERT_GREATER_THAN_ZERO, ha]

theorem log_combinatorics_spec_witness :
    numerics.lfactorial ((4 : ℕ) : ℝ) = some (Real.log ((Nat.factorial 4 : ℕ) : ℝ)) ∧
    numerics.lnchoosek ((4 : ℕ) : ℝ) ((2 : ℕ) : ℝ) = some (Real.log ((Nat.choose 4 2 : ℕ) : ℝ)) :=
  ⟨(log_combinatorics_spec 4 2 (by decide)).1, (log_combinatorics_spec 4 2 (by decide)).2.1⟩

/-! ## Order-free sufficient statistics -/

/-- C26: for every component state and every two sequences of in-range categories that are
permutations of each other, inserting the elements of one sequence one by one yields the same
state (counts, `n`, alpha) as inserting the elements of the other, and hence the same `logp()`
and `elementLogp` values.  The state reached has `n` incremented (as a `double`) once per
element, which is `n` plus the length of the sequence while that stays within `2^53`, and
`counts[i]` grown, as a `size_t`, by the number of occurrences of `i`. -/
theorem insertElements_perm (s : Categorical) (xs ys : List ℕ) (hty : s.WellTyped)
    (hx : ∀ x ∈ xs, x < s.counts.length) (hperm : xs.Perm ys) :
    ∃ t, s.insertElements xs = some t ∧ s.insertElements ys = some t ∧
      t.n = (fun (n : ℝ) => roundToDouble (n + 1))^[xs.length] s.n ∧
      (∀ z : ℤ, s.n = (z : ℝ) → -2 ^ 53 ≤ z → z + (xs.length : ℤ) ≤ 2 ^ 53 →
        t.n = s.n + (xs.length : ℝ)) ∧
      t.counts = withPseudoObservations s.counts xs ∧
      t.dirichlet_alpha = s.dirichlet_alpha ∧
      ∀ t1 t2, s.insertElements xs = some t1 → s.insertElements ys = some t2 →
        t1.counts = t2.counts ∧ t1.n = t2.n ∧ t1.dirichlet_alpha = t2.dirichlet_alpha ∧
        t1.logp = t2.logp ∧ ∀ x, t1.elementLogp x = t2.elementLogp x := by
  have hins : ∀ (zs : List ℕ) (u : Categorical), u.WellTyped →
      (∀ x ∈ zs, x < u.counts.length) →
      u.insertElements zs
        = some { u with n := (fun (n : ℝ) => roundToDouble (n + 1))^[zs.length] u.n,
                        counts := withPseudoObservations u.counts zs } := by
    intro zs
    induction zs with
    | nil =>
      intro u hu _
      rw [withPseudoObservations_nil u.counts hu]
      simp [Categorical.insertElements]
    | cons z rest ih =>
      intro u hu hz
      have hlt : z < u.counts.length := hz z (List.mem_cons_self _ _)
      have hget : u.counts[z]? = some (u.counts.getD z 0) := by
        rw [List.getD_eq_getElem?_getD, List.getElem?_eq_getElem hlt]
        rfl
      rw [Categorical.insertElements, insertElement_eq u z _ hget]
      simp only
      rw [ih]
      · simp only [withPseudoObservations_cons, List.length_cons, Function.iterate_succ_apply]
      · intro k hk
        rcases List.mem_or_eq_of_mem_set hk with h | h
        · exact hu k h
        · rw [h]
          exact Nat.mod_lt _ (by decide)
      · intro k hk
        simp only [List.length_set]
        exact hz k (List.mem_cons_of_mem _ hk)
  have hexact : ∀ (k : ℕ) (n : ℝ) (z : ℤ), n = (z : ℝ) → -2 ^ 53 ≤ z →
      z + (k : ℤ) ≤ 2 ^ 53 →
      (fun (n : ℝ) => roundToDouble (n + 1))^[k] n = n + (k : ℝ) := by
    intro k
    induction k with
    | zero =>
      intro n z _ _ _
      simp
    | succ k ih =>
      intro n z hn h1 h2
      have hr : roundToDouble (n + 1) = n + 1 :=
        roundToDouble_add_one n z hn ⟨h1, by push_cast at h2; omega⟩
      rw [Function.iterate_succ_apply, hr,
        ih (n + 1) (z + 1) (by rw [hn]; push_cast; rfl) (by omega) (by push_cast at h2 ⊢; omega)]
      push_cast
      ring
  have hy : ∀ x ∈ ys, x < s.counts.length := fun x hxy => hx x (hperm.mem_iff.2 hxy)
  have hsame : withPseudoObservations s.counts ys = withPseudoObservations s.counts xs := by
    unfold withPseudoObservations
    apply List.map_congr_left
    intro i _
    rw [hperm.count_eq i]
  have h1 := hins xs s hty hx
  have h2 := hins ys s hty hy
  rw [hsame, ← hperm.length_eq] at h2
  refine ⟨_, h1, h2, rfl, fun z hn hz1 hz2 => hexact xs.length s.n z hn hz1 hz2, rfl, rfl, ?_⟩
  intro t1 t2 e1 e2
  rw [h1] at e1
  rw [h2] at e2
  have e : t1 = t2 := by
    rw [← Option.some_inj.1 e1, ← Option.some_inj.1 e2]
  subst e
  exact ⟨rfl, rfl, rfl, rfl, fun _ => rfl⟩

theorem insertElements_perm_witness :
    ∃ t, (Categorical.ofSuffstats 10 [1, 4, 5] 1).insertElements [0, 2, 0] = some t ∧
      (Categorical.ofSuffstats 10 [1, 4, 5] 1).insertElements [2, 0, 0] = some t ∧
      t.counts = [3, 4, 6] ∧ t.n = 13 :=
  Exists.elim
    (insertElements_perm (Categorical.ofSuffstats 10 [1, 4, 5] 1) [0, 2, 0] [2, 0, 0]
      wellTyped_145 (by decide) (by decide))
    (fun t h => ⟨t, h.1, h.2.1, by rw [h.2.2.2.2.1]; decide, by
      rw [h.2.2.2.1 10 (by simp [Categorical.ofSuffstats]) (by norm_num) (by norm_num)]
      simp [Categorical.ofSuffstats]
      norm_num⟩)

/-! ## Binary search -/

/-- In a list whose first `i` entries are below `key` and whose other entries are not, `i` is
the number of entries below `key`. -/
theorem countP_lt_of_split (key : ℕ) : ∀ (A : List ℕ) (i : ℕ), i ≤ A.length →
    (∀ j, j < i → A.getD j 0 < key) →
    (∀ j, i ≤ j → j < A.length → ¬ A.getD j 0 < key) →
    A.countP (fun a => decide (a < key)) = i := by
  intro A
  induction A with
  | nil =>
    intro i hi _ _
    simp at hi
    simp [hi]
  | cons a t ih =>
    intro i hi hlo hhi
    cases i with
    | zero =>
      have ha : ¬ a < key := hhi 0 le_rfl (by simp)
      rw [List.countP_cons_of_neg _ _ (by simpa using ha)]
      exact ih 0 (Nat.zero_le _) (fun j hj => absurd hj (Nat.not_lt_zero j))
        (fun j _ hj => hhi (j + 1) (Nat.zero_le _) (by simpa using hj))
    | succ i =>
      have ha : a < key := hlo 0 (Nat.succ_pos i)
      rw [List.countP_cons_of_pos _ _ (by simpa using ha)]
      congr 1
      refine ih i (by simpa using hi) (fun j hj => hlo (j + 1) (by omega)) ?_
      intro j hij hj
      exact hhi (j + 1) (by omega) (by simpa using hj)

/-- The loop invariant of `binary_search`: with `imin = lo` and `imax = hi - 1`, every entry
before `lo` is below the key and every entry from `hi` on is above it. -/
theorem binary_search_loop_spec (A : List ℕ) (key : ℕ) (hlen : A.length < 2 ^ 31)
    (hsorted : A.Sorted (fun x y => x ≤ y)) :
    ∀ (fuel lo hi : ℕ) (imid : ℤ), lo ≤ hi → hi ≤ A.length → hi - lo + 1 ≤ fuel →
      (∀ j, j < lo → A.getD j 0 < key) →
      (∀ j, hi ≤ j → j < A.length → key < A.getD j 0) →
      (lo < hi ∨ ∃ m : ℕ, imid = (m : ℤ) ∧ m < A.length ∧
          ((A.getD m 0 < key ∧ lo = m + 1) ∨ (¬ A.getD m 0 < key ∧ lo = m))) →
      ∃ i, utils.binary_search_loop A key fuel (lo : ℤ) ((hi : ℤ) - 1) imid = some i ∧
        (A[i]? = some key ∨
          (i ≤ A.length ∧ (∀ j, j < i → A.getD j 0 < key) ∧
            ∀ j, i ≤ j → j < A.length → key < A.getD j 0)) := by
  have hmono : ∀ i j, i ≤ j → j < A.length → A.getD i 0 ≤ A.getD j 0 := by
    intro i j hij hj
    have hi : i < A.length := lt_of_le_of_lt hij hj
    rw [List.getD_eq_getElem _ _ hi, List.getD_eq_getElem _ _ hj]
    rcases Nat.eq_or_lt_of_le hij with h | h
    · subst h
      exact le_rfl
    · exact (List.pairwise_iff_getElem.1 hsorted) i j hi hj h
  have hread : ∀ m : ℕ, m < A.length → vectorAt A (m : ℤ) = some (A.getD m 0) := by
    intro m hm
    have e : int_to_size_t (m : ℤ) = m := by
      unfold int_to_size_t SIZE_T_MODULUS
      have : ((m : ℤ) % ((2 ^ 64 : ℕ) : ℤ)) = (m : ℤ) := by
        apply Int.emod_eq_of_lt (by omega)
        have : m < 2 ^ 64 := by omega
        exact_mod_cast this
      rw [this, Int.toNat_ofNat]
    unfold vectorAt
    rw [e, List.getD_eq_getElem _ _ hm, List.getElem?_eq_getElem hm]
  have hconv : ∀ m : ℕ, m < 2 ^ 31 → int_to_size_t (m : ℤ) = m := by
    intro m hm
    unfold int_to_size_t SIZE_T_MODULUS
    have : ((m : ℤ) % ((2 ^ 64 : ℕ) : ℤ)) = (m : ℤ) := by
      apply Int.emod_eq_of_lt (by omega)
      have : m < 2 ^ 64 := by omega
      exact_mod_cast this
    rw [this, Int.toNat_ofNat]
  have harith : ∀ z : ℤ, -1 ≤ z → z < 2 ^ 31 → intArith z = some z := by
    intro z h1 h2
    unfold intArith INT_MIN INT_MAX
    rw [if_pos ⟨by omega, by omega⟩]
  intro fuel
  induction fuel with
  | zero =>
    intro lo hi imid _ _ hf
    omega
  | succ fuel ih =>
    intro lo hi imid hlh hhi hf hlo hup hmid
    rw [utils.binary_search_loop]
    by_cases hlt : lo < hi
    · have hcond : ((hi : ℤ) - 1 ≥ (lo : ℤ)) := by omega
      rw [if_pos hcond, harith ((hi : ℤ) - 1 - (lo : ℤ)) (by omega) (by omega)]
      simp only
      have hdiv : ((hi : ℤ) - 1 - (lo : ℤ)).tdiv 2 = ((hi : ℤ) - 1 - (lo : ℤ)) / 2 :=
        Int.tdiv_eq_ediv (by omega) (by norm_num)
      have hm : (lo : ℤ) + ((hi : ℤ) - 1 - (lo : ℤ)) / 2
          = ((lo + (hi - 1 - lo) / 2 : ℕ) : ℤ) := by
        omega
      have hmlo : lo ≤ lo + (hi - 1 - lo) / 2 := Nat.le_add_right _ _
      have hmhi : lo + (hi - 1 - lo) / 2 < hi := by omega
      rw [hdiv, hm, harith _ (by omega) (by omega)]
      simp only
      generalize lo + (hi - 1 - lo) / 2 = m at hmlo hmhi
      have hmA : m < A.length := lt_of_lt_of_le hmhi hhi
      rw [hread m hmA]
      simp only
      by_cases hkey : A.getD m 0 = key
      · rw [if_pos hkey]
        refine ⟨_, rfl, Or.inl ?_⟩
        rw [hconv m (by omega), List.getElem?_eq_getElem hmA, ← hkey,
          List.getD_eq_getElem _ _ hmA]
      · rw [if_neg hkey]
        by_cases hless : A.getD m 0 < key
        · rw [if_pos hless, harith ((m : ℤ) + 1) (by omega) (by omega)]
          simp only
          have e : (m : ℤ) + 1 = ((m + 1 : ℕ) : ℤ) := by push_cast; ring
          rw [e]
          refine ih (m + 1) hi (m : ℤ) (by omega) hhi (by omega) ?_ hup ?_
          · intro j hj
            exact lt_of_le_of_lt (hmono j m (by omega) hmA) hless
          · exact Or.inr ⟨m, rfl, hmA, Or.inl ⟨hless, rfl⟩⟩
        · rw [if_neg hless, harith ((m : ℤ) - 1) (by omega) (by omega)]
          simp only
          have hgt : key < A.getD m 0 := by omega
          refine ih lo m (m : ℤ) hmlo (le_of_lt hmA) (by omega) hlo ?_ ?_
          · intro j hj hjA
            exact lt_of_lt_of_le hgt (hmono m j hj hjA)
          · rcases Nat.eq_or_lt_of_le hmlo with h | h
            · exact Or.inr ⟨m, rfl, hmA, Or.inr ⟨hless, h⟩⟩
            · exact Or.inl h
    · have hcond : ¬ ((hi : ℤ) - 1 ≥ (lo : ℤ)) := by omega
      have hloA : lo ≤ A.length := le_trans hlh hhi
      have hup2 : ∀ j, lo ≤ j → j < A.length → key < A.getD j 0 :=
        fun j hj hjA => hup j (by omega) hjA
      rw [if_neg hcond]
      rcases hmid with h | ⟨m, hm, hmA, h⟩
      · exact absurd h hlt
      · rw [hm, hread m hmA]
        simp only
        rcases h with ⟨h1, h2⟩ | ⟨h1, h2⟩
        · rw [if_pos h1, harith ((m : ℤ) + 1) (by omega) (by omega)]
          have e : (m : ℤ) + 1 = ((m + 1 : ℕ) : ℤ) := by push_cast; ring
          rw [e, Option.map_some', hconv (m + 1) (by omega), ← h2]
          exact ⟨_, rfl, Or.inr ⟨hloA, hlo, hup2⟩⟩
        · rw [if_neg h1, hconv m (by omega), ← h2]
          exact ⟨_, rfl, Or.inr ⟨hloA, hlo, hup2⟩⟩

/-- On a vector of `N` zeros whose last index does not fit an `int` and converts to a negative
one, the loop of `binary_search` is not entered and the search for the key 1 returns 1. -/
theorem binary_search_replicate_zero (N : ℕ) (hN : 0 < N)
    (hwrap : size_t_to_int ((SIZE_T_MODULUS - 1 + N) % SIZE_T_MODULUS) < 0) :
    utils.binary_search (List.replicate N 0) 1 = some 1 := by
  unfold utils.binary_search
  rw [List.length_replicate]
  generalize size_t_to_int ((SIZE_T_MODULUS - 1 + N) % SIZE_T_MODULUS) = imax at hwrap
  have hread : vectorAt (List.replicate N 0) 0 = some 0 := by
    unfold vectorAt int_to_size_t
    rw [Int.zero_emod, Int.toNat_zero, List.getElem?_replicate, if_pos hN]
  rw [utils.binary_search_loop, if_neg (by omega), hread]
  simp [intArith, INT_MIN, INT_MAX, int_to_size_t, SIZE_T_MODULUS]

/-- C28 (as stated, refuted): on the sorted vector of `2^31 + 1` zeros and the key 1, which
does not occur, `A.size()-1 = 2^31` converts to the `int` `-2^31`, the loop is not entered
and `binary_search` returns 1, while the insertion point of the key is `2^31 + 1`. -/
theorem binary_search_wraps_int :
    utils.binary_search (List.replicate (2 ^ 31 + 1) 0) 1 = some 1 ∧
    (List.replicate (2 ^ 31 + 1) 0).Sorted (fun x y => x ≤ y) ∧
    (1 : ℕ) ∉ List.replicate (2 ^ 31 + 1) 0 ∧
    (List.replicate (2 ^ 31 + 1) 0).countP (fun a => decide (a < 1)) = 2 ^ 31 + 1 :=
  ⟨binary_search_replicate_zero (2 ^ 31 + 1) (Nat.succ_pos _) (by
      unfold size_t_to_int SIZE_T_MODULUS
      norm_num),
    List.pairwise_replicate.2 (Or.inr le_rfl),
    fun h => absurd (List.eq_of_mem_replicate h) (by decide),
    (List.countP_eq_length.2 (fun a ha => by
      rw [List.eq_of_mem_replicate ha]
      rfl)).trans (List.length_replicate _ _)⟩

/-- C28 (amended): for every non-empty vector `A` of fewer than `2^31` elements sorted in
non-decreasing order and every key, `binary_search(A, key)` returns an index `i` with
`A[i] == key` when `key` occurs in `A`, and otherwise returns the insertion point of `key`,
the number of elements of `A` that are smaller than `key` (so `0 <= i <= A.size()`); every
index the search reads is within bounds (a read outside the bounds has no value here, and
the search returns one). -/
theorem binary_search_spec (A : List ℕ) (key : ℕ) (hne : A ≠ []) (hlen : A.length < 2 ^ 31)
    (hsorted : A.Sorted (fun x y => x ≤ y)) :
    ∃ i, utils.binary_search A key = some i ∧ i ≤ A.length ∧
      (key ∈ A → A[i]? = some key) ∧
      (key ∉ A → i = A.countP (fun a => decide (a < key))) := by
  have hpos : 0 < A.length := List.length_pos.2 hne
  have himax : size_t_to_int ((SIZE_T_MODULUS - 1 + A.length) % SIZE_T_MODULUS)
      = (A.length : ℤ) - 1 := by
    unfold size_t_to_int SIZE_T_MODULUS
    omega
  obtain ⟨i, hi, hres⟩ := binary_search_loop_spec A key hlen hsorted (A.length + 1) 0
    A.length 0 (Nat.zero_le _) le_rfl (by omega) (fun j hj => absurd hj (Nat.not_lt_zero j))
    (fun j hj hjA => absurd hjA (by omega)) (Or.inl hpos)
  refine ⟨i, ?_, ?_⟩
  · unfold utils.binary_search
    rw [himax]
    exact hi
  · rcases hres with hfound | ⟨hiA, hlo, hup⟩
    · have hmem : key ∈ A := List.getElem?_mem hfound
      have hiA : i < A.length := by
        by_contra hc
        rw [List.getElem?_eq_none (by omega)] at hfound
        exact Option.noConfusion hfound
      exact ⟨le_of_lt hiA, fun _ => hfound, fun h => absurd hmem h⟩
    · have hnot : key ∉ A := by
        intro hmem
        obtain ⟨j, hj, hjk⟩ := List.getElem_of_mem hmem
        rw [← List.getD_eq_getElem _ 0 hj] at hjk
        by_cases hji : j < i
        · have := hlo j hji
          omega
        · have := hup j (by omega) hj
          omega
      refine ⟨hiA, fun h => absurd h hnot, fun _ => ?_⟩
      exact (countP_lt_of_split key A i hiA hlo
        (fun j hij hj => by have := hup j hij hj; omega)).symm

theorem binary_search_spec_witness :
    ∃ i, utils.binary_search [1, 3, 3, 7] 4 = some i ∧ i ≤ ([1, 3, 3, 7] : List ℕ).length ∧
      ((4 : ℕ) ∈ ([1, 3, 3, 7] : List ℕ) → ([1, 3, 3, 7] : List ℕ)[i]? = some 4) ∧
      ((4 : ℕ) ∉ ([1, 3, 3, 7] : List ℕ) →
        i = ([1, 3, 3, 7] : List ℕ).countP (fun a => decide (a < 4))) :=
  binary_search_spec [1, 3, 3, 7] 4 (by decide) (by decide) (by decide)

/-! ## Uniform grids -/

/-- The loop of `linspace` writes `f i` at every index `i` it visits and leaves the other
entries as they were. -/
theorem foldl_set_lookup (f : ℕ → ℝ) (idx : List ℕ) (ret : List ℝ) (j : ℕ) :
    (idx.foldl (fun (r : List ℝ) (i : ℕ) => r.set i (f i)) ret).length = ret.length ∧
    (idx.foldl (fun (r : List ℝ) (i : ℕ) => r.set i (f i)) ret)[j]?
      = if j ∈ idx ∧ j < ret.length then some (f j) else ret[j]? := by
  induction idx generalizing ret with
  | nil => simp
  | cons i rest ih =>
    rw [List.foldl_cons]
    refine ⟨by rw [(ih (ret.set i (f i))).1, List.length_set], ?_⟩
    rw [(ih (ret.set i (f i))).2, List.length_set]
    by_cases hj : j < ret.length
    · by_cases hji : j = i
      · subst hji
        simp [hj]
      · have hne : i ≠ j := fun h => hji h.symm
        simp [hj, hji, List.getElem?_set_ne hne]
    · have hnone : ret[j]? = none := List.getElem?_eq_none (by omega)
      have hnone2 : (ret.set i (f i))[j]? = none :=
        List.getElem?_eq_none (by rw [List.length_set]; omega)
      simp [hj, hnone, hnone2]

/-- For `n >= 2` the vector returned by `linspace(a, b, n)` has length `n`, entries
`a + i*(b-a)/(n-1)`, first entry `a` and last entry `b`. -/
theorem linspace_of_two_le (a b : ℝ) (n : ℕ) (hab : a < b) (hn : 2 ≤ n) :
    ∃ vec, utils.linspace a b n = some vec ∧ vec.length = n ∧
      (∀ i, i < n → vec[i]? = some (a + (i : ℝ) * ((b - a) / ((n - 1 : ℕ) : ℝ)))) ∧
      vec[0]? = some a ∧ vec[n - 1]? = some b := by
  have hn0 : n > 0 := by omega
  have hval : ∀ i, i < n →
      ((List.range' 1 (n - 1)).foldl
        (fun (ret : List ℝ) (i : ℕ) => ret.set i (a + (i : ℝ) * ((b - a) / ((n - 1 : ℕ) : ℝ))))
        (List.replicate n a))[i]? = some (a + (i : ℝ) * ((b - a) / ((n - 1 : ℕ) : ℝ))) := by
    intro i hi
    rw [(foldl_set_lookup (fun i => a + (i : ℝ) * ((b - a) / ((n - 1 : ℕ) : ℝ))) _ _ i).2]
    by_cases h0 : i = 0
    · subst h0
      simp [List.mem_range', hn0]
    · have hmem : i ∈ List.range' 1 (n - 1) := by
        rw [List.mem_range'_1]
        omega
      simp [hmem, hi]
  refine ⟨_, ?_, ?_, hval, ?_, ?_⟩
  · unfold utils.linspace
    simp only [ASSERT, if_pos hab, if_pos hn0]
  · rw [(foldl_set_lookup _ _ _ 0).1, List.length_replicate]
  · rw [hval 0 hn0]
    simp
  · rw [hval (n - 1) (by omega)]
    have hpos : ((n - 1 : ℕ) : ℝ) ≠ 0 := by
      have : 0 < n - 1 := by omega
      exact_mod_cast (ne_of_gt this)
    rw [mul_div_cancel₀ _ hpos]
    simp

/-- C29: `linspace(0, 1, 1)` passes both assertions and returns the one-element vector
`{0}`, whose last element `vec[n-1] = vec[0]` is `a = 0` and not `b = 1`. -/
theorem linspace_single_point :
    utils.linspace 0 1 1 = some [0] ∧
    ∀ vec, utils.linspace 0 1 1 = some vec → vec.length = 1 ∧ vec[1 - 1]? ≠ some 1 := by
  have h : utils.linspace 0 1 1 = some [0] := by
    unfold utils.linspace
    simp [ASSERT]
  refine ⟨h, ?_⟩
  intro vec hvec
  rw [h] at hvec
  rw [← Option.some_inj.1 hvec]
  simp

/-! ## Set partitions -/

theorem next_partition_reset_spec (i c0 ci : ℕ) : ∀ (ksuf Msuf kpre Mpre : List ℕ),
    ksuf.length = Msuf.length → kpre.length = Mpre.length →
    kpre[0]? = some c0 → Mpre[i]? = some ci →
    utils.next_partition_reset i ksuf.length kpre.length (kpre ++ ksuf, Mpre ++ Msuf)
      = some (kpre ++ List.replicate ksuf.length c0, Mpre ++ List.replicate ksuf.length ci) := by
  intro ksuf
  induction ksuf with
  | nil =>
    intro Msuf kpre Mpre h1 _ _ _
    have : Msuf = [] := List.length_eq_zero.1 h1.symm
    subst this
    simp [utils.next_partition_reset]
  | cons x rest ih =>
    intro Msuf kpre Mpre h1 h2 h3 h4
    cases Msuf with
    | nil => simp at h1
    | cons y Mrest =>
      have hk0 : (kpre ++ x :: rest)[0]? = some c0 := by
        rw [List.getElem?_append_left (by
          by_contra hc
          rw [List.getElem?_eq_none (by omega)] at h3
          exact Option.noConfusion h3)]
        exact h3
      have hMi : (Mpre ++ y :: Mrest)[i]? = some ci := by
        rw [List.getElem?_append_left (by
          by_contra hc
          rw [List.getElem?_eq_none (by omega)] at h4
          exact Option.noConfusion h4)]
        exact h4
      rw [List.length_cons, utils.next_partition_reset, hk0, hMi]
      simp only
      rw [if_pos (by simp [h2])]
      have e1 : (kpre ++ x :: rest).set kpre.length c0 = (kpre ++ [c0]) ++ rest := by
        rw [List.set_append_right _ _ le_rfl]
        simp
      have e2 : (Mpre ++ y :: Mrest).set kpre.length ci = (Mpre ++ [ci]) ++ Mrest := by
        rw [h2, List.set_append_right _ _ le_rfl]
        simp
      have hlen : kpre.length + 1 = (kpre ++ [c0]).length := by simp
      rw [e1, e2, hlen, ih Mrest (kpre ++ [c0]) (Mpre ++ [ci]) (by simpa using h1)
        (by simp [h2])]
      · simp [List.replicate_succ]
      · rw [List.getElem?_append_left (by
          by_contra hc
          rw [List.getElem?_eq_none (by omega)] at h3
          exact Option.noConfusion h3)]
        exact h3
      · rw [List.getElem?_append_left (by
          by_contra hc
          rw [List.getElem?_eq_none (by omega)] at h4
          exact Option.noConfusion h4)]
        exact h4


/-- The outer loop passes every index at which `k[i] > M[i-1]`. -/
theorem next_partition_scan_skip (k M : List ℕ) (base : ℕ) : ∀ len : ℕ,
    (∀ t, t < len → ∃ a b, k[base + t + 1]? = some a ∧ M[base + t]? = some b ∧ b < a) →
    utils.next_partition_scan k M (base + len) = utils.next_partition_scan k M base := by
  intro len
  induction len with
  | zero => intro _; rfl
  | succ len ih =>
    intro h
    obtain ⟨a, b, ha, hb, hab⟩ := h len (Nat.lt_succ_self len)
    rw [← Nat.add_assoc, utils.next_partition_scan, ha, hb]
    simp only
    rw [if_neg (by omega)]
    exact ih (fun t ht => h t (Nat.lt_succ_of_lt ht))

/-- On the last restricted-growth string `0, 1, .., len` with its maxima, `next_partition`
returns `false` and leaves both vectors as they are. -/
theorem next_partition_last (len : ℕ) (hn : len + 1 < SIZE_T_MODULUS) :
    utils.next_partition (0 :: List.range' 1 len) (0 :: List.range' 1 len)
      = some (false, 0 :: List.range' 1 len, 0 :: List.range' 1 len) := by
  unfold utils.next_partition
  have hlen : (SIZE_T_MODULUS - 1 + (0 :: List.range' 1 len).length) % SIZE_T_MODULUS
      = 0 + len := by
    rw [List.length_cons, List.length_range']
    unfold SIZE_T_MODULUS at hn ⊢
    omega
  rw [hlen, next_partition_scan_skip _ _ 0 len]
  · rfl
  · intro t ht
    refine ⟨1 + t, t, ?_, ?_, by omega⟩
    · rw [zero_add, List.getElem?_cons_succ, List.getElem?_range' 1 1 ht]
      simp
    · rw [zero_add, ← List.range'_succ 0 len 1, List.getElem?_range' 0 1 (by omega)]
      simp

/-- One step of `next_partition`: after the prefix `0 :: p` with maximum `m`, an entry
`d <= m` followed by the largest possible tail `m+1, m+2, ..` becomes `d + 1` followed by
zeros, and the maxima follow. -/
theorem next_partition_step (p Mp : List ℕ) (m d len : ℕ) (hp : Mp.length = p.length)
    (hd : d ≤ m) (hm : m + 1 < SIZE_T_MODULUS) (hn : p.length + 2 + len < SIZE_T_MODULUS) :
    utils.next_partition ((0 :: p) ++ d :: List.range' (m + 1) len)
        ((Mp ++ [m]) ++ m :: List.range' (m + 1) len)
      = some (true, (0 :: p) ++ (d + 1) :: List.replicate len 0,
              (Mp ++ [m]) ++ max m (d + 1) :: List.replicate len (max m (d + 1))) := by
  unfold utils.next_partition
  have hP : (0 :: p).length = p.length + 1 := List.length_cons _ _
  have hQ : (Mp ++ [m]).length = p.length + 1 := by
    rw [List.length_append, hp]
    rfl
  have hlen : (SIZE_T_MODULUS - 1 + ((0 :: p) ++ d :: List.range' (m + 1) len).length)
      % SIZE_T_MODULUS = (p.length + 1) + len := by
    rw [List.length_append, List.length_cons, List.length_cons, List.length_range']
    unfold SIZE_T_MODULUS at hn ⊢
    omega
  rw [hlen, next_partition_scan_skip _ _ (p.length + 1) len]
  · have hk : ((0 :: p) ++ d :: List.range' (m + 1) len)[p.length + 1]? = some d := by
      rw [List.getElem?_append_right (by rw [hP]), hP, Nat.sub_self, List.getElem?_cons_zero]
    have hM0 : ((Mp ++ [m]) ++ m :: List.range' (m + 1) len)[p.length]? = some m := by
      rw [List.getElem?_append_left (by rw [hQ]; omega), ← hp,
        List.getElem?_concat_length]
    have hM1 : ((Mp ++ [m]) ++ m :: List.range' (m + 1) len)[p.length + 1]? = some m := by
      rw [List.getElem?_append_right (by rw [hQ]), hQ, Nat.sub_self, List.getElem?_cons_zero]
    have hmod : (d + 1) % SIZE_T_MODULUS = d + 1 := Nat.mod_eq_of_lt (by omega)
    have hmax : (if m > d + 1 then m else d + 1) = max m (d + 1) := by
      by_cases h : m > d + 1
      · rw [if_pos h, max_eq_left (le_of_lt h)]
      · rw [if_neg h, max_eq_right (by omega)]
    have hcount : ((0 :: p) ++ d :: List.range' (m + 1) len).length - 1 - (p.length + 1)
        = (List.range' (m + 1) len).length := by
      rw [List.length_append, List.length_cons, List.length_cons, List.length_range']
      omega
    have hstart : p.length + 2 = ((0 :: p) ++ [d + 1]).length := by
      rw [List.length_append, hP]
      rfl
    have hset1 : ((0 :: p) ++ d :: List.range' (m + 1) len).set (p.length + 1) (d + 1)
        = ((0 :: p) ++ [d + 1]) ++ List.range' (m + 1) len := by
      rw [List.set_append_right _ _ (by rw [hP]), hP, Nat.sub_self, List.set_cons_zero]
      simp
    have hset2 : ((Mp ++ [m]) ++ m :: List.range' (m + 1) len).set (p.length + 1)
          (max m (d + 1))
        = ((Mp ++ [m]) ++ [max m (d + 1)]) ++ List.range' (m + 1) len := by
      rw [List.set_append_right _ _ (by rw [hQ]), hQ, Nat.sub_self, List.set_cons_zero]
      simp
    rw [utils.next_partition_scan, hk, hM0]
    simp only
    rw [if_pos hd, hM1]
    simp only
    rw [hmod, hmax, hcount, hset1, hset2, hstart,
      next_partition_reset_spec (p.length + 1) 0 (max m (d + 1)) _ _ _ _ rfl
        (by rw [List.length_append, List.length_append, hP, hQ]; rfl)
        (by simp)
        (by rw [← hQ, List.getElem?_concat_length])]
    simp
  · intro t ht
    refine ⟨m + 1 + t, m + t, ?_, ?_, by omega⟩
    · rw [List.getElem?_append_right (by rw [hP]; omega), hP]
      have e : p.length + 1 + t + 1 - (p.length + 1) = t + 1 := by omega
      rw [e, List.getElem?_cons_succ, List.getElem?_range' (m + 1) 1 ht]
      simp
    · rw [List.getElem?_append_right (by rw [hQ]; omega), hQ]
      have e : p.length + 1 + t - (p.length + 1) = t := by omega
      rw [e, ← List.range'_succ m len 1, List.getElem?_range' m 1 (by omega)]
      simp

theorem runningMax_replicate_zero (len : ℕ) (m : ℕ) :
    runningMax m (List.replicate len 0) = List.replicate len m := by
  induction len with
  | zero => rfl
  | succ len ih =>
    rw [List.replicate_succ, List.replicate_succ, runningMax, Nat.max_zero, ih]

theorem runningMax_range' (len : ℕ) : ∀ m : ℕ,
    runningMax m (List.range' (m + 1) len) = List.range' (m + 1) len := by
  induction len with
  | zero => intro m; rfl
  | succ len ih =>
    intro m
    rw [List.range'_succ, runningMax, max_eq_right (Nat.le_succ m), ih (m + 1)]

theorem runningMax_length (s : List ℕ) : ∀ m : ℕ, (runningMax m s).length = s.length := by
  induction s with
  | nil => intro m; rfl
  | cons d s ih =>
    intro m
    rw [runningMax, List.length_cons, List.length_cons, ih]

/-- The first continuation is all zeros and the last one is `m+1, m+2, ..`. -/
theorem extensions_head_last (len : ℕ) : ∀ m : ℕ,
    (extensions m len).head? = some (List.replicate len 0) ∧
    (extensions m len).getLast? = some (List.range' (m + 1) len) := by
  induction len with
  | zero => intro m; exact ⟨rfl, rfl⟩
  | succ len ih =>
    intro m
    have hne : ∀ d, (extensions (max m d) len).map (fun s => d :: s) ≠ [] := by
      intro d h
      have := (ih (max m d)).1
      rw [List.map_eq_nil_iff.1 h] at this
      exact Option.noConfusion this
    constructor
    · rw [extensions, List.range_succ_eq_map, List.flatMap_cons, List.head?_append_of_ne_nil _
        (hne 0), List.head?_map, (ih (max m 0)).1]
      rfl
    · rw [extensions, List.range_succ, List.flatMap_append, List.flatMap_singleton,
        List.getLast?_append_of_ne_nil _ (hne (m + 1)), List.getLast?_map,
        (ih (max m (m + 1))).2, max_eq_right (Nat.le_succ m), List.range'_succ]
      rfl

/-- Along the list of continuations of a prefix, each call of `next_partition` returns `true`
and produces the next continuation together with its running maxima. -/
theorem extensions_chain (len : ℕ) : ∀ (m : ℕ) (p Mp : List ℕ), Mp.length = p.length →
    m + len < SIZE_T_MODULUS → p.length + 1 + len < SIZE_T_MODULUS →
    List.Chain' (fun s s' =>
      utils.next_partition ((0 :: p) ++ s) ((Mp ++ [m]) ++ runningMax m s)
        = some (true, (0 :: p) ++ s', (Mp ++ [m]) ++ runningMax m s'))
      (extensions m len) := by
  induction len with
  | zero =>
    intro m p Mp _ _ _
    exact List.chain'_singleton _
  | succ len ih =>
    intro m p Mp hp hm hn
    rw [extensions, List.flatMap_def]
    refine (List.chain'_flatten ?_).2 ⟨?_, ?_⟩
    · intro h
      obtain ⟨d, _, hd⟩ := List.mem_map.1 h
      have := (extensions_head_last len (max m d)).1
      rw [List.map_eq_nil_iff.1 hd] at this
      exact Option.noConfusion this
    · intro l hl
      obtain ⟨d, hd, rfl⟩ := List.mem_map.1 hl
      have hd2 : d ≤ m + 1 := by
        have := List.mem_range.1 hd
        omega
      rw [List.chain'_map]
      refine (ih (max m d) (p ++ [d]) (Mp ++ [m]) (by simp [hp]) ?_ ?_).imp ?_
      · have : max m d ≤ m + 1 := max_le (Nat.le_succ m) hd2
        omega
      · rw [List.length_append]
        simp only [List.length_singleton]
        omega
      · intro s s' h
        simpa [runningMax] using h
    · rw [List.chain'_map, List.chain'_range_succ]
      intro d hd x hx y hy
      have hdm : d ≤ m := by omega
      rw [List.getLast?_map, (extensions_head_last len (max m d)).2, max_eq_left hdm] at hx
      rw [List.head?_map, (extensions_head_last len (max m (d + 1))).1] at hy
      have hx2 : x = d :: List.range' (m + 1) len := by
        simpa using hx.symm
      have hy2 : y = (d + 1) :: List.replicate len 0 := by
        simpa using hy.symm
      rw [hx2, hy2, runningMax, runningMax, max_eq_left hdm, runningMax_range',
        runningMax_replicate_zero]
      exact next_partition_step p Mp m d len hp hdm (by omega) (by omega)

theorem mem_extensions (len : ℕ) : ∀ (m : ℕ) (s : List ℕ),
    s ∈ extensions m len ↔ s.length = len ∧ IsExtension m s := by
  induction len with
  | zero =>
    intro m s
    rw [extensions, List.mem_singleton]
    constructor
    · rintro rfl
      exact ⟨rfl, trivial⟩
    · rintro ⟨h, _⟩
      exact List.length_eq_zero.1 h
  | succ len ih =>
    intro m s
    rw [extensions, List.mem_flatMap]
    constructor
    · rintro ⟨d, hd, hs⟩
      obtain ⟨t, ht, rfl⟩ := List.mem_map.1 hs
      have h := (ih (max m d) t).1 ht
      have hd2 := List.mem_range.1 hd
      exact ⟨by rw [List.length_cons, h.1], by omega, h.2⟩
    · rintro ⟨hlen, hs⟩
      cases s with
      | nil => simp at hlen
      | cons d t =>
        refine ⟨d, List.mem_range.2 (by have := hs.1; omega), List.mem_map.2
          ⟨t, (ih (max m d) t).2 ⟨by simpa using hlen, hs.2⟩, rfl⟩⟩

/-- The list of continuations is strictly increasing in the lexicographic order. -/
theorem extensions_pairwise (len : ℕ) : ∀ m : ℕ,
    (extensions m len).Pairwise (List.Lex (fun a b => a < b)) := by
  induction len with
  | zero =>
    intro m
    exact List.pairwise_singleton _ _
  | succ len ih =>
    intro m
    rw [extensions, List.pairwise_flatMap]
    constructor
    · intro d _
      rw [List.pairwise_map]
      exact (ih (max m d)).imp (fun h => List.Lex.cons h)
    · refine (List.pairwise_lt_range (m + 2)).imp ?_
      intro d d' hdd x hx y hy
      obtain ⟨s, _, rfl⟩ := List.mem_map.1 hx
      obtain ⟨t, _, rfl⟩ := List.mem_map.1 hy
      exact List.Lex.rel hdd

theorem prefixMax_cons (a : ℕ) (s : List ℕ) (i : ℕ) :
    prefixMax (a :: s) (i + 1) = max a (prefixMax s i) := by
  induction i with
  | zero => rfl
  | succ i ih =>
    rw [prefixMax, ih, prefixMax, max_assoc]
    rfl

theorem isExtension_iff (s : List ℕ) : ∀ m : ℕ,
    IsExtension m s ↔
      ∀ i, i < s.length →
        s.getD i 0 ≤ (if i = 0 then m else max m (prefixMax s (i - 1))) + 1 := by
  induction s with
  | nil =>
    intro m
    constructor
    · intro _ i hi
      exact absurd hi (Nat.not_lt_zero i)
    · intro _
      trivial
  | cons d t ih =>
    intro m
    rw [IsExtension, ih (max m d)]
    constructor
    · rintro ⟨hd, ht⟩ i hi
      cases i with
      | zero => simpa using hd
      | succ j =>
        have h := ht j (by simpa using hi)
        cases j with
        | zero => simpa [prefixMax] using h
        | succ j =>
          rw [if_neg (Nat.succ_ne_zero _)] at h
          rw [if_neg (Nat.succ_ne_zero _)]
          simp only [Nat.add_sub_cancel] at h ⊢
          rw [prefixMax_cons, ← max_assoc]
          simpa using h
    · intro h
      refine ⟨by simpa using h 0 (by simp), ?_⟩
      intro j hj
      have hj2 := h (j + 1) (by simpa using hj)
      cases j with
      | zero => simpa [prefixMax] using hj2
      | succ j =>
        rw [if_neg (Nat.succ_ne_zero _)] at hj2
        rw [if_neg (Nat.succ_ne_zero _)]
        simp only [Nat.add_sub_cancel] at hj2 ⊢
        rw [prefixMax_cons, ← max_assoc] at hj2
        simpa using hj2

/-- A string of length `len + 1` is a restricted-growth string exactly when it is `0` followed
by a continuation of the prefix `0`. -/
theorem isRestrictedGrowth_iff (k : List ℕ) (len : ℕ) :
    (k.length = len + 1 ∧ IsRestrictedGrowth k) ↔
      ∃ s, k = 0 :: s ∧ s.length = len ∧ IsExtension 0 s := by
  have key : ∀ s : List ℕ, IsRestrictedGrowth (0 :: s) ↔ IsExtension 0 s := by
    intro s
    rw [isExtension_iff]
    unfold IsRestrictedGrowth
    constructor
    · rintro ⟨_, h⟩ i hi
      have hi2 := h (i + 1) (by simpa using hi) (Nat.succ_pos i)
      cases i with
      | zero => simpa [prefixMax] using hi2
      | succ j =>
        rw [if_neg (Nat.succ_ne_zero _)]
        simp only [Nat.add_sub_cancel] at hi2 ⊢
        rw [prefixMax_cons] at hi2
        simpa using hi2
    · intro h
      refine ⟨rfl, ?_⟩
      intro i hi h1
      obtain ⟨j, rfl⟩ : ∃ j, i = j + 1 := ⟨i - 1, by omega⟩
      have hj := h j (by simpa using hi)
      cases j with
      | zero => simpa [prefixMax] using hj
      | succ j =>
        rw [if_neg (Nat.succ_ne_zero _)] at hj
        simp only [Nat.add_sub_cancel] at hj ⊢
        rw [prefixMax_cons]
        simpa using hj
  constructor
  · rintro ⟨hlen, hk⟩
    cases k with
    | nil => simp at hlen
    | cons a s =>
      have ha : a = 0 := by simpa using hk.1
      subst ha
      exact ⟨s, rfl, by simpa using hlen, (key s).1 hk⟩
  · rintro ⟨s, rfl, hlen, hs⟩
    exact ⟨by rw [List.length_cons, hlen], (key s).2 hs⟩

/-- The running maxima are the prefix maxima. -/
theorem runningMax_getD (s : List ℕ) : ∀ (m i : ℕ), i < s.length →
    (runningMax m s).getD i 0 = max m (prefixMax s i) := by
  induction s with
  | nil =>
    intro m i hi
    exact absurd hi (Nat.not_lt_zero i)
  | cons d t ih =>
    intro m i hi
    cases i with
    | zero => rfl
    | succ j =>
      rw [runningMax, List.getD_cons_succ, ih (max m d) j (by simpa using hi), prefixMax_cons,
        max_assoc]

/-- A chain of calls returning `true` that ends in a call returning `false` is what
`partitionsFrom` records, given enough steps. -/
theorem partitionsFrom_of_chain : ∀ (L : List (List ℕ × List ℕ)) (a : List ℕ × List ℕ),
    List.Chain' (fun x y => utils.next_partition x.1 x.2 = some (true, y.1, y.2)) (a :: L) →
    (∀ z, (a :: L).getLast? = some z →
      utils.next_partition z.1 z.2 = some (false, z.1, z.2)) →
    ∀ fuel, (a :: L).length ≤ fuel → utils.partitionsFrom fuel a.1 a.2 = some (a :: L) := by
  intro L
  induction L with
  | nil =>
    intro a _ hlast fuel hfuel
    cases fuel with
    | zero => simp at hfuel
    | succ fuel =>
      rw [utils.partitionsFrom, hlast a rfl]
  | cons b L ih =>
    intro a hchain hlast fuel hfuel
    cases fuel with
    | zero => simp at hfuel
    | succ fuel =>
      rw [List.chain'_cons] at hchain
      rw [utils.partitionsFrom, hchain.1]
      simp only
      rw [ih b hchain.2 (fun z hz => hlast z (by rw [List.getLast?_cons_cons]; exact hz))
        fuel (by simpa using hfuel)]
      rfl

theorem getD_le_prefixMax (v : List ℕ) : ∀ i j : ℕ, j ≤ i → v.getD j 0 ≤ prefixMax v i := by
  intro i
  induction i with
  | zero =>
    intro j hj
    rw [Nat.le_zero.1 hj]
    exact le_rfl
  | succ i ih =>
    intro j hj
    rw [prefixMax]
    rcases Nat.eq_or_lt_of_le hj with h | h
    · rw [h]
      exact le_max_right _ _
    · exact le_trans (ih j (by omega)) (le_max_left _ _)

theorem prefixMax_congr (v w : List ℕ) : ∀ i : ℕ, (∀ j, j ≤ i → v.getD j 0 = w.getD j 0) →
    prefixMax v i = prefixMax w i := by
  intro i
  induction i with
  | zero =>
    intro h
    exact h 0 le_rfl
  | succ i ih =>
    intro h
    rw [prefixMax, prefixMax, ih (fun j hj => h j (by omega)), h (i + 1) le_rfl]

/-- A restricted-growth string uses every label up to its running maximum. -/
theorem prefixMax_attained (v : List ℕ) (hv : IsRestrictedGrowth v) : ∀ i : ℕ, i < v.length →
    ∀ c, c ≤ prefixMax v i → ∃ j, j ≤ i ∧ v.getD j 0 = c := by
  intro i
  induction i with
  | zero =>
    intro _ c hc
    refine ⟨0, le_rfl, ?_⟩
    have h0 : prefixMax v 0 = 0 := hv.1
    rw [h0] at hc
    rw [hv.1]
    omega
  | succ i ih =>
    intro hi c hc
    have hstep := hv.2 (i + 1) hi (Nat.succ_pos i)
    simp only [Nat.add_sub_cancel] at hstep
    by_cases hle : c ≤ prefixMax v i
    · obtain ⟨j, hj, hjc⟩ := ih (by omega) c hle
      exact ⟨j, by omega, hjc⟩
    · refine ⟨i + 1, le_rfl, ?_⟩
      rw [prefixMax] at hc
      rcases le_max_iff.1 hc with h | h
      · exact absurd h hle
      · omega

/-- Two restricted-growth strings that describe the same set partition are equal. -/
theorem restrictedGrowth_unique (v w : List ℕ) (hv : IsRestrictedGrowth v)
    (hw : IsRestrictedGrowth w) (h : SamePartition v w) : v = w := by
  have hpoint : ∀ i, i < v.length → v.getD i 0 = w.getD i 0 := by
    intro i
    induction i using Nat.strong_induction_on with
    | _ i ih =>
      intro hi
      cases i with
      | zero => rw [hv.1, hw.1]
      | succ i =>
        have hpm : prefixMax v i = prefixMax w i :=
          prefixMax_congr v w i (fun j hj => ih j (by omega) (by omega))
        have h1 := hv.2 (i + 1) hi (Nat.succ_pos i)
        have h2 := hw.2 (i + 1) (by rw [← h.1]; exact hi) (Nat.succ_pos i)
        simp only [Nat.add_sub_cancel] at h1 h2
        by_cases hlv : v.getD (i + 1) 0 ≤ prefixMax v i
        · obtain ⟨j, hj, hjc⟩ := prefixMax_attained v hv i (by omega) _ hlv
          have hk := (h.2 j (i + 1) (by omega) hi).1 hjc
          rw [← hjc, ih j (by omega) (by omega), hk]
        · by_cases hlw : w.getD (i + 1) 0 ≤ prefixMax w i
          · obtain ⟨j, hj, hjc⟩ := prefixMax_attained w hw i (by rw [← h.1]; omega) _ hlw
            have hk := (h.2 j (i + 1) (by omega) hi).2 hjc
            rw [← hk, ih j (by omega) (by omega), hjc]
          · omega
  apply List.ext_getElem h.1
  intro i h1 h2
  have := hpoint i h1
  rwa [List.getD_eq_getElem _ _ h1, List.getD_eq_getElem _ _ h2] at this

theorem getD_append_singleton (v : List ℕ) (y i : ℕ) :
    (v ++ [y]).getD i 0 = if i < v.length then v.getD i 0 else if i = v.length then y else 0 := by
  simp only [List.getD_eq_getElem?_getD]
  by_cases h : i < v.length
  · rw [if_pos h, List.getElem?_append_left h]
  · rw [if_neg h]
    by_cases h2 : i = v.length
    · rw [if_pos h2, h2, List.getElem?_concat_length]
      rfl
    · rw [if_neg h2, List.getElem?_eq_none (by simp; omega)]
      rfl

theorem prefixMax_append_singleton (v : List ℕ) (y : ℕ) : ∀ i, i < v.length →
    prefixMax (v ++ [y]) i = prefixMax v i := by
  intro i hi
  apply prefixMax_congr
  intro j hj
  rw [getD_append_singleton, if_pos (by omega)]

/-- Every assignment of labels describes the same set partition as some restricted-growth
string. -/
theorem restrictedGrowth_exists (a : List ℕ) :
    ∃ v, IsRestrictedGrowth v ∧ SamePartition a v := by
  induction a using List.reverseRecOn with
  | nil => exact ⟨[], ⟨rfl, fun i hi => absurd hi (Nat.not_lt_zero i)⟩, rfl, fun i j hi =>
      absurd hi (Nat.not_lt_zero i)⟩
  | append_singleton a x ih =>
    obtain ⟨v, hv, hlen, hker⟩ := ih
    have hgrow : ∀ y, (v = [] → y = 0) → (v ≠ [] → y ≤ prefixMax v (v.length - 1) + 1) →
        IsRestrictedGrowth (v ++ [y]) := by
      intro y h0 h1
      constructor
      · rw [getD_append_singleton]
        by_cases hv0 : 0 < v.length
        · rw [if_pos hv0]
          exact hv.1
        · have : v = [] := List.length_eq_zero.1 (by omega)
          rw [if_neg hv0, if_pos (by rw [this]; rfl)]
          exact h0 this
      · intro i hi hi1
        rw [List.length_append, List.length_singleton] at hi
        rw [getD_append_singleton]
        by_cases hiv : i < v.length
        · rw [if_pos hiv, prefixMax_append_singleton v y (i - 1) (by omega)]
          exact hv.2 i hiv hi1
        · have hie : i = v.length := by omega
          have hne : v ≠ [] := by
            intro h
            rw [h] at hie
            simp at hie
            omega
          rw [if_neg hiv, if_pos hie, hie, prefixMax_append_singleton v y _ (by omega)]
          exact h1 hne
    have hsame : ∀ y, (∀ i, i < a.length → (a.getD i 0 = x ↔ v.getD i 0 = y)) →
        SamePartition (a ++ [x]) (v ++ [y]) := by
      intro y hy
      refine ⟨by simp [hlen], ?_⟩
      intro i j hi hj
      rw [List.length_append, List.length_singleton] at hi hj
      rw [getD_append_singleton, getD_append_singleton, getD_append_singleton,
        getD_append_singleton, ← hlen]
      by_cases hia : i < a.length
      · by_cases hja : j < a.length
        · rw [if_pos hia, if_pos hja, if_pos hia, if_pos hja]
          exact hker i j hia hja
        · rw [if_pos hia, if_neg hja, if_pos (by omega), if_pos hia, if_neg hja,
            if_pos (by omega)]
          exact hy i hia
      · by_cases hja : j < a.length
        · rw [if_neg hia, if_pos (by omega), if_pos hja, if_neg hia, if_pos (by omega),
            if_pos hja]
          constructor
          · intro h
            exact ((hy j hja).1 h.symm).symm
          · intro h
            exact ((hy j hja).2 h.symm).symm
        · rw [if_neg hia, if_pos (by omega), if_neg hja, if_pos (by omega), if_neg hia,
            if_pos (by omega), if_neg hja, if_pos (by omega)]
          exact ⟨fun _ => rfl, fun _ => rfl⟩
    by_cases hex : ∃ j, j < a.length ∧ a.getD j 0 = x
    · obtain ⟨j, hj, hjx⟩ := hex
      have hne : v ≠ [] := by
        intro h
        have h0 : a.length = 0 := by rw [hlen, h]; rfl
        omega
      refine ⟨v ++ [v.getD j 0], hgrow _ (fun h => absurd h hne) (fun _ => ?_), hsame _ ?_⟩
      · exact le_trans (getD_le_prefixMax v (v.length - 1) j (by omega)) (Nat.le_succ _)
      · intro i hi
        rw [← hjx]
        exact hker i j hi hj
    · by_cases hv0 : v = []
      · refine ⟨v ++ [0], hgrow 0 (fun _ => rfl) (fun h => absurd hv0 h), hsame 0 ?_⟩
        intro i hi
        have h0 : a.length = 0 := by rw [hlen, hv0]; rfl
        omega
      · refine ⟨v ++ [prefixMax v (v.length - 1) + 1],
          hgrow _ (fun h => absurd h hv0) (fun _ => le_rfl), hsame _ ?_⟩
        intro i hi
        constructor
        · intro h
          exact absurd ⟨i, hi, h⟩ hex
        · intro h
          have := getD_le_prefixMax v (v.length - 1) i (by omega)
          omega

theorem extensions_nodup (len m : ℕ) : (extensions m len).Nodup :=
  (extensions_pairwise len m).imp (fun h heq => by
    rw [heq] at h
    exact (List.Lex.isAsymm (fun a b : ℕ => a < b)).asymm _ _ h h)

/-- The restricted-growth strings of length `len + 1` are as many as the set partitions of
`len + 1` items. -/
theorem extensions_length_bell (len : ℕ) : (extensions 0 len).length = Bell (len + 1) := by
  have hrg : ∀ s ∈ extensions 0 len, (0 :: s).length = len + 1 ∧ IsRestrictedGrowth (0 :: s) :=
    fun s hs => (isRestrictedGrowth_iff (0 :: s) len).2
      ⟨s, rfl, ((mem_extensions len 0 s).1 hs).1, ((mem_extensions len 0 s).1 hs).2⟩
  have hbij : Function.Bijective
      (fun t : Fin (extensions 0 len).length =>
        Setoid.ker (fun i : Fin (len + 1) => (0 :: (extensions 0 len).get t).getD i.val 0)) := by
    constructor
    · intro t t' htt
      have h1 := hrg _ (List.get_mem (extensions 0 len) t.1 t.2)
      have h2 := hrg _ (List.get_mem (extensions 0 len) t'.1 t'.2)
      have hsame : SamePartition (0 :: (extensions 0 len).get t)
          (0 :: (extensions 0 len).get t') := by
        refine ⟨by rw [h1.1, h2.1], ?_⟩
        intro i j hi hj
        rw [h1.1] at hi hj
        have := (Setoid.ext_iff.1 htt) ⟨i, hi⟩ ⟨j, hj⟩
        exact this
      have heq := restrictedGrowth_unique _ _ h1.2 h2.2 hsame
      exact (List.nodup_iff_injective_get.1 (extensions_nodup len 0)) (List.cons_injective heq)
    · intro r
      obtain ⟨v, hv, hlen, hker⟩ := restrictedGrowth_exists
        (List.ofFn (fun i : Fin (len + 1) =>
          ((Finite.equivFin (Quotient r)) (Quotient.mk r i)).val))
      rw [List.length_ofFn] at hlen hker
      obtain ⟨s, rfl, hs1, hs2⟩ := (isRestrictedGrowth_iff v len).1 ⟨hlen.symm, hv⟩
      obtain ⟨t, ht⟩ := List.get_of_mem ((mem_extensions len 0 s).2 ⟨hs1, hs2⟩)
      refine ⟨t, ?_⟩
      apply Setoid.ext
      intro i j
      show (0 :: (extensions 0 len).get t).getD i.val 0
          = (0 :: (extensions 0 len).get t).getD j.val 0 ↔ r i j
      rw [ht, ← hker i.val j.val i.2 j.2,
        List.getD_eq_getElem _ _ (by rw [List.length_ofFn]; exact i.2),
        List.getD_eq_getElem _ _ (by rw [List.length_ofFn]; exact j.2),
        List.getElem_ofFn, List.getElem_ofFn]
      constructor
      · intro h
        exact Quotient.eq.1 ((Finite.equivFin (Quotient r)).injective (Fin.val_injective h))
      · intro h
        rw [Quotient.eq.2 h]
  have := Nat.card_eq_of_bijective _ hbij
  rw [Nat.card_eq_fintype_card, Fintype.card_fin] at this
  exact this

/-- A call of `next_partition` that returns `false` leaves both vectors as they are. -/
theorem next_partition_scan_false (k M : List ℕ) : ∀ (i : ℕ) (k1 M1 : List ℕ),
    utils.next_partition_scan k M i = some (false, k1, M1) → k1 = k ∧ M1 = M := by
  intro i
  induction i with
  | zero =>
    intro k1 M1 h
    rw [utils.next_partition_scan] at h
    simp only [Option.some.injEq, Prod.mk.injEq, true_and] at h
    exact ⟨h.1.symm, h.2.symm⟩
  | succ i ih =>
    intro k1 M1 h
    rw [utils.next_partition_scan] at h
    split at h
    · split at h
      · split at h
        · exact Option.noConfusion h
        · split at h
          · simp at h
          · exact Option.noConfusion h
      · exact ih k1 M1 h
    · exact Option.noConfusion h

/-- C30: starting from `k` and `M` both all-zero of length `n >= 1`, calling `next_partition`
until it returns `false` terminates and visits a list of states such that: every visited `k`
is a restricted-growth string (`k[0] = 0` and `k[i] <= max(k[0..i-1]) + 1`) with
`M[i] = max(k[0..i])` for every `i`; every call that returns `true` leads to the next visited
state, whose `k` is lexicographically greater than before; a call that returns `false` leaves
`k` and `M` unchanged; no string is visited twice, every restricted-growth string of length
`n` is visited, and every set partition of `n` items (given by any assignment of labels) is
described by exactly one visited string, so that `Bell(n)` assignments are visited, the start
included; for `n = 3` they are 000, 001, 010, 011, 012. -/
theorem next_partition_spec (n : ℕ) (hn : 1 ≤ n) (hsz : n < SIZE_T_MODULUS) :
    ∃ visited : List (List ℕ × List ℕ),
      (∀ fuel, visited.length ≤ fuel →
        utils.partitionsFrom fuel (List.replicate n 0) (List.replicate n 0) = some visited) ∧
      visited.head? = some (List.replicate n 0, List.replicate n 0) ∧
      (∀ x ∈ visited, x.1.length = n ∧ x.2.length = n ∧ IsRestrictedGrowth x.1 ∧
        ∀ i, i < n → x.2.getD i 0 = prefixMax x.1 i) ∧
      (∀ x ∈ visited, ∀ k1 M1, utils.next_partition x.1 x.2 = some (true, k1, M1) →
        (k1, M1) ∈ visited ∧ List.Lex (fun a b => a < b) x.1 k1) ∧
      (∀ k M k1 M1, utils.next_partition k M = some (false, k1, M1) → k1 = k ∧ M1 = M) ∧
      (visited.map Prod.fst).Nodup ∧
      (∀ k, k.length = n → IsRestrictedGrowth k → k ∈ visited.map Prod.fst) ∧
      (∀ a : List ℕ, a.length = n → ∃! k, k ∈ visited.map Prod.fst ∧ SamePartition a k) ∧
      visited.length = Bell n ∧
      (n = 3 → visited.map Prod.fst
        = [[0, 0, 0], [0, 0, 1], [0, 1, 0], [0, 1, 1], [0, 1, 2]]) := by
  obtain ⟨len, rfl⟩ : ∃ len, n = len + 1 := ⟨n - 1, by omega⟩
  have hstep : List.Chain'
      (fun x y : List ℕ × List ℕ => utils.next_partition x.1 x.2 = some (true, y.1, y.2))
      ((extensions 0 len).map fun s => (0 :: s, 0 :: runningMax 0 s)) := by
    rw [List.chain'_map]
    refine (extensions_chain len 0 [] [] rfl (by omega)
      (by simp only [List.length_nil]; omega)).imp ?_
    intro s s' h
    simpa using h
  have hlast : ∀ z, ((extensions 0 len).map fun s => (0 :: s, 0 :: runningMax 0 s)).getLast?
      = some z → utils.next_partition z.1 z.2 = some (false, z.1, z.2) := by
    intro z hz
    rw [List.getLast?_map, (extensions_head_last len 0).2] at hz
    have hz2 : z = (0 :: List.range' 1 len, 0 :: List.range' 1 len) := by
      have := runningMax_range' len 0
      simp only [zero_add] at this
      simpa [this] using hz.symm
    rw [hz2]
    exact next_partition_last len hsz
  have hfst : (((extensions 0 len).map fun s => (0 :: s, 0 :: runningMax 0 s)).map Prod.fst)
      = (extensions 0 len).map fun s => 0 :: s := by
    rw [List.map_map]
    rfl
  have hrg : ∀ s ∈ extensions 0 len, (0 :: s).length = len + 1 ∧ IsRestrictedGrowth (0 :: s) :=
    fun s hs => (isRestrictedGrowth_iff (0 :: s) len).2
      ⟨s, rfl, ((mem_extensions len 0 s).1 hs).1, ((mem_extensions len 0 s).1 hs).2⟩
  have hcomplete : ∀ k, k.length = len + 1 → IsRestrictedGrowth k →
      k ∈ (extensions 0 len).map fun s => 0 :: s := by
    intro k hk1 hk2
    obtain ⟨s, rfl, hs1, hs2⟩ := (isRestrictedGrowth_iff k len).1 ⟨hk1, hk2⟩
    exact List.mem_map.2 ⟨s, (mem_extensions len 0 s).2 ⟨hs1, hs2⟩, rfl⟩
  have hlex : (((extensions 0 len).map fun s => (0 :: s, 0 :: runningMax 0 s))).Pairwise
      (fun x y => List.Lex (fun a b => a < b) x.1 y.1) := by
    rw [List.pairwise_map]
    exact (extensions_pairwise len 0).imp (fun h => List.Lex.cons h)
  refine ⟨(extensions 0 len).map fun s => (0 :: s, 0 :: runningMax 0 s),
    ?_, ?_, ?_, ?_, ?_, ?_, ?_, ?_, ?_, ?_⟩
  · intro fuel hfuel
    have hhead := (extensions_head_last len 0).1
    cases hE : extensions 0 len with
    | nil =>
      rw [hE] at hhead
      exact Option.noConfusion hhead
    | cons e0 rest =>
      rw [hE] at hhead hstep hlast hfuel
      have he0 : e0 = List.replicate len 0 := by simpa using hhead
      have h := partitionsFrom_of_chain _ _ hstep hlast fuel hfuel
      rw [he0] at h
      simp only [runningMax_replicate_zero, ← List.replicate_succ] at h
      rw [he0, List.map_cons]
      simp only [runningMax_replicate_zero, ← List.replicate_succ]
      exact h
  · rw [List.head?_map, (extensions_head_last len 0).1, Option.map_some',
      runningMax_replicate_zero]
    rfl
  · intro x hx
    obtain ⟨s, hs, rfl⟩ := List.mem_map.1 hx
    have h := hrg s hs
    refine ⟨h.1, ?_, h.2, ?_⟩
    · show (0 :: runningMax 0 s).length = len + 1
      rw [List.length_cons, runningMax_length, ((mem_extensions len 0 s).1 hs).1]
    · intro i hi
      have := runningMax_getD (0 :: s) 0 i (by rw [h.1]; exact hi)
      rw [Nat.zero_max] at this
      exact this
  · intro x hx k1 M1 hcall
    obtain ⟨l1, l2, hsplit⟩ := List.append_of_mem hx
    cases l2 with
    | nil =>
      have := hlast x (by rw [hsplit, List.getLast?_append]; rfl)
      rw [this] at hcall
      simp at hcall
    | cons y l3 =>
      rw [hsplit] at hstep hlex
      have h1 := (List.chain'_cons.1 (List.chain'_append.1 hstep).2.1).1
      rw [h1] at hcall
      have hy : y = (k1, M1) := by
        simp only [Option.some.injEq, Prod.mk.injEq, true_and] at hcall
        exact Prod.ext hcall.1 hcall.2
      have h2 := (List.pairwise_cons.1 (List.pairwise_append.1 hlex).2.1).1 y
        (List.mem_cons_self _ _)
      rw [hy] at h2
      refine ⟨?_, h2⟩
      rw [hsplit, ← hy]
      simp
  · intro k M k1 M1 h
    unfold utils.next_partition at h
    exact next_partition_scan_false k M _ k1 M1 h
  · rw [hfst]
    exact (extensions_nodup len 0).map (List.cons_injective)
  · intro k hk1 hk2
    rw [hfst]
    exact hcomplete k hk1 hk2
  · intro a ha
    obtain ⟨v, hv, hlen, hker⟩ := restrictedGrowth_exists a
    rw [hfst]
    refine ⟨v, ⟨hcomplete v (by rw [← hlen, ha]) hv, hlen, hker⟩, ?_⟩
    rintro w ⟨hw, hwlen, hwker⟩
    obtain ⟨s, hs, rfl⟩ := List.mem_map.1 hw
    refine restrictedGrowth_unique _ _ (hrg s hs).2 hv ⟨by rw [← hwlen, hlen], ?_⟩
    intro i j hi hj
    rw [← hwlen] at hi hj
    exact (hwker i j hi hj).symm.trans (hker i j hi hj)
  · rw [List.length_map]
    exact extensions_length_bell len
  · intro h3
    have : len = 2 := by omega
    subst this
    rw [hfst]
    decide

theorem next_partition_spec_witness :
    ∃ visited : List (List ℕ × List ℕ),
      (∀ fuel, visited.length ≤ fuel →
        utils.partitionsFrom fuel (List.replicate 3 0) (List.replicate 3 0) = some visited) ∧
      visited.map Prod.fst = [[0, 0, 0], [0, 0, 1], [0, 1, 0], [0, 1, 1], [0, 1, 2]] :=
  Exists.elim (next_partition_spec 3 (by decide) (by decide))
    (fun visited h => ⟨visited, h.1, h.2.2.2.2.2.2.2.2.2 rfl⟩)

end baxcat
